import Mathlib

/-!
# A verification development for the `bittorrent` leeching client

Shallow embedding of the peer wire protocol codec (`pwp/pwp.go`), the bitfield
packing helpers (`peer.go`), the bencode lexer, parser and info-section digest
(`bencode/lexer.go`, `bencode/parser.go`, `bencode/bencode.go`), the tracker
response and announce URL (`tracker.go`), the metainfo, the piece manager and
the download driver (`main.go`), the file store (`file.go`, `piece.go`) and
the message router (`net.go`), followed by theorems about them.

Conventions of the embedding:

* a Go `byte` is a `Nat` below `256`, a `uint32` a `Nat` below `2 ^ 32`; the
  bounds are stated as hypotheses where a theorem needs them;
* a Go `[]byte` / `string` is a `List Nat`; a slice obtained from
  `make([]T, n)` has capacity `n`, so a slice expression `b[lo:hi]` on it
  panics exactly when `hi` exceeds the length (or `lo` exceeds `hi`);
* a Go function that may return an error or hit a run-time panic returns an
  `Outcome`.
-/

namespace Bittorrent

/-! ## Outcomes of Go calls -/

/-- Result of a Go call: a value, a returned `error`, or a run-time panic. -/
inductive Outcome (ε α : Type) where
  | ok (v : α)
  | error (e : ε)
  | panic
  deriving DecidableEq, Repr

/-- Whether the call returned normally, with a value or an `error`. -/
def Outcome.returns {ε α : Type} : Outcome ε α → Bool
  | .ok _ => true
  | .error _ => true
  | .panic => false

/-- Whether the call returned a non-nil `error`. -/
def Outcome.isError {ε α : Type} : Outcome ε α → Bool
  | .error _ => true
  | _ => false

/-- Whether the call returned a value and a nil `error`. -/
def Outcome.isOk {ε α : Type} : Outcome ε α → Bool
  | .ok _ => true
  | _ => false

/-! ## Slices -/

/-- The slice expression `b[lo:hi]` on a slice whose capacity is its length:
`none` stands for the "slice bounds out of range" panic. -/
def slice {α : Type} (b : List α) (lo hi : Nat) : Option (List α) :=
  if lo ≤ hi ∧ hi ≤ b.length then some ((b.take hi).drop lo) else none

/-- The slice expression `b[lo:]`. -/
def sliceFrom {α : Type} (b : List α) (lo : Nat) : Option (List α) :=
  if lo ≤ b.length then some (b.drop lo) else none

/-- The builtin `copy(dst[lo:hi], src)` for `lo ≤ hi ≤ len(dst)`: the first
`min (hi - lo) (len src)` elements of `src` overwrite `dst` from index `lo`. -/
def copyInto {α : Type} (dst : List α) (lo hi : Nat) (src : List α) : List α :=
  dst.take lo ++ src.take (hi - lo) ++ dst.drop (lo + min (hi - lo) src.length)

/-! ## `encoding/binary`, big endian -/

/-- The four bytes `binary.BigEndian.PutUint32` stores for `v`. -/
def uint32Bytes (v : Nat) : List Nat :=
  [(v >>> 24) % 256, (v >>> 16) % 256, (v >>> 8) % 256, v % 256]

/-- The call `binary.BigEndian.PutUint32(b[lo:lo+4], v)`. -/
def PutUint32 (b : List Nat) (lo : Nat) (v : Nat) : List Nat :=
  copyInto b lo (lo + 4) (uint32Bytes v)

/-- The call `binary.BigEndian.Uint32(s)`; it panics (`none`) on fewer than four bytes. -/
def Uint32 (s : List Nat) : Option Nat :=
  match s with
  | b0 :: b1 :: b2 :: b3 :: _ => some (b3 ||| (b2 <<< 8) ||| (b1 <<< 16) ||| (b0 <<< 24))
  | _ => none

/-! ## `pwp/pwp.go` -/

namespace pwp

def MessageChoke : Nat := 0
def MessageUnchoke : Nat := 1
def MessageInterested : Nat := 2
def MessageNotInterested : Nat := 3
def MessageHave : Nat := 4
def MessageBitfield : Nat := 5
def MessageRequest : Nat := 6
def MessagePiece : Nat := 7
def MessageCancel : Nat := 8

/-- The errors the codec returns. -/
inductive Error where
  | unknownProtocol
  | zeroLength
  | unknownType (typ : Nat)
  deriving DecidableEq, Repr

/-- The struct `Handshake`; the two arrays are `[20]byte`. -/
structure Handshake where
  InfoHash : List Nat
  PeerID : List Nat
  deriving DecidableEq, Repr

/-- The struct `Message`; a nil and an empty `Data` are not told apart. -/
structure Message where
  Typ : Nat
  PieceIndex : Nat
  BlockOffset : Nat
  BlockLength : Nat
  Data : List Nat
  deriving DecidableEq, Repr

/-- The bytes of the string literal `"BitTorrent protocol"`. -/
def protocolString : List Nat :=
  "BitTorrent protocol".toList.map Char.toNat

/-- The zero value of `[20]byte`. -/
def zero20 : List Nat := List.replicate 20 0

/-- The method `Handshake.Marshal`. -/
def Handshake.Marshal (h : Handshake) : List Nat :=
  let b := List.replicate 68 0
  let b := b.set 0 19
  let b := copyInto b 1 20 protocolString
  let b := copyInto b 28 48 h.InfoHash
  let b := copyInto b 48 68 h.PeerID
  b

/-- The body of the `switch` of `Message.Marshal`: the buffer and the length
after it, or `none` for the panic of the `default` case. -/
def marshalBody (msg : Message) : Option (List Nat × Nat) :=
  let b := List.replicate 5 0
  let length := 1
  if msg.Typ = MessageChoke ∨ msg.Typ = MessageUnchoke ∨ msg.Typ = MessageInterested
      ∨ msg.Typ = MessageNotInterested then
    some (b, length)
  else if msg.Typ = MessageHave then
    let b := b ++ List.replicate 4 0
    let b := PutUint32 b 5 msg.PieceIndex
    some (b, length + 4)
  else if msg.Typ = MessageRequest ∨ msg.Typ = MessageCancel then
    let b := b ++ List.replicate 12 0
    let b := PutUint32 b 5 msg.PieceIndex
    let b := PutUint32 b 9 msg.BlockOffset
    let b := PutUint32 b 13 msg.BlockLength
    some (b, length + 12)
  else if msg.Typ = MessageBitfield then
    let b := b ++ msg.Data
    some (b, length + msg.Data.length)
  else if msg.Typ = MessagePiece then
    let b := b ++ List.replicate 8 0
    let b := PutUint32 b 5 msg.PieceIndex
    let b := PutUint32 b 9 msg.BlockOffset
    let b := b ++ msg.Data
    some (b, length + 8 + msg.Data.length)
  else
    none

/-- The method `Message.Marshal`; it panics on an unknown type and on a length
that does not survive the conversion to `uint32`. -/
def Message.Marshal (msg : Message) : Outcome Error (List Nat) :=
  match marshalBody msg with
  | none => .panic
  | some (b, length) =>
    let b := b.set 4 msg.Typ
    if length ≠ length % 2 ^ 32 then .panic
    else .ok (PutUint32 b 0 length)

/-- The method `Message.Id`: the frame of the message without its `Data`. -/
def Message.Id (msg : Message) : Outcome Error (List Nat) :=
  Message.Marshal
    { Typ := msg.Typ, PieceIndex := msg.PieceIndex, BlockOffset := msg.BlockOffset,
      BlockLength := msg.BlockLength, Data := [] }

/-- The function `unmarshalHandshake`, called on a buffer of 68 bytes. -/
def unmarshalHandshake (b : List Nat) : Outcome Error Handshake :=
  match b[0]? with
  | none => .panic
  | some b0 =>
    if b0 ≠ 19 then .error .unknownProtocol
    else
      match slice b 1 20 with
      | none => .panic
      | some s =>
        if s ≠ protocolString then .error .unknownProtocol
        else
          match slice b 48 68 with
          | none => .panic
          | some p => .ok { InfoHash := zero20, PeerID := copyInto zero20 0 20 p }

/-- Reads `binary.BigEndian.Uint32(b[lo:hi])`; `none` is a panic. -/
def readUint32 (b : List Nat) (lo hi : Nat) : Option Nat :=
  (slice b lo hi).bind Uint32

/-- Turns the `none` of a panicking computation into `Outcome.panic`. -/
def orPanic {α : Type} (r : Option α) : Outcome Error α :=
  match r with
  | some v => .ok v
  | none => .panic

/-- The function `unmarshalMessage`. -/
def unmarshalMessage (b : List Nat) : Outcome Error Message :=
  if b.length = 0 then .error .zeroLength
  else
    let typ := b.headD 0
    let msg : Message :=
      { Typ := typ, PieceIndex := 0, BlockOffset := 0, BlockLength := 0, Data := [] }
    if typ = MessageChoke ∨ typ = MessageUnchoke ∨ typ = MessageInterested
        ∨ typ = MessageNotInterested then
      .ok msg
    else if typ = MessageHave then
      orPanic do
        let pieceIndex ← readUint32 b 1 5
        pure { msg with PieceIndex := pieceIndex }
    else if typ = MessageRequest ∨ typ = MessageCancel then
      orPanic do
        let pieceIndex ← readUint32 b 1 5
        let blockOffset ← readUint32 b 5 9
        let blockLength ← readUint32 b 9 13
        pure { msg with PieceIndex := pieceIndex, BlockOffset := blockOffset,
                        BlockLength := blockLength }
    else if typ = MessageBitfield then
      orPanic do
        let data ← sliceFrom b 1
        pure { msg with Data := data }
    else if typ = MessagePiece then
      orPanic do
        let pieceIndex ← readUint32 b 1 5
        let blockOffset ← readUint32 b 5 9
        let data ← sliceFrom b 9
        pure { msg with PieceIndex := pieceIndex, BlockOffset := blockOffset, Data := data }
    else
      .error (.unknownType typ)

/-- The payload `ReadMessage` hands to `unmarshalMessage` when the stream
holds `frame`: the `L` bytes after the 4-byte big-endian length `L`. -/
def framePayload (frame : List Nat) : Option (List Nat) :=
  match Uint32 (frame.take 4) with
  | some u => slice frame 4 (4 + u)
  | none => none

/-- The value of `length` at the end of `Message.Marshal`: the size of the
frame's payload, type byte included. -/
def payloadLength (m : Message) : Nat :=
  if m.Typ = MessageHave then 5
  else if m.Typ = MessageRequest ∨ m.Typ = MessageCancel then 13
  else if m.Typ = MessageBitfield then m.Data.length + 1
  else if m.Typ = MessagePiece then m.Data.length + 9
  else 1

/-- The bytes `Message.Marshal` appends after the type byte. -/
def wireBody (m : Message) : List Nat :=
  if m.Typ = MessageHave then uint32Bytes m.PieceIndex
  else if m.Typ = MessageRequest ∨ m.Typ = MessageCancel then
    uint32Bytes m.PieceIndex ++ uint32Bytes m.BlockOffset ++ uint32Bytes m.BlockLength
  else if m.Typ = MessageBitfield then m.Data
  else if m.Typ = MessagePiece then
    uint32Bytes m.PieceIndex ++ uint32Bytes m.BlockOffset ++ m.Data
  else []

/-- The message `m` with every field that the wire format of its type does not
carry reset to its zero value. -/
def wireFields (m : Message) : Message :=
  { Typ := m.Typ
    PieceIndex :=
      if m.Typ = MessageHave ∨ m.Typ = MessageRequest ∨ m.Typ = MessageCancel
        ∨ m.Typ = MessagePiece then m.PieceIndex else 0
    BlockOffset :=
      if m.Typ = MessageRequest ∨ m.Typ = MessageCancel ∨ m.Typ = MessagePiece then m.BlockOffset
      else 0
    BlockLength := if m.Typ = MessageRequest ∨ m.Typ = MessageCancel then m.BlockLength else 0
    Data := if m.Typ = MessageBitfield ∨ m.Typ = MessagePiece then m.Data else [] }

end pwp

/-! ## `peer.go`: bitfields -/

/-- The loop `for i := 0; i < n; i++ { s = body(i, s) }`. -/
def forLoop {σ : Type} (n : Nat) (body : Nat → σ → σ) (s : σ) : σ :=
  match n with
  | 0 => s
  | k + 1 => body k (forLoop k body s)

/-- The test `x&(1<<(8-uint(i+1))) > 0` of both bitmap functions' inner loop. -/
def bitSet (x i : Nat) : Bool :=
  decide (x &&& (1 <<< (8 - (i + 1))) > 0)

/-- The function `unpackBitmap`. -/
def unpackBitmap (b : List Nat) : List Bool :=
  forLoop b.length
    (fun j m =>
      forLoop 8 (fun i m => if bitSet (b.getD j 0) i then m.set (8 * j + i) true else m) m)
    (List.replicate (b.length * 8) false)

/-- The function `packBitmap`. -/
def packBitmap (m : List Bool) : List Nat :=
  let l := m.length / 8
  let l := if m.length % 8 ≠ 0 then l + 1 else l
  forLoop l
    (fun j b =>
      forLoop 8
        (fun i b =>
          if 8 * j + i < m.length ∧ m.getD (8 * j + i) false = true then
            b.set j (b.getD j 0 ||| (1 <<< (8 - (i + 1))))
          else b)
        b)
    (List.replicate l 0)

/-- The peer's pieces-set of `shakeHands`: `unpackBitmap(m.Data)[:len(c.piecesSet)]`,
with `data` the payload of the peer's bitfield message and `n` the piece
count; `none` is the panic of the slice expression. -/
def peerPiecesSet (data : List Nat) (n : Nat) : Option (List Bool) :=
  slice (unpackBitmap data) 0 n

/-- The byte that `packBitmap` builds at index `j`: the masks of the set
entries among `m[8j] .. m[8j+7]`, or-ed together. -/
def packedByte (m : List Bool) (j : Nat) : Nat :=
  forLoop 8
    (fun i acc =>
      if 8 * j + i < m.length ∧ m.getD (8 * j + i) false = true then
        acc ||| (1 <<< (8 - (i + 1)))
      else acc)
    0

/-- The byte `packBitmap` rebuilds from the first `r` unpacked bits of byte `x`. -/
def maskedByte (x r : Nat) : Nat :=
  forLoop 8
    (fun i acc => if i < r ∧ bitSet x i = true then acc ||| (1 <<< (8 - (i + 1))) else acc) 0

/-! ## `bencode/lexer.go` -/

namespace bencode

/-- The bytes of an ASCII string literal. -/
def str (s : String) : List Nat :=
  s.toList.map Char.toNat

/-- The constants of type `tokenType`. -/
inductive tokenType where
  | tokenError
  | tokenEOF
  | tokenDict
  | tokenInt
  | tokenIntPrefix
  | tokenList
  | tokenString
  | tokenStringLength
  | tokenSemicolon
  | tokenSuffix
  deriving DecidableEq, Repr

/-- The messages the lexer stores in `l.err`, without their wording. -/
inductive LexError where
  | unmatchedPrefix
  | unmatchedSuffix (position : Nat)
  | invalidInteger (position : Nat)
  | integerWithoutSuffix (position : Nat)
  | leadingZero (position : Nat)
  | notDecimal (position : Nat)
  | lengthWithoutSemicolon (position : Nat)
  | parsingStringLength (position : Nat)
  | lengthBeyondInput (n position : Nat)
  | unexpectedRune (r position : Nat)
  deriving DecidableEq, Repr

/-- The struct `token`. The `val` of an error token is the message `l.err`,
which is modelled by `err` instead. -/
structure token where
  typ : tokenType
  val : List Nat
  depth : Int
  err : Option LexError := none
  deriving DecidableEq, Repr

/-- The fields of the struct `lexer` that `run` updates. -/
structure lexer where
  input : List Nat
  depth : Int
  start : Nat
  pos : Nat
  deriving DecidableEq, Repr

/-- How the lexer goroutine stopped: `run` returned, a run-time panic, or the
model's iteration budget ran out. -/
inductive Stop where
  | returned
  | crashed
  | outOfFuel
  deriving DecidableEq, Repr

/-- The call `strings.Index(s, c)` for a one-byte `c`; `none` is `-1`. -/
def indexByte (s : List Nat) (c : Nat) : Option Nat :=
  match s with
  | [] => none
  | x :: rest => if x = c then some 0 else (indexByte rest c).map (· + 1)

/-- Whether `r >= '0' && r <= '9'`. -/
def isDigit (r : Nat) : Bool :=
  decide ('0'.toNat ≤ r ∧ r ≤ '9'.toNat)

/-- The value of a string of decimal digits. -/
def decimalValue (s : List Nat) : Nat :=
  s.foldl (fun acc c => 10 * acc + (c - '0'.toNat)) 0

/-- The call `strconv.ParseInt(s, 10, 64)` on a string that does not start
with a sign: the value when `s` is a non-empty string of decimal digits below
`2 ^ 63`, `none` for the syntax and range errors. -/
def parseDecimal (s : List Nat) : Option Nat :=
  if s ≠ [] ∧ s.all isDigit ∧ decimalValue s < 9223372036854775808 then some (decimalValue s)
  else none

/-- A sum of two `int`s, wrapped to 64 bits two's complement. -/
def wrapInt64 (x : Int) : Int :=
  (x + 9223372036854775808) % 18446744073709551616 - 9223372036854775808

/-- The method `emit` for a token other than `tokenError`:
the token `(t, l.input[l.start:l.pos], l.depth)`. -/
def emit (l : lexer) (t : tokenType) : token :=
  { typ := t, val := (l.input.take l.pos).drop l.start, depth := l.depth }

/-- The method `emit(tokenError)` after `l.err` was set to `e`. -/
def emitError (l : lexer) (e : LexError) : token :=
  { typ := .tokenError, val := [], depth := l.depth, err := some e }

/-- What one round of the `for` loop of `run` does next. -/
inductive Next where
  | continue (l : lexer)
  | stop (s : Stop)
  deriving DecidableEq, Repr

/-- The `case r == 'i'` of the `switch` of `run`. -/
def lexInteger (l : lexer) : List token × Next :=
  if (l.input.drop l.start).length < 3 then
    ([emitError l (.invalidInteger l.start)], .stop .returned)
  else
    let l := { l with pos := l.start + 1 }
    let t1 := emit l .tokenIntPrefix
    let l := { l with start := l.pos }
    match indexByte (l.input.drop l.start) 'e'.toNat with
    | none => ([t1, emitError l (.integerWithoutSuffix l.start)], .stop .returned)
    | some n =>
      if ¬ (str "0e").isPrefixOf (l.input.drop l.start)
          ∧ l.input.getD l.start 0 = '0'.toNat then
        ([t1, emitError l (.leadingZero l.start)], .stop .returned)
      else if ((l.input.take (l.start + n)).drop l.start).dropWhile isDigit ≠ [] then
        ([t1, emitError l (.notDecimal l.start)], .stop .returned)
      else
        let l := { l with pos := l.start + n, depth := l.depth + 1 }
        let t2 := emit l .tokenInt
        ([t1, t2], .continue { l with start := l.pos })

/-- The `default` case of the `switch` of `run` for a decimal digit `r`. -/
def lexString (l : lexer) : List token × Next :=
  match indexByte (l.input.drop l.start) ':'.toNat with
  | none => ([emitError l (.lengthWithoutSemicolon l.start)], .stop .returned)
  | some i =>
    match parseDecimal ((l.input.take (l.start + i)).drop l.start) with
    | none => ([emitError l (.parsingStringLength l.start)], .stop .returned)
    | some n =>
      let l := { l with pos := l.start + i }
      let t1 := emit l .tokenStringLength
      let l := { l with start := l.pos }
      let l := { l with pos := l.pos + 1 }
      let t2 := emit l .tokenSemicolon
      let l := { l with start := l.pos }
      let sum := wrapInt64 ((l.start : Int) + (n : Int))
      if sum > (l.input.length : Int) then
        ([t1, t2, emitError l (.lengthBeyondInput n l.start)], .stop .returned)
      else if sum < (l.start : Int) then
        ([t1, t2], .stop .crashed)
      else
        let l := { l with pos := sum.toNat }
        let t3 := emit l .tokenString
        ([t1, t2, t3], .continue { l with start := l.pos })

/-- One round of the `for` loop of `lexer.run`: the tokens it sends and how it
goes on. Every `emit` is followed by `l.start = l.pos`. -/
def iteration (l : lexer) : List token × Next :=
  if l.start ≥ l.input.length then
    if l.depth > 0 then ([emitError l .unmatchedPrefix], .stop .returned)
    else ([emit l .tokenEOF], .stop .returned)
  else
    let r := l.input.getD l.start 0
    if r = 'd'.toNat then
      let l := { l with pos := l.start + 1 }
      let t := emit l .tokenDict
      ([t], .continue { l with start := l.pos, depth := l.depth + 1 })
    else if r = 'l'.toNat then
      let l := { l with pos := l.start + 1 }
      let t := emit l .tokenList
      ([t], .continue { l with start := l.pos, depth := l.depth + 1 })
    else if r = 'e'.toNat then
      let l := { l with pos := l.start + 1, depth := l.depth - 1 }
      if l.depth < 0 then ([emitError l (.unmatchedSuffix l.start)], .stop .returned)
      else ([emit l .tokenSuffix], .continue { l with start := l.pos })
    else if r = 'i'.toNat then lexInteger l
    else if isDigit r then lexString l
    else ([emitError l (.unexpectedRune r l.start)], .stop .returned)

/-- The method `lexer.run`: the tokens sent on `l.tokens`, in order, and how
the goroutine stopped, with at most `fuel` rounds of the loop. -/
def run (fuel : Nat) (l : lexer) : List token × Stop :=
  match fuel with
  | 0 => ([], .outOfFuel)
  | fuel + 1 =>
    match iteration l with
    | (ts, .stop s) => (ts, s)
    | (ts, .continue l') =>
      let rest := run fuel l'
      (ts ++ rest.1, rest.2)

/-- The function `lex`: the token stream of the goroutine it starts. Every
round that goes on consumes at least one byte, so `len(input) + 1` rounds are
enough. -/
def lex (input : List Nat) : List token × Stop :=
  run (input.length + 1) { input := input, depth := 0, start := 0, pos := 0 }

/-! ## `bencode/bencode.go` -/

/-- The body of the `for` loop of `HashInfo` for one token `t`: the new
`info` and `depth`. -/
def hashStep (t : token) (info : List Nat) (depth : Int) : List Nat × Int :=
  let info := if depth ≥ 0 then info ++ t.val else info
  let depth := if t.typ = .tokenSuffix ∧ t.depth = depth then -1 else depth
  let depth := if t.typ = .tokenString ∧ t.val = str "info" then t.depth else depth
  (info, depth)

/-- The `for` loop of `HashInfo` over the tokens it receives, up to the first
`tokenEOF` or `tokenError`: the string `info` it accumulates. A token stream
that ends without either is that of a lexer goroutine that panicked, which
ends the program. -/
def hashLoop (ts : List token) (info : List Nat) (depth : Int) :
    Outcome LexError (List Nat) :=
  match ts with
  | [] => .panic
  | t :: rest =>
    if t.typ = .tokenEOF then .ok info
    else if t.typ = .tokenError then
      match t.err with
      | some e => .error e
      | none => .panic
    else
      let s := hashStep t info depth
      hashLoop rest s.1 s.2

/-- The string that `HashInfo` digests: the value of `info` after the loop. -/
def digestedInfo (b : List Nat) : Outcome LexError (List Nat) :=
  hashLoop (lex b).1 [] (-1)

/-- The function `HashInfo`, with `crypto/sha1`'s `Sum` as the parameter `sha1`. -/
def HashInfo (sha1 : List Nat → List Nat) (b : List Nat) : Outcome LexError (List Nat) :=
  match digestedInfo b with
  | .ok info => .ok (sha1 info)
  | .error e => .error e
  | .panic => .panic

end bencode

/-! ## `bencode/parser.go` -/

namespace bencode

/-- A decoded bencode value, the dynamic type behind Go's `interface{}` in
the parser: `int64`, `string`, `[]interface{}` or `map[string]interface{}`.
A map is the list of its entries in the order the keys were first assigned. -/
inductive Value where
  | int (i : Int)
  | string (s : List Nat)
  | list (l : List Value)
  | dict (d : List (List Nat × Value))
  deriving Repr

mutual
/-- Decides the equality of two values. -/
def Value.decEq : (a b : Value) → Decidable (a = b)
  | .int a, .int b =>
    if h : a = b then isTrue (by rw [h]) else isFalse (by intro e; injection e; contradiction)
  | .string a, .string b =>
    if h : a = b then isTrue (by rw [h]) else isFalse (by intro e; injection e; contradiction)
  | .list a, .list b =>
    match Value.decEqList a b with
    | isTrue h => isTrue (by rw [h])
    | isFalse h => isFalse (by intro e; injection e; contradiction)
  | .dict a, .dict b =>
    match Value.decEqDict a b with
    | isTrue h => isTrue (by rw [h])
    | isFalse h => isFalse (by intro e; injection e; contradiction)
  | .int _, .string _ => isFalse (by intro e; cases e)
  | .int _, .list _ => isFalse (by intro e; cases e)
  | .int _, .dict _ => isFalse (by intro e; cases e)
  | .string _, .int _ => isFalse (by intro e; cases e)
  | .string _, .list _ => isFalse (by intro e; cases e)
  | .string _, .dict _ => isFalse (by intro e; cases e)
  | .list _, .int _ => isFalse (by intro e; cases e)
  | .list _, .string _ => isFalse (by intro e; cases e)
  | .list _, .dict _ => isFalse (by intro e; cases e)
  | .dict _, .int _ => isFalse (by intro e; cases e)
  | .dict _, .string _ => isFalse (by intro e; cases e)
  | .dict _, .list _ => isFalse (by intro e; cases e)
/-- Decides the equality of two lists of values. -/
def Value.decEqList : (a b : List Value) → Decidable (a = b)
  | [], [] => isTrue rfl
  | [], _ :: _ => isFalse (by intro e; cases e)
  | _ :: _, [] => isFalse (by intro e; cases e)
  | a :: as, b :: bs =>
    match Value.decEq a b, Value.decEqList as bs with
    | isTrue h1, isTrue h2 => isTrue (by rw [h1, h2])
    | isFalse h1, _ => isFalse (by intro e; injection e; contradiction)
    | _, isFalse h2 => isFalse (by intro e; injection e; contradiction)
/-- Decides the equality of two lists of map entries. -/
def Value.decEqDict : (a b : List (List Nat × Value)) → Decidable (a = b)
  | [], [] => isTrue rfl
  | [], _ :: _ => isFalse (by intro e; cases e)
  | _ :: _, [] => isFalse (by intro e; cases e)
  | (k, a) :: as, (k', b) :: bs =>
    if hk : k = k' then
      match Value.decEq a b, Value.decEqDict as bs with
      | isTrue h1, isTrue h2 => isTrue (by rw [hk, h1, h2])
      | isFalse h1, _ =>
        isFalse (by intro e; injection e with e1 e2; injection e1; contradiction)
      | _, isFalse h2 => isFalse (by intro e; injection e; contradiction)
    else isFalse (by intro e; injection e with e1 e2; injection e1; contradiction)
end

instance : DecidableEq Value := Value.decEq

/-- A Go `map[string]interface{}`. -/
abbrev Dict := List (List Nat × Value)

/-- The map index expression `m[key]`, with its `ok` flag as `Option`. -/
def Dict.get (m : Dict) (key : List Nat) : Option Value :=
  match m with
  | [] => none
  | (k, v) :: rest => if k = key then some v else Dict.get rest key

/-- The map assignment `m[key] = v`. -/
def Dict.set (m : Dict) (key : List Nat) (v : Value) : Dict :=
  match m with
  | [] => [(key, v)]
  | (k, w) :: rest => if k = key then (k, v) :: rest else (k, w) :: Dict.set rest key v

/-- The errors that `UnmarshalDict` returns: the parser's panics with an
`error` value, recovered. `outOfFuel` is the model's recursion budget and not
an error of the program. -/
inductive ParseError where
  | lexer (e : LexError)
  | expected (want got : tokenType)
  | outOfFuel
  deriving DecidableEq, Repr

/-- The receive `<-l.tokens`: the next token and the rest of the stream. A
stream that is used up is that of a lexer goroutine that panicked, which ends
the program. -/
def recv (ts : List token) : Outcome ParseError (token × List token) :=
  match ts with
  | [] => .panic
  | t :: rest => .ok (t, rest)

/-- The function `expect`; its panic is the `error` outcome. -/
def expect (t : token) (typ : tokenType) : Outcome ParseError token :=
  if t.typ = .tokenError then
    match t.err with
    | some e => .error (.lexer e)
    | none => .panic
  else if t.typ ≠ typ then .error (.expected typ t.typ)
  else .ok t

/-- The call `expect(<-l.tokens, l.err, typ)`. -/
def recvExpect (ts : List token) (typ : tokenType) : Outcome ParseError (token × List token) :=
  match recv ts with
  | .ok (t, rest) =>
    match expect t typ with
    | .ok t => .ok (t, rest)
    | .error e => .error e
    | .panic => .panic
  | .error e => .error e
  | .panic => .panic

/-- The value `i` of `i, _ := strconv.ParseInt(s, 10, 64)`: zero on a syntax
error, the nearest bound on a range error. -/
def parseInt64 (s : List Nat) : Int :=
  let neg := s.head? = some '-'.toNat
  let digits := if s.head? = some '-'.toNat ∨ s.head? = some '+'.toNat then s.drop 1 else s
  if digits = [] ∨ ¬ digits.all isDigit then 0
  else
    let un := decimalValue digits
    if ¬ neg ∧ un ≥ 9223372036854775808 then 9223372036854775807
    else if neg ∧ un > 9223372036854775808 then -9223372036854775808
    else if neg then -(un : Int)
    else (un : Int)

/-- The function `parseInt`. -/
def parseInt (ts : List token) : Outcome ParseError (Int × List token) :=
  match recvExpect ts .tokenInt with
  | .ok (t, ts) =>
    let i := parseInt64 t.val
    match recvExpect ts .tokenSuffix with
    | .ok (_, ts) => .ok (i, ts)
    | .error e => .error e
    | .panic => .panic
  | .error e => .error e
  | .panic => .panic

/-- The function `parseString`. -/
def parseString (ts : List token) : Outcome ParseError (List Nat × List token) :=
  match recvExpect ts .tokenSemicolon with
  | .ok (_, ts) =>
    match recvExpect ts .tokenString with
    | .ok (t, ts) => .ok (t.val, ts)
    | .error e => .error e
    | .panic => .panic
  | .error e => .error e
  | .panic => .panic

mutual
/-- The function `parseDict`: each round of its loop, and each call of
`parseNext`, takes one unit of `fuel`. -/
def parseDict (fuel : Nat) (m : Dict) (ts : List token) :
    Outcome ParseError (Dict × List token) :=
  match fuel with
  | 0 => .error .outOfFuel
  | fuel + 1 =>
    match recv ts with
    | .ok (t, ts) =>
      if t.typ = .tokenSuffix then .ok (m, ts)
      else
        match expect t .tokenStringLength with
        | .ok _ =>
          match parseString ts with
          | .ok (key, ts) =>
            match recv ts with
            | .ok (t, ts) =>
              match parseNext fuel t ts with
              | .ok (v, ts) => parseDict fuel (Dict.set m key v) ts
              | .error e => .error e
              | .panic => .panic
            | .error e => .error e
            | .panic => .panic
          | .error e => .error e
          | .panic => .panic
        | .error e => .error e
        | .panic => .panic
    | .error e => .error e
    | .panic => .panic
/-- The function `parseList`. -/
def parseList (fuel : Nat) (m : List Value) (ts : List token) :
    Outcome ParseError (List Value × List token) :=
  match fuel with
  | 0 => .error .outOfFuel
  | fuel + 1 =>
    match recv ts with
    | .ok (t, ts) =>
      if t.typ = .tokenSuffix then .ok (m, ts)
      else
        match parseNext fuel t ts with
        | .ok (v, ts) => parseList fuel (m ++ [v]) ts
        | .error e => .error e
        | .panic => .panic
    | .error e => .error e
    | .panic => .panic
/-- The function `parseNext`. In its `default` case `expect(t, l.err,
tokenError)` panics for every token. -/
def parseNext (fuel : Nat) (t : token) (ts : List token) :
    Outcome ParseError (Value × List token) :=
  match fuel with
  | 0 => .error .outOfFuel
  | fuel + 1 =>
    if t.typ = .tokenIntPrefix then
      match parseInt ts with
      | .ok (i, ts) => .ok (.int i, ts)
      | .error e => .error e
      | .panic => .panic
    else if t.typ = .tokenStringLength then
      match parseString ts with
      | .ok (s, ts) => .ok (.string s, ts)
      | .error e => .error e
      | .panic => .panic
    else if t.typ = .tokenDict then
      match parseDict fuel [] ts with
      | .ok (d, ts) => .ok (.dict d, ts)
      | .error e => .error e
      | .panic => .panic
    else if t.typ = .tokenList then
      match parseList fuel [] ts with
      | .ok (l, ts) => .ok (.list l, ts)
      | .error e => .error e
      | .panic => .panic
    else
      match expect t .tokenError with
      | .ok _ => .panic
      | .error e => .error e
      | .panic => .panic
end

/-- The function `parseDictTop`. -/
def parseDictTop (fuel : Nat) (ts : List token) : Outcome ParseError Dict :=
  match recvExpect ts .tokenDict with
  | .ok (_, ts) =>
    match parseDict fuel [] ts with
    | .ok (d, ts) =>
      match recvExpect ts .tokenEOF with
      | .ok _ => .ok d
      | .error e => .error e
      | .panic => .panic
    | .error e => .error e
    | .panic => .panic
  | .error e => .error e
  | .panic => .panic

/-- The function `UnmarshalDict`: the parser's panics with an `error` value
come back as the returned error; a panic of the lexer goroutine ends the
program. A call of `parseNext` is handed a token that was received before and
each round of a loop receives one, so two units of fuel for each token the
lexer sends are enough. -/
def UnmarshalDict (b : List Nat) : Outcome ParseError Dict :=
  parseDictTop (2 * (lex b).1.length + 1) (lex b).1

end bencode

/-! ## `fmt` -/

/-- The digits of `n`, most significant first, in front of `acc`; `fuel`
bounds the number of digits. -/
def decimalAux (fuel n : Nat) (acc : List Nat) : List Nat :=
  match fuel with
  | 0 => acc
  | fuel + 1 =>
    if n / 10 = 0 then ('0'.toNat + n % 10) :: acc
    else decimalAux fuel (n / 10) (('0'.toNat + n % 10) :: acc)

/-- The text `fmt.Sprintf("%d", n)` of a non-negative integer. -/
def decimal (n : Nat) : List Nat :=
  decimalAux (n + 1) n []

/-- The text `fmt.Sprintf("%d", i)` of an integer. -/
def decimalInt (i : Int) : List Nat :=
  if i < 0 then '-'.toNat :: decimal i.natAbs else decimal i.natAbs

/-! ## `tracker.go` -/

/-- The errors of `parseTrackerResponse`. -/
inductive TrackerError where
  | failureResponse (reason : List Nat)
  | noPeers
  | peersNotDivisibleBy6
  | entryNotDictionary
  | noIP
  | noPort
  deriving DecidableEq, Repr

/-- The call `binary.BigEndian.Uint16(b)` on the two bytes `b0 b1`. -/
def Uint16 (b0 b1 : Nat) : Nat :=
  b1 ||| (b0 <<< 8)

/-- The body of the loop over a compact peers string: the address made of
the six bytes from index `i`; `none` is an index out of range. -/
def compactPeer (s : List Nat) (i : Nat) : Option (List Nat) :=
  match s[i]?, s[i + 1]?, s[i + 2]?, s[i + 3]?, slice s (i + 4) (i + 6) with
  | some a, some b, some c, some d, some [p0, p1] =>
    some (decimal a ++ bencode.str "." ++ decimal b ++ bencode.str "." ++ decimal c
      ++ bencode.str "." ++ decimal d ++ bencode.str ":" ++ decimal (Uint16 p0 p1))
  | _, _, _, _, _ => none

/-- The loop `for i := 0; i < len(s); i += 6` of `parseTrackerResponse`,
counted by `j = i / 6`; `none` is a panic. -/
def compactPeers (s : List Nat) : Option (List (List Nat)) :=
  forLoop ((s.length + 5) / 6)
    (fun j acc =>
      match acc with
      | none => none
      | some peers =>
        match compactPeer s (6 * j) with
        | some peer => some (peers ++ [peer])
        | none => none)
    (some [])

/-- One round of the loop over a peers list. -/
def listPeer (v : bencode.Value) : Except TrackerError (List Nat) :=
  match v with
  | .dict d2 =>
    match bencode.Dict.get d2 (bencode.str "ip") with
    | some (.string s) =>
      match bencode.Dict.get d2 (bencode.str "port") with
      | some (.int i) => .ok (s ++ bencode.str ":" ++ decimalInt i)
      | _ => .error .noPort
    | _ => .error .noIP
  | _ => .error .entryNotDictionary

/-- The loop `for j := 0; j < len(l); j++` of `parseTrackerResponse`. -/
def listPeers (l : List bencode.Value) (peers : List (List Nat)) :
    Except TrackerError (List (List Nat)) :=
  match l with
  | [] => .ok peers
  | v :: rest =>
    match listPeer v with
    | .ok peer => listPeers rest (peers ++ [peer])
    | .error e => .error e

/-- The function `parseTrackerResponse`. -/
def parseTrackerResponse (d1 : bencode.Dict) : Outcome TrackerError (List (List Nat)) :=
  match bencode.Dict.get d1 (bencode.str "failure reason") with
  | some (.string s) => .error (.failureResponse s)
  | _ =>
    match bencode.Dict.get d1 (bencode.str "peers") with
    | some (.string s) =>
      if s.length % 6 ≠ 0 then .error .peersNotDivisibleBy6
      else
        match compactPeers s with
        | some peers => .ok peers
        | none => .panic
    | some (.list l) =>
      match listPeers l [] with
      | .ok peers => .ok peers
      | .error e => .error e
    | _ => .error .noPeers

/-! ## `main.go` -/

/-- A node of the linked list `fileList`, without its `next` pointer and its
open file. -/
structure fileList where
  isdir : Bool
  path : List Nat
  size : Int
  deriving DecidableEq, Repr

/-- The struct `metainfo`; `files` are the nodes from `firstFile` up to the
sentinel `lastFile`. -/
structure metainfo where
  pieceHashes : List (List Nat)
  pieceLength : Nat
  totalSize : Int
  files : List fileList
  deriving DecidableEq, Repr

/-- The errors of `parseMetainfo`. -/
inductive MetainfoError where
  | noInfo
  | noPieces
  | piecesNotMultipleOf20
  | noPieceLength
  | pieceLengthNotUint32
  | noLengthNoFiles
  | lengthAndFiles
  | noName
  | filesEntryNotDictionary (j : Nat)
  | filesEntryNoLength (j : Nat)
  | filesEntryNoPath (j : Nat)
  | pathEntryNotString (k : Nat)
  deriving DecidableEq, Repr

/-- The 20-byte groups of the `pieces` string: the loop that fills
`pieceHashes`. -/
def splitHashes (s : List Nat) : List (List Nat) :=
  (List.range (s.length / 20)).map fun i => (s.take (i * 20 + 20)).drop (i * 20)

/-- The loop `for ; k < len(l2)-1; k++` of `parseMetainfo` from index `k`, on
the node `f`. -/
def pathDirs (l2 : List bencode.Value) (k : Nat) (f : fileList) :
    Except MetainfoError fileList :=
  match l2 with
  | [] => .ok f
  | [_] => .ok f
  | v :: rest =>
    match v with
    | .string s =>
      pathDirs rest (k + 1)
        { f with isdir := true, size := 0, path := f.path ++ s ++ bencode.str "/" }
    | _ => .error (.pathEntryNotString k)

/-- The state of the loop over `files`: the nodes before `f`, the node `f`
and `m.totalSize`. -/
structure filesState where
  done : List fileList
  f : fileList
  totalSize : Int
  deriving DecidableEq, Repr

/-- One round of the loop `for j := 0; j < len(l1); j++` of `parseMetainfo`;
`first` is `m.firstFile.path`. -/
def filesEntry (first : List Nat) (j : Nat) (v : bencode.Value) (st : filesState) :
    Outcome MetainfoError filesState :=
  match v with
  | .dict d =>
    match bencode.Dict.get d (bencode.str "length") with
    | some (.int i) =>
      match bencode.Dict.get d (bencode.str "path") with
      | some (.list l2) =>
        let done := st.done ++ [st.f]
        let f : fileList :=
          { isdir := false, size := 0,
            path := if first.length > 0 then first ++ bencode.str "/" else bencode.str "./" }
        match pathDirs l2 0 f with
        | .error e => .error e
        | .ok f =>
          let k := l2.length - 1
          let pre := if l2.length > 1 then f.path else []
          let done := if l2.length > 1 then done ++ [f] else done
          let f : fileList :=
            if l2.length > 1 then { isdir := false, size := 0, path := [] } else f
          let totalSize := bencode.wrapInt64 (st.totalSize + i)
          let f := { f with size := i }
          match l2[k]? with
          | none => .panic
          | some (.string s) =>
            .ok { done := done, f := { f with path := f.path ++ (pre ++ s) },
                  totalSize := totalSize }
          | some _ => .error (.pathEntryNotString k)
      | _ => .error (.filesEntryNoPath j)
    | _ => .error (.filesEntryNoLength j)
  | _ => .error (.filesEntryNotDictionary j)

/-- The loop `for j := 0; j < len(l1); j++` of `parseMetainfo` from index `j`. -/
def filesLoop (first : List Nat) (l1 : List bencode.Value) (j : Nat) (st : filesState) :
    Outcome MetainfoError filesState :=
  match l1 with
  | [] => .ok st
  | v :: rest =>
    match filesEntry first j v st with
    | .ok st => filesLoop first rest (j + 1) st
    | .error e => .error e
    | .panic => .panic

/-- The function `parseMetainfo`. -/
def parseMetainfo (v : bencode.Dict) : Outcome MetainfoError metainfo :=
  match bencode.Dict.get v (bencode.str "info") with
  | some (.dict d) =>
    match bencode.Dict.get d (bencode.str "pieces") with
    | some (.string s) =>
      if s.length % 20 ≠ 0 then .error .piecesNotMultipleOf20
      else
        let pieceHashes := splitHashes s
        match bencode.Dict.get d (bencode.str "piece length") with
        | some (.int i) =>
          if i ≠ i % 4294967296 then .error .pieceLengthNotUint32
          else
            let pieceLength := (i % 4294967296).toNat
            let single := match bencode.Dict.get d (bencode.str "length") with
              | some (.int i) => some i
              | _ => none
            let multi := match bencode.Dict.get d (bencode.str "files") with
              | some (.list l1) => some l1
              | _ => none
            match single, multi with
            | none, none => .error .noLengthNoFiles
            | some _, some _ => .error .lengthAndFiles
            | some i, none =>
              match bencode.Dict.get d (bencode.str "name") with
              | some (.string s) =>
                .ok { pieceHashes := pieceHashes, pieceLength := pieceLength, totalSize := i,
                      files := [{ isdir := false, size := i, path := s }] }
              | _ => .error .noName
            | none, some l1 =>
              match bencode.Dict.get d (bencode.str "name") with
              | some (.string s) =>
                let first : fileList :=
                  { isdir := true, size := 0, path := bencode.str "./" ++ s }
                match filesLoop first.path l1 0 { done := [], f := first, totalSize := 0 } with
                | .ok st =>
                  .ok { pieceHashes := pieceHashes, pieceLength := pieceLength,
                        totalSize := st.totalSize, files := st.done ++ [st.f] }
                | .error e => .error e
                | .panic => .panic
              | _ => .error .noName
        | _ => .error .noPieceLength
    | _ => .error .noPieces
  | _ => .error .noInfo

/-- The length `l` that the goroutine forked by `main` for piece `p` passes to
`getPiece`, with `nPieces = len(c.piecesSet)`; `none` is the panic of an
integer division by zero. -/
def fetchLength (pieceLength : Nat) (totalSize : Int) (nPieces : Nat) (p : Nat) :
    Option Nat :=
  if (p : Int) = (nPieces : Int) - 1 then
    if pieceLength = 0 then none
    else
      let r := (totalSize % 4294967296).toNat % pieceLength
      if r ≠ 0 then some r else some pieceLength
  else some pieceLength

/-! ## `file.go` -/

/-- The nodes of a file list from `firstFile` up to the sentinel `lastFile`,
each with the bytes that its path holds on disk (none for a directory). Two
file nodes whose paths name the same file are one file on disk: a write
through one of them changes the bytes of both (`writeFile`). -/
abbrev Disk := List (fileList × List Nat)

/-- The errors of `build` and `storePiece`. Errors of `MkdirAll`, `OpenFile`
and `Read` other than `io.EOF` are not modelled. `outOfFuel` is the model's
iteration budget and not an error of the program. -/
inductive FileError where
  | truncating
  | writing
  | outOfFuel
  deriving DecidableEq, Repr

/-- The variables of `build` that its loops update: `buf`, the number
`len(buf) - len(p)` of bytes of `buf` in front of `p`, `i` and `piecesSet`. -/
structure scanState where
  buf : List Nat
  filled : Nat
  i : Nat
  piecesSet : List Bool
  deriving DecidableEq, Repr

/-- The content of a file after `Truncate(size)`. -/
def truncateTo (c : List Nat) (size : Nat) : List Nat :=
  (c ++ List.replicate (size - c.length) 0).take size

/-- The loop `for { n, err := f.file.Read(p) ... }` of `build` on a file with
content `c`, read from offset `off`; `Read` fills `p` as far as the file
goes. -/
def readLoop (sha1 : List Nat → List Nat) (hashes : List (List Nat)) (c : List Nat)
    (fuel : Nat) (off : Nat) (st : scanState) : Outcome FileError scanState :=
  match fuel with
  | 0 => .error .outOfFuel
  | fuel + 1 =>
    let lenp := st.buf.length - st.filled
    let n := min lenp (c.length - off)
    let buf := copyInto st.buf st.filled (st.filled + n) ((c.drop off).take n)
    if n < lenp then .ok { st with buf := buf, filled := st.filled + n }
    else
      match hashes[st.i]? with
      | none => .panic
      | some h =>
        let piecesSet := if sha1 buf = h then st.piecesSet.set st.i true else st.piecesSet
        readLoop sha1 hashes c fuel (off + n)
          { buf := buf, filled := 0, i := st.i + 1, piecesSet := piecesSet }

/-- The loop `for f := firstFile; f != lastFile; f = f.next` of `build`. -/
def scanFiles (sha1 : List Nat → List Nat) (hashes : List (List Nat)) (files : Disk)
    (st : scanState) : Outcome FileError scanState :=
  match files with
  | [] => .ok st
  | (f, c) :: rest =>
    if f.isdir then scanFiles sha1 hashes rest st
    else if f.size < 0 then .error .truncating
    else
      let c := truncateTo c f.size.toNat
      match readLoop sha1 hashes c (c.length + hashes.length + 2) 0 st with
      | .ok st => scanFiles sha1 hashes rest st
      | .error e => .error e
      | .panic => .panic

/-- The method `build`, with `crypto/sha1`'s `Sum` as the parameter `sha1`;
its parameter `total` is not used. -/
def build (sha1 : List Nat → List Nat) (files : Disk) (length : Nat)
    (hashes : List (List Nat)) : Outcome FileError (List Bool) :=
  let st : scanState :=
    { buf := List.replicate length 0, filled := 0, i := 0,
      piecesSet := List.replicate hashes.length false }
  match scanFiles sha1 hashes files st with
  | .ok st =>
    let p := st.buf.take st.filled
    if p.length > 0 then
      match hashes[st.i]? with
      | none => .panic
      | some h => .ok (if sha1 p = h then st.piecesSet.set st.i true else st.piecesSet)
    else .ok st.piecesSet
  | .error e => .error e
  | .panic => .panic

/-! ## `piece.go` -/

/-- The content of a file after `WriteAt(chunk, off)`. -/
def writeAt (c : List Nat) (off : Nat) (chunk : List Nat) : List Nat :=
  (c ++ List.replicate (off - c.length) 0).take off ++ chunk ++ c.drop (off + chunk.length)

/-- The nodes after `WriteAt` has left the content `c` in the file at `path`.
The write goes through the handle that `build` opened at this path, so every
file node whose path names the same file holds `c` afterwards. `resolve` is
the file system's resolution of a path to the file that it names. -/
def writeFile (resolve : List Nat → List Nat) (files : Disk) (path c : List Nat) : Disk :=
  files.map fun g =>
    if g.1.isdir = false ∧ resolve g.1.path = resolve path then (g.1, c) else g

/-- The size of the node that `f` points to after `idx` steps `f = f.next`
from `firstFile`: a node of the list, the sentinel `lastFile` (size 0), or
`none` for the nil pointer behind it. -/
def nodeSize (files : Disk) (idx : Nat) : Option Int :=
  if idx < files.length then (files[idx]?).map (fun f => f.1.size)
  else if idx = files.length then some 0
  else none

/-- The two nested loops of `storePiece`, one step at a time: with data left,
either `f` moves on (`totoffs >= end`) or a chunk is written. -/
def storeLoop (resolve : List Nat → List Nat) (fuel : Nat) (files : Disk) (idx : Nat)
    (begin stop totoffs : Int) (data : List Nat) : Outcome FileError Disk :=
  match fuel with
  | 0 => .error .outOfFuel
  | fuel + 1 =>
    if data.length > 0 then
      if totoffs ≥ stop then
        match nodeSize files (idx + 1) with
        | none => .panic
        | some size =>
          storeLoop resolve fuel files (idx + 1) stop (bencode.wrapInt64 (stop + size))
            totoffs data
      else
        let max := min (data.length : Int) (stop - totoffs)
        match files[idx]? with
        | none => .error .writing
        | some (f, c) =>
          if f.isdir ∨ totoffs - begin < 0 then .error .writing
          else
            let c := writeAt c (totoffs - begin).toNat (data.take max.toNat)
            storeLoop resolve fuel (writeFile resolve files f.path c) idx begin stop
              (bencode.wrapInt64 (totoffs + max)) (data.drop max.toNat)
    else .ok files

/-- The function `storePiece` for the piece `(index, data)`, with the file
system's resolution of paths as the parameter `resolve`; a write to a node
without an open file (a directory, the sentinel) fails. -/
def storePiece (resolve : List Nat → List Nat) (data : List Nat) (index pieceLength : Nat)
    (files : Disk) : Outcome FileError Disk :=
  match nodeSize files 0 with
  | none => .panic
  | some size =>
    storeLoop resolve (data.length + files.length + 2) files 0 0 size
      (bencode.wrapInt64 ((pieceLength : Int) * (index : Int))) data

/-! ## Notions used in the statements -/

/-- The `length` that a `files` entry declares (zero for an entry without one). -/
def declaredLength (v : bencode.Value) : Int :=
  match v with
  | .dict d =>
    match bencode.Dict.get d (bencode.str "length") with
    | some (.int i) => i
    | _ => 0
  | _ => 0

/-- The 64-bit sum `m.totalSize` of the lengths that the entries `l1` declare,
starting from `acc`. -/
def declaredTotal (l1 : List bencode.Value) (acc : Int) : Int :=
  l1.foldl (fun acc v => bencode.wrapInt64 (acc + declaredLength v)) acc

/-- The file-concatenated stream of a file list: the contents of its files,
directories left out, in order. -/
def streamOf (files : Disk) : List Nat :=
  match files with
  | [] => []
  | (f, c) :: rest => if f.isdir then streamOf rest else c ++ streamOf rest

/-- The bytes of the stream `S` in the range `[p * L, min((p + 1) * L, len(S)))`. -/
def chunk (S : List Nat) (L p : Nat) : List Nat :=
  (S.drop (p * L)).take L

/-- The loop invariant of `build` after `pos` bytes of the stream `S`. -/
structure ScanInv (sha1 : List Nat → List Nat) (hashes : List (List Nat)) (S : List Nat)
    (L : Nat) (st : scanState) (pos : Nat) : Prop where
  buf_length : st.buf.length = L
  filled_lt : st.filled < L
  pos_eq : pos = st.i * L + st.filled
  pos_le : pos ≤ S.length
  buf_take : st.buf.take st.filled = (S.drop (st.i * L)).take st.filled
  set_length : st.piecesSet.length = hashes.length
  set_get : ∀ p, p < hashes.length →
    st.piecesSet[p]? = some (decide (p < st.i) && decide (sha1 (chunk S L p) = hashes.getD p []))

/-- The stream `S` with the bytes from position `k` on replaced by `D`. -/
def splice (S : List Nat) (k : Nat) (D : List Nat) : List Nat :=
  S.take k ++ D ++ S.drop (k + D.length)

/-- The contents of all nodes of a file list, in order. -/
def flat (disk : Disk) : List Nat :=
  (disk.map Prod.snd).flatten

/-- Every node holds as many bytes as its size says, a directory none. -/
def DiskOk (disk : Disk) : Prop :=
  ∀ f ∈ disk, f.1.size = (f.2.length : Int) ∧ (f.1.isdir = true → f.2 = [])

/-- The files that the file nodes of a file list name, in the order of the
list. -/
def resolved (resolve : List Nat → List Nat) (disk : Disk) : List (List Nat) :=
  match disk with
  | [] => []
  | (f, _) :: rest =>
    if f.isdir then resolved resolve rest else resolve f.path :: resolved resolve rest


/-! ## Notions used in the statements about the decoder -/

namespace bencode

/-- The lexer between two rounds of the loop of `run`, where `start = pos`. -/
def lexAt (inp : List Nat) (d : Int) (k : Nat) : lexer :=
  { input := inp, depth := d, start := k, pos := k }

/-- The tokens sent by `k` rounds of the loop of `run` that all go on, and
the lexer after them; `none` when one of the rounds stops the loop. -/
def rounds (k : Nat) (l : lexer) : Option (List token × lexer) :=
  match k with
  | 0 => some ([], l)
  | k + 1 =>
    match iteration l with
    | (ts, .continue l') =>
      match rounds k l' with
      | some (ts', l'') => some (ts ++ ts', l'')
      | none => none
    | (_, .stop _) => none

/-- Some number of rounds that all go on lead from `l` to `l1` and send `ts`. -/
def Lexes (l : lexer) (ts : List token) (l1 : lexer) : Prop :=
  ∃ n, rounds n l = some (ts, l1)

/-- The bencoding `<len>:<bytes>` of a byte string. -/
def encodeString (s : List Nat) : List Nat :=
  decimal s.length ++ ':'.toNat :: s

mutual
/-- The standard bencode encoder: `i<decimal>e`, `<len>:<bytes>`, `l...e` and
`d...e`, the entries of a dictionary in the order of the list. -/
def encode : Value → List Nat
  | .int i => 'i'.toNat :: decimalInt i ++ ['e'.toNat]
  | .string s => encodeString s
  | .list l => 'l'.toNat :: encodeList l ++ ['e'.toNat]
  | .dict d => 'd'.toNat :: encodeDict d ++ ['e'.toNat]
/-- The encodings of the elements of a list, one after the other. -/
def encodeList : List Value → List Nat
  | [] => []
  | v :: vs => encode v ++ encodeList vs
/-- The encodings of the entries of a dictionary, one after the other. -/
def encodeDict : List (List Nat × Value) → List Nat
  | [] => []
  | (k, v) :: es => encodeString k ++ encode v ++ encodeDict es
end

mutual
/-- A value whose integers lie in `[0, 2^63)` and whose dictionaries have no
duplicate keys. -/
def wellFormed : Value → Bool
  | .int i => decide (0 ≤ i ∧ i < 9223372036854775808)
  | .string _ => true
  | .list l => wellFormedList l
  | .dict d => wellFormedDict d && decide (d.map Prod.fst).Nodup
/-- Every element of the list is well formed. -/
def wellFormedList : List Value → Bool
  | [] => true
  | v :: vs => wellFormed v && wellFormedList vs
/-- Every value of the entries is well formed. -/
def wellFormedDict : List (List Nat × Value) → Bool
  | [] => true
  | (_, v) :: es => wellFormed v && wellFormedDict es
end

/-- The three tokens of a byte string at depth `d`. -/
def stringTokens (d : Int) (s : List Nat) : List token :=
  [{ typ := .tokenStringLength, val := decimal s.length, depth := d },
   { typ := .tokenSemicolon, val := [':'.toNat], depth := d },
   { typ := .tokenString, val := s, depth := d }]

mutual
/-- The tokens of the encoding of a value that starts at depth `d`. -/
def tokens (d : Int) : Value → List token
  | .int i =>
    [{ typ := .tokenIntPrefix, val := ['i'.toNat], depth := d },
     { typ := .tokenInt, val := decimalInt i, depth := d + 1 },
     { typ := .tokenSuffix, val := ['e'.toNat], depth := d }]
  | .string s => stringTokens d s
  | .list l =>
    { typ := .tokenList, val := ['l'.toNat], depth := d } :: tokensList (d + 1) l
      ++ [{ typ := .tokenSuffix, val := ['e'.toNat], depth := d }]
  | .dict es =>
    { typ := .tokenDict, val := ['d'.toNat], depth := d } :: tokensDict (d + 1) es
      ++ [{ typ := .tokenSuffix, val := ['e'.toNat], depth := d }]
/-- The tokens of the elements of a list. -/
def tokensList (d : Int) : List Value → List token
  | [] => []
  | v :: vs => tokens d v ++ tokensList d vs
/-- The tokens of the entries of a dictionary. -/
def tokensDict (d : Int) : List (List Nat × Value) → List token
  | [] => []
  | (k, v) :: es => stringTokens d k ++ tokens d v ++ tokensDict d es
end

/-- A token stream in which an error token comes before any `tokenEOF` and
before the end of the stream. -/
def errEnded (ts : List token) : Prop :=
  match ts with
  | [] => False
  | t :: rest =>
    (t.typ = .tokenError ∧ t.err ≠ none)
      ∨ (t.typ ≠ .tokenEOF ∧ t.typ ≠ .tokenError ∧ errEnded rest)

/-- What a function of the parser may give on an `errEnded` stream of `n`
tokens: an error of the program, or a result that leaves an `errEnded` stream
of fewer than `n` tokens. -/
def errBound {α : Type} (r : Outcome ParseError (α × List token)) (n : Nat) : Prop :=
  match r with
  | .ok (_, ts) => errEnded ts ∧ ts.length < n
  | .error e => e ≠ .outOfFuel
  | .panic => False

/-- What a function of the parser gives on a stream of `n` tokens when its
fuel is enough: a result that leaves fewer than `n` tokens, an error of the
program, or a panic. -/
def fuelBound {α : Type} (r : Outcome ParseError (α × List token)) (n : Nat) : Prop :=
  match r with
  | .ok (_, ts) => ts.length < n
  | .error e => e ≠ .outOfFuel
  | .panic => True

end bencode
/-! ## `net.go` -/

/-- The map `inbox.dir` of type `map[string]chan pwp.Message`, as the list of
its entries; `W` is the type of the channels. -/
abbrev Inbox (W : Type) := List (List Nat × W)

/-- The map index expression `dir[key]`, with its `has` flag as `Option`. -/
def Inbox.get {W : Type} (dir : Inbox W) (key : List Nat) : Option W :=
  match dir with
  | [] => none
  | (k, ch) :: rest => if k = key then some ch else Inbox.get rest key

/-- The map assignment `dir[key] = ch`. -/
def Inbox.set {W : Type} (dir : Inbox W) (key : List Nat) (ch : W) : Inbox W :=
  match dir with
  | [] => [(key, ch)]
  | (k, c) :: rest => if k = key then (k, ch) :: rest else (k, c) :: Inbox.set rest key ch

/-- The builtin `delete(dir, key)`. -/
def Inbox.delete {W : Type} (dir : Inbox W) (key : List Nat) : Inbox W :=
  match dir with
  | [] => []
  | (k, c) :: rest => if k = key then Inbox.delete rest key else (k, c) :: Inbox.delete rest key

/-- The function `expect`, under the lock of the inbox: the map afterwards. A
panic is that of `msg.Id()`. -/
def expect {W : Type} (dir : Inbox W) (ch : W) (msg : pwp.Message) :
    Outcome pwp.Error (Inbox W) :=
  match msg.Id with
  | .ok key => .ok (Inbox.set dir key ch)
  | .error e => .error e
  | .panic => .panic

/-- The function `forward`, under the lock of the inbox: the map afterwards
and the channel on which `msg` was sent, `none` when the message was
discarded. -/
def forward {W : Type} (dir : Inbox W) (msg : pwp.Message) :
    Outcome pwp.Error (Inbox W × Option W) :=
  match msg.Id with
  | .ok key =>
    match Inbox.get dir key with
    | some ch => .ok (Inbox.delete dir key, some ch)
    | none => .ok (dir, none)
  | .error e => .error e
  | .panic => .panic

/-- The function `unforward`, under the lock of the inbox: the map afterwards
and the channel that was closed, if any. -/
def unforward {W : Type} (dir : Inbox W) (msg : pwp.Message) :
    Outcome pwp.Error (Inbox W × Option W) :=
  match msg.Id with
  | .ok key =>
    match Inbox.get dir key with
    | some ch => .ok (Inbox.delete dir key, some ch)
    | none => .ok (dir, none)
  | .error e => .error e
  | .panic => .panic

/-! ## `net/url` and `strings` -/

/-- The byte `"0123456789ABCDEF"[n]` for `n < 16`. -/
def upperhex (n : Nat) : Nat :=
  if n < 10 then '0'.toNat + n else 'A'.toNat + (n - 10)

/-- The function `shouldEscape` of `net/url` in the mode
`encodeQueryComponent`: every byte but the letters, the digits and `-`, `_`,
`.`, `~` is escaped. -/
def shouldEscape (c : Nat) : Bool :=
  ¬ (('a'.toNat ≤ c ∧ c ≤ 'z'.toNat) ∨ ('A'.toNat ≤ c ∧ c ≤ 'Z'.toNat)
      ∨ ('0'.toNat ≤ c ∧ c ≤ '9'.toNat)
      ∨ c = '-'.toNat ∨ c = '_'.toNat ∨ c = '.'.toNat ∨ c = '~'.toNat)

/-- What `url.QueryEscape` writes for the byte `c`: `+` for a space, `%XX` for
a byte that is escaped, the byte itself otherwise. -/
def escapeByte (c : Nat) : List Nat :=
  if c = ' '.toNat then ['+'.toNat]
  else if shouldEscape c then ['%'.toNat, upperhex (c / 16), upperhex (c % 16)]
  else [c]

/-- The function `url.QueryEscape`. -/
def QueryEscape (s : List Nat) : List Nat :=
  (s.map escapeByte).flatten

/-- The call `strings.Replace(s, old, new, 1)` for a one-byte `old`: the first
occurrence of `old` is replaced. -/
def replaceFirst (s : List Nat) (old : Nat) (new : List Nat) : List Nat :=
  match s with
  | [] => []
  | c :: rest => if c = old then new ++ rest else c :: replaceFirst rest old new

/-! ## `tracker.go`: the announce URL -/

/-- The string `s1` of `makeTrackerURL` for a `host` without a query string:
`q1.Encode()`, which is `info_hash=` and the escaped hash, after
`strings.Replace(.., "+", "%20", 1)`. -/
def infoHashQuery (infoHash : List Nat) : List Nat :=
  replaceFirst (bencode.str "info_hash=" ++ QueryEscape infoHash) '+'.toNat (bencode.str "%20")

/-- The string `s2` of `makeTrackerURL` for a `host` without a query string:
`q2.Encode()`, the keys in sorted order. -/
def peerQuery (peerID port : List Nat) (totalSize : Int) : List Nat :=
  bencode.str "compact=1&downloaded=0&left=" ++ QueryEscape (decimalInt totalSize)
    ++ bencode.str "&peer_id=" ++ QueryEscape peerID
    ++ bencode.str "&port=" ++ QueryEscape port ++ bencode.str "&uploaded=0"

/-- The `RawQuery` that `makeTrackerURL` sets, for a `host` without a query
string. -/
def rawQuery (infoHash peerID port : List Nat) (totalSize : Int) : List Nat :=
  infoHashQuery infoHash ++ bencode.str "&" ++ peerQuery peerID port totalSize

/-! ## `piece.go`: the block requests -/

/-- The constant `blockLength`. -/
def blockLength : Nat := 0x4000

/-- The length `l` that the loop of `fetchPiece` asks for at the offset
`offs`, in `uint32` arithmetic. -/
def requestLength (pieceLength offs : Nat) : Nat :=
  if (offs + blockLength) % 4294967296 > pieceLength then
    (pieceLength + 4294967296 - offs) % 4294967296
  else blockLength

/-- The block requests `(offs, l)` that the loop of `fetchPiece` sends from
the offset `offs` on when every reply arrives in time, the offset in `uint32`
arithmetic; `none` when the loop has not ended after `fuel` rounds. -/
def blockRequests (fuel : Nat) (pieceLength offs : Nat) : Option (List (Nat × Nat)) :=
  match fuel with
  | 0 => none
  | fuel + 1 =>
    if offs < pieceLength then
      match blockRequests fuel pieceLength ((offs + blockLength) % 4294967296) with
      | some rs => some ((offs, requestLength pieceLength offs) :: rs)
      | none => none
    else some []

/-! ## `main.go`: the loop of the download driver -/

/-- The state of the loop `for piece := range pieces` of `main` and of the
goroutines it forks: the number of values in the channel `wait`, of capacity
5, the number of forked goroutines inside `getPiece`, and the number of those
that are at their receive `<-wait`. -/
structure driver where
  wait : Nat
  fetching : Nat
  releasing : Nat
  deriving DecidableEq, Repr

/-- The steps of the driver: the two cases of its `select`, each followed by
`go func(p uint32)`, the return of `getPiece` in a forked goroutine, and the
receive `<-wait` of a forked goroutine. -/
inductive driverStep where
  | acquire
  | adopt
  | fetched
  | release
  deriving DecidableEq, Repr

/-- One step of the driver; `none` when the step cannot be taken: a send on
the full channel `wait`, or a receive from the empty one, blocks. -/
def driver.step (s : driver) (st : driverStep) : Option driver :=
  match st with
  | .acquire =>
    if s.wait < 5 then some { s with wait := s.wait + 1, fetching := s.fetching + 1 }
    else none
  | .adopt => some { s with fetching := s.fetching + 1 }
  | .fetched =>
    if 0 < s.fetching then
      some { s with fetching := s.fetching - 1, releasing := s.releasing + 1 }
    else none
  | .release =>
    if 0 < s.wait ∧ 0 < s.releasing then
      some { s with wait := s.wait - 1, releasing := s.releasing - 1 }
    else none

/-- The state after the steps `sts`, taken in order. -/
def driver.run (s : driver) (sts : List driverStep) : Option driver :=
  match sts with
  | [] => some s
  | st :: rest =>
    match s.step st with
    | some s1 => driver.run s1 rest
    | none => none

/-- The driver before the first round of its loop. -/
def driver.init : driver := { wait := 0, fetching := 0, releasing := 0 }

/-! ## `main.go`: the piece manager -/

/-- The value of `i` after the loop `for ; int64(i) < int64(len(piecesSet));
i++ { if !piecesSet[i] { break } }` of `managePieces`: the index of the first
entry that is false, or the length. The set has fewer than `2^32` entries, as
`i` is a `uint32`. -/
def firstFalse (piecesSet : List Bool) : Nat :=
  match piecesSet with
  | [] => 0
  | b :: rest => if b = false then 0 else firstFalse rest + 1

/-- The value of `n` after the loop `for j := 0; j < len(clientPiecesSet); j++
{ if clientPiecesSet[j] { n++ } }`. -/
def countTrue (clientPiecesSet : List Bool) : Nat :=
  match clientPiecesSet with
  | [] => 0
  | b :: rest => if b = true then countTrue rest + 1 else countTrue rest

/-- What a round of the loop of `managePieces` does. -/
inductive managerAction where
  | emit (i : Nat)
  | recopy
  | close
  deriving DecidableEq, Repr

/-- One round of the `for` loop of `managePieces` on the speculative set
`piecesSet`: what it does and the speculative set afterwards. The set
`clientPiecesSet` is shared with the goroutines that complete pieces:
`counted` holds the values that the counting loop reads, `copied` the values
that `copy` reads. -/
def managerRound (counted copied piecesSet : List Bool) : managerAction × List Bool :=
  let i := firstFalse piecesSet
  if i = piecesSet.length then
    let n := countTrue counted
    if n = counted.length then (.close, piecesSet)
    else (.recopy, copyInto piecesSet 0 piecesSet.length copied)
  else (.emit i, piecesSet.set i true)

/-- The rounds of the loop of `managePieces` over the values `reads` that they
read from `clientPiecesSet`, one pair for a round: for every (re)initialisation
of the speculative set, the set it made and the indices sent on `out` until
the next one, and whether `out` was closed. `base` is the speculative set at
the last (re)initialisation, `sent` the indices sent since. -/
def manageLoop (reads : List (List Bool × List Bool)) (base : List Bool) (sent : List Nat)
    (piecesSet : List Bool) : List (List Bool × List Nat) × Bool :=
  match reads with
  | [] => ([(base, sent)], false)
  | (counted, copied) :: rest =>
    match managerRound counted copied piecesSet with
    | (.emit i, ps) => manageLoop rest base (sent ++ [i]) ps
    | (.recopy, ps) =>
      let r := manageLoop rest ps [] ps
      ((base, sent) :: r.1, r.2)
    | (.close, _) => ([(base, sent)], true)

/-- The function `managePieces`; `clientPiecesSet` holds the values that the
first `copy` reads. -/
def managePieces (clientPiecesSet : List Bool) (reads : List (List Bool × List Bool)) :
    List (List Bool × List Nat) × Bool :=
  let piecesSet := List.replicate clientPiecesSet.length false
  let piecesSet := copyInto piecesSet 0 piecesSet.length clientPiecesSet
  manageLoop reads piecesSet [] piecesSet

/-! # Theorems -/

/-! ## Big-endian words -/

theorem or_bytes (v : Nat) (hv : v < 2 ^ 32) :
    v % 256 ||| ((v >>> 8) % 256) <<< 8 ||| ((v >>> 16) % 256) <<< 16
      ||| ((v >>> 24) % 256) <<< 24 = v := by
  apply Nat.eq_of_testBit_eq
  intro i
  have e8 : (256 : Nat) = 2 ^ 8 := by norm_num
  simp only [e8, Nat.testBit_or, Nat.testBit_shiftLeft, Nat.testBit_mod_two_pow,
    Nat.testBit_shiftRight]
  by_cases h1 : i < 8
  · have a1 : ¬ 8 ≤ i := by omega
    have a2 : ¬ 16 ≤ i := by omega
    have a3 : ¬ 24 ≤ i := by omega
    simp [h1, a1, a2, a3]
  · by_cases h2 : i < 16
    · have a1 : 8 ≤ i := by omega
      have a2 : ¬ 16 ≤ i := by omega
      have a3 : ¬ 24 ≤ i := by omega
      have a4 : i - 8 < 8 := by omega
      have a5 : 8 + (i - 8) = i := by omega
      simp [h1, a1, a2, a3, a4, a5]
    · by_cases h3 : i < 24
      · have a1 : 8 ≤ i := by omega
        have a2 : 16 ≤ i := by omega
        have a3 : ¬ 24 ≤ i := by omega
        have a4 : ¬ i - 8 < 8 := by omega
        have a5 : i - 16 < 8 := by omega
        have a6 : 16 + (i - 16) = i := by omega
        simp [h1, a1, a2, a3, a4, a5, a6]
      · by_cases h4 : i < 32
        · have a1 : 8 ≤ i := by omega
          have a2 : 16 ≤ i := by omega
          have a3 : 24 ≤ i := by omega
          have a4 : ¬ i - 8 < 8 := by omega
          have a5 : ¬ i - 16 < 8 := by omega
          have a6 : i - 24 < 8 := by omega
          have a7 : 24 + (i - 24) = i := by omega
          simp [h1, a1, a2, a3, a4, a5, a6, a7]
        · have a1 : 8 ≤ i := by omega
          have a2 : 16 ≤ i := by omega
          have a3 : 24 ≤ i := by omega
          have a4 : ¬ i - 8 < 8 := by omega
          have a5 : ¬ i - 16 < 8 := by omega
          have a6 : ¬ i - 24 < 8 := by omega
          have a7 : v.testBit i = false :=
            Nat.testBit_lt_two_pow
              (lt_of_lt_of_le hv (Nat.pow_le_pow_right (by norm_num) (by omega)))
          simp [h1, a1, a2, a3, a4, a5, a6, a7]

theorem Uint32_uint32Bytes (v : Nat) (hv : v < 2 ^ 32) (rest : List Nat) :
    Uint32 (uint32Bytes v ++ rest) = some v := by
  simp only [uint32Bytes, Uint32, List.cons_append, List.nil_append, or_bytes v hv]

theorem Uint32_cons4 (v : Nat) (hv : v < 2 ^ 32) (rest : List Nat) :
    Uint32 (v >>> 24 % 256 :: v >>> 16 % 256 :: v >>> 8 % 256 :: v % 256 :: rest) = some v :=
  Uint32_uint32Bytes v hv rest

theorem uint32Bytes_length (v : Nat) : (uint32Bytes v).length = 4 := rfl

/-! ## Message frames -/

namespace pwp

theorem wireBody_length (m : Message) : (wireBody m).length + 1 = payloadLength m := by
  unfold wireBody payloadLength
  split_ifs <;> simp [uint32Bytes]

theorem payloadLength_pos (m : Message) : 1 ≤ payloadLength m := by
  unfold payloadLength
  split_ifs <;> omega

/-- Closed form of a frame: the length word, the type byte, the body. -/
theorem Marshal_eq (m : Message) (ht : m.Typ ≤ 8) (hl : payloadLength m < 2 ^ 32) :
    Message.Marshal m = .ok (uint32Bytes (payloadLength m) ++ m.Typ :: wireBody m) := by
  have hc : m.Typ = 0 ∨ m.Typ = 1 ∨ m.Typ = 2 ∨ m.Typ = 3 ∨ m.Typ = 4 ∨ m.Typ = 5 ∨ m.Typ = 6
      ∨ m.Typ = 7 ∨ m.Typ = 8 := by omega
  rcases hc with h | h | h | h | h | h | h | h | h <;>
    simp [payloadLength, h, MessageChoke, MessageUnchoke, MessageInterested,
      MessageNotInterested, MessageHave, MessageRequest, MessageCancel, MessageBitfield,
      MessagePiece] at hl <;>
    simp [Message.Marshal, marshalBody, wireBody, payloadLength, h, MessageChoke, MessageUnchoke,
      MessageInterested, MessageNotInterested, MessageHave, MessageRequest, MessageCancel,
      MessageBitfield, MessagePiece, PutUint32, copyInto, uint32Bytes, Nat.add_comm] <;>
    omega

/-- Decoding a type byte followed by the body its type puts on the wire. -/
theorem unmarshal_wire (m : Message) (ht : m.Typ ≤ 8) (hp : m.PieceIndex < 2 ^ 32)
    (ho : m.BlockOffset < 2 ^ 32) (hb : m.BlockLength < 2 ^ 32) :
    unmarshalMessage (m.Typ :: wireBody m) = .ok (wireFields m) := by
  have hc : m.Typ = 0 ∨ m.Typ = 1 ∨ m.Typ = 2 ∨ m.Typ = 3 ∨ m.Typ = 4 ∨ m.Typ = 5 ∨ m.Typ = 6
      ∨ m.Typ = 7 ∨ m.Typ = 8 := by omega
  rcases hc with h | h | h | h | h | h | h | h | h <;>
    simp [wireBody, wireFields, unmarshalMessage, h, MessageChoke, MessageUnchoke,
      MessageInterested, MessageNotInterested, MessageHave, MessageRequest, MessageCancel,
      MessageBitfield, MessagePiece, uint32Bytes, readUint32, slice, sliceFrom, orPanic,
      Uint32_cons4 _ hp, Uint32_cons4 _ ho, Uint32_cons4 _ hb]

theorem drop4_frame (n t : Nat) (body : List Nat) :
    (uint32Bytes n ++ t :: body).drop 4 = t :: body := by
  simp [uint32Bytes]

/-- C1 (as stated, refuted): the choke message with `PieceIndex = 1` marshals to the
frame `00 00 00 01 00`, whose payload decodes to a choke message with
`PieceIndex = 0`, which is not the message that was marshalled. -/
theorem roundtrip_loses_uncarried_field :
    Message.Marshal ⟨MessageChoke, 1, 0, 0, []⟩ = .ok [0, 0, 0, 1, 0] ∧
    unmarshalMessage ([0, 0, 0, 1, 0].drop 4) = .ok ⟨MessageChoke, 0, 0, 0, []⟩ ∧
    unmarshalMessage ([0, 0, 0, 1, 0].drop 4) ≠ .ok ⟨MessageChoke, 1, 0, 0, []⟩ := by
  decide

/-- C1 (amended): for every message `m` of a supported type with 32-bit fields
and a payload length that fits in 32 bits, `m.Marshal()` returns a frame, and
decoding the bytes after its 4-byte length prefix succeeds and returns `m` with
the fields its type does not carry on the wire zeroed; so it returns `m` itself
whenever those fields of `m` are zero. -/
theorem unmarshal_marshal_wireFields (m : Message) (ht : m.Typ ≤ 8)
    (hp : m.PieceIndex < 2 ^ 32) (ho : m.BlockOffset < 2 ^ 32) (hb : m.BlockLength < 2 ^ 32)
    (hl : payloadLength m < 2 ^ 32) :
    ∃ frame, Message.Marshal m = .ok frame ∧
      unmarshalMessage (frame.drop 4) = .ok (wireFields m) ∧
      (wireFields m = m → unmarshalMessage (frame.drop 4) = .ok m) := by
  refine ⟨_, Marshal_eq m ht hl, ?_, ?_⟩
  · rw [drop4_frame]
    exact unmarshal_wire m ht hp ho hb
  · intro hw
    rw [drop4_frame, unmarshal_wire m ht hp ho hb, hw]

/-- Witness of C1 (amended) at the piece message for piece 1, offset 16384,
carrying two bytes. -/
theorem unmarshal_marshal_wireFields_witness :
    ∃ frame, Message.Marshal ⟨MessagePiece, 1, 16384, 0, [9, 9]⟩ = .ok frame ∧
      unmarshalMessage (frame.drop 4) = .ok (wireFields ⟨MessagePiece, 1, 16384, 0, [9, 9]⟩) ∧
      (wireFields ⟨MessagePiece, 1, 16384, 0, [9, 9]⟩ = ⟨MessagePiece, 1, 16384, 0, [9, 9]⟩ →
        unmarshalMessage (frame.drop 4) = .ok ⟨MessagePiece, 1, 16384, 0, [9, 9]⟩) :=
  unmarshal_marshal_wireFields ⟨MessagePiece, 1, 16384, 0, [9, 9]⟩ (by decide) (by decide)
    (by decide) (by decide) (by decide)

/-- C2: for every message `m` of a supported type whose payload length fits in
32 bits, `m.Marshal()` returns a frame whose first four bytes read as a
big-endian integer equal to the frame's length minus 4, that length is at least
1, byte 4 is the type code of `m` (at most 8), and the payload that
`ReadMessage` cuts out of the frame is exactly the bytes after the prefix. -/
theorem Marshal_self_delimiting (m : Message) (ht : m.Typ ≤ 8)
    (hl : payloadLength m < 2 ^ 32) :
    ∃ frame, Message.Marshal m = .ok frame ∧
      Uint32 (frame.take 4) = some (frame.length - 4) ∧
      1 ≤ frame.length - 4 ∧
      frame[4]? = some m.Typ ∧ m.Typ ≤ 8 ∧
      framePayload frame = some (frame.drop 4) := by
  have hlen : (uint32Bytes (payloadLength m) ++ m.Typ :: wireBody m).length - 4
      = payloadLength m := by
    have := wireBody_length m
    simp only [List.length_append, uint32Bytes_length, List.length_cons]
    omega
  have htake : (uint32Bytes (payloadLength m) ++ m.Typ :: wireBody m).take 4
      = uint32Bytes (payloadLength m) ++ [] := by
    simp [uint32Bytes]
  have hword : Uint32 ((uint32Bytes (payloadLength m) ++ m.Typ :: wireBody m).take 4)
      = some (payloadLength m) := by
    rw [htake]
    exact Uint32_uint32Bytes _ hl []
  refine ⟨_, Marshal_eq m ht hl, ?_, ?_, ?_, ht, ?_⟩
  · rw [hlen]
    exact hword
  · rw [hlen]
    exact payloadLength_pos m
  · simp [uint32Bytes]
  · have h5 : (uint32Bytes (payloadLength m) ++ m.Typ :: wireBody m).length
        = 4 + payloadLength m := by
      have := wireBody_length m
      simp only [List.length_append, uint32Bytes_length, List.length_cons]
      omega
    simp only [framePayload, hword, slice, h5]
    rw [← h5, List.take_length]
    simp [uint32Bytes_length]

/-- Witness of C2 at the request message for piece 3, offset 16384, length 16384. -/
theorem Marshal_self_delimiting_witness :
    ∃ frame, Message.Marshal ⟨MessageRequest, 3, 16384, 16384, []⟩ = .ok frame ∧
      Uint32 (frame.take 4) = some (frame.length - 4) ∧
      1 ≤ frame.length - 4 ∧
      frame[4]? = some MessageRequest ∧ MessageRequest ≤ 8 ∧
      framePayload frame = some (frame.drop 4) :=
  Marshal_self_delimiting ⟨MessageRequest, 3, 16384, 16384, []⟩ (by decide) (by decide)

/-- C3 (the code at the failing inputs): a `have` payload that is only the type
byte, a `request` or `cancel` payload with 5 of its 13 bytes, and a `piece`
payload with 8 of its 9 header bytes all make `unmarshalMessage` panic on a
slice expression; it returns neither a message nor an error. -/
theorem unmarshalMessage_short_payload_panics :
    unmarshalMessage [4] = .panic ∧
    (unmarshalMessage [4]).returns = false ∧
    unmarshalMessage [6, 0, 0, 0, 1] = .panic ∧
    unmarshalMessage [8, 0, 0, 0, 1] = .panic ∧
    unmarshalMessage [7, 0, 0, 0, 1, 0, 0, 0] = .panic := by
  decide

/-- C4: `unmarshalMessage` returns an error for the empty payload and for every
payload whose first byte exceeds 8, and succeeds for every payload whose first
byte is 0, 1, 2 or 3 (returning the message of that type with no fields). -/
theorem unmarshalMessage_type_byte :
    unmarshalMessage [] = .error .zeroLength ∧
    (∀ t rest, 8 < t → unmarshalMessage (t :: rest) = .error (.unknownType t)) ∧
    (∀ t rest, t ≤ 3 → unmarshalMessage (t :: rest) = .ok ⟨t, 0, 0, 0, []⟩) := by
  refine ⟨by decide, ?_, ?_⟩
  · intro t rest h
    have h0 : t ≠ 0 := by omega
    have h1 : t ≠ 1 := by omega
    have h2 : t ≠ 2 := by omega
    have h3 : t ≠ 3 := by omega
    have h4 : t ≠ 4 := by omega
    have h5 : t ≠ 5 := by omega
    have h6 : t ≠ 6 := by omega
    have h7 : t ≠ 7 := by omega
    have h8 : t ≠ 8 := by omega
    simp [unmarshalMessage, MessageChoke, MessageUnchoke, MessageInterested,
      MessageNotInterested, MessageHave, MessageRequest, MessageCancel, MessageBitfield,
      MessagePiece, h0, h1, h2, h3, h4, h5, h6, h7, h8]
  · intro t rest h
    have hc : t = 0 ∨ t = 1 ∨ t = 2 ∨ t = 3 := by omega
    simp [unmarshalMessage, MessageChoke, MessageUnchoke, MessageInterested,
      MessageNotInterested, hc]

/-- Witness of C4 at the payloads `09`, `ff 01 02` and `02 07`. -/
theorem unmarshalMessage_type_byte_witness :
    unmarshalMessage [9] = .error (.unknownType 9) ∧
    unmarshalMessage [255, 1, 2] = .error (.unknownType 255) ∧
    unmarshalMessage [2, 7] = .ok ⟨2, 0, 0, 0, []⟩ :=
  ⟨unmarshalMessage_type_byte.2.1 9 [] (by decide),
   unmarshalMessage_type_byte.2.1 255 [1, 2] (by decide),
   unmarshalMessage_type_byte.2.2 2 [7] (by decide)⟩

/-! ## Handshakes -/

theorem take_of_length {α : Type} (l : List α) (n : Nat) (h : l.length = n) :
    l.take n = l := by
  subst h
  exact List.take_length l

/-- Closed form of a marshalled handshake. -/
theorem Handshake_Marshal_eq (h : Handshake) (hi : h.InfoHash.length = 20)
    (hp : h.PeerID.length = 20) :
    h.Marshal = 19 :: protocolString ++ List.replicate 8 0 ++ h.InfoHash ++ h.PeerID := by
  have pl : protocolString.length = 19 := by decide
  have t1 : List.take 27 protocolString = protocolString := List.take_of_length_le (by omega)
  have t2 : List.take 47 protocolString = protocolString := List.take_of_length_le (by omega)
  have d1 : List.drop 67 protocolString = [] := List.drop_eq_nil_of_le (by omega)
  have d2 : List.drop 40 h.InfoHash = [] := List.drop_eq_nil_of_le (by omega)
  simp only [Handshake.Marshal, copyInto]
  simp [List.take_append_eq_append_take, List.drop_append_eq_append_drop, pl, hi, hp,
    take_of_length, List.take_replicate, List.drop_replicate, t1, t2, d1, d2]

/-- Closed form of the decoder on a buffer of 68 bytes. -/
theorem unmarshalHandshake_eq (b : List Nat) (hb : b.length = 68) :
    unmarshalHandshake b =
      if b[0]? ≠ some 19 ∨ (b.take 20).drop 1 ≠ protocolString then .error .unknownProtocol
      else .ok { InfoHash := zero20, PeerID := b.drop 48 } := by
  have h68 : b.take 68 = b := take_of_length b 68 hb
  obtain ⟨b0, hb0⟩ : ∃ b0, b[0]? = some b0 := ⟨b[0], by simp⟩
  simp only [unmarshalHandshake, hb0, slice, hb, h68, copyInto, zero20]
  by_cases h19 : b0 = 19
  · by_cases hs : (b.take 20).tail = protocolString
    · have : (List.take (20 - 0) (List.drop 48 b)) = List.drop 48 b :=
        List.take_of_length_le (by simp [hb])
      simp [h19, hs, hb, this]
    · simp [h19, hs]
  · simp [h19]

theorem unmarshalHandshake_reserved (b r : List Nat) (hb : b.length = 68)
    (hr : r.length = 8) :
    unmarshalHandshake (b.take 20 ++ r ++ b.drop 28) = unmarshalHandshake b := by
  have hl : (b.take 20 ++ r ++ b.drop 28).length = 68 := by
    simp [hb, hr]
  have h0 : (b.take 20 ++ r ++ b.drop 28)[0]? = b[0]? := by
    cases b with
    | nil => simp at hb
    | cons x xs => simp
  have ht : (b.take 20 ++ r ++ b.drop 28).take 20 = b.take 20 := by
    simp [List.take_append_eq_append_take, hb, hr]
  have hd : (b.take 20 ++ r ++ b.drop 28).drop 48 = b.drop 48 := by
    have d1 : List.drop 48 (List.take 20 b) = [] := List.drop_eq_nil_of_le (by simp [hb])
    have d2 : List.drop 28 r = [] := List.drop_eq_nil_of_le (by omega)
    simp [List.drop_append_eq_append_drop, hb, hr, d1, d2]
  rw [unmarshalHandshake_eq _ hl, unmarshalHandshake_eq _ hb, h0, ht, hd]

/-- The parts of a marshalled handshake, read back with slice expressions. -/
theorem Handshake_Marshal_parts (h : Handshake) (hi : h.InfoHash.length = 20)
    (hp : h.PeerID.length = 20) :
    h.Marshal.length = 68 ∧
    h.Marshal[0]? = some 19 ∧
    slice h.Marshal 1 20 = some protocolString ∧
    protocolString = [66, 105, 116, 84, 111, 114, 114, 101, 110, 116, 32, 112, 114, 111, 116,
      111, 99, 111, 108] ∧
    slice h.Marshal 20 28 = some [0, 0, 0, 0, 0, 0, 0, 0] ∧
    slice h.Marshal 28 48 = some h.InfoHash ∧
    slice h.Marshal 48 68 = some h.PeerID := by
  have pl : protocolString.length = 19 := by decide
  have e := Handshake_Marshal_eq h hi hp
  have hlen : h.Marshal.length = 68 := by
    rw [e]
    simp [pl, hi, hp]
  refine ⟨hlen, ?_, ?_, by decide, ?_, ?_, ?_⟩
  · rw [e]
    simp
  all_goals
    simp only [slice, hlen]
    rw [e]
    simp [List.take_append_eq_append_take, List.drop_append_eq_append_drop, pl, hi, hp,
      take_of_length]

/-- C5: for every handshake `h` (two 20-byte arrays), `h.Marshal()` is exactly 68
bytes: byte 0 is 19, bytes 1..19 are the ASCII string "BitTorrent protocol",
bytes 20..27 are zero, bytes 28..47 are `h.InfoHash` and bytes 48..67 are
`h.PeerID`. -/
theorem Handshake_Marshal_layout (h : Handshake) (hi : h.InfoHash.length = 20)
    (hp : h.PeerID.length = 20) :
    h.Marshal.length = 68 ∧
    h.Marshal[0]? = some 19 ∧
    slice h.Marshal 1 20 = some protocolString ∧
    protocolString = [66, 105, 116, 84, 111, 114, 114, 101, 110, 116, 32, 112, 114, 111, 116,
      111, 99, 111, 108] ∧
    slice h.Marshal 20 28 = some [0, 0, 0, 0, 0, 0, 0, 0] ∧
    slice h.Marshal 28 48 = some h.InfoHash ∧
    slice h.Marshal 48 68 = some h.PeerID :=
  Handshake_Marshal_parts h hi hp

/-- Witness of C5 at the handshake with info hash `01 .. 01` and peer id `02 .. 02`. -/
theorem Handshake_Marshal_layout_witness :
    (Handshake.Marshal ⟨List.replicate 20 1, List.replicate 20 2⟩).length = 68 ∧
    slice (Handshake.Marshal ⟨List.replicate 20 1, List.replicate 20 2⟩) 48 68
      = some (List.replicate 20 2) :=
  ⟨(Handshake_Marshal_layout ⟨List.replicate 20 1, List.replicate 20 2⟩
      (by decide) (by decide)).1,
   (Handshake_Marshal_layout ⟨List.replicate 20 1, List.replicate 20 2⟩
      (by decide) (by decide)).2.2.2.2.2.2⟩

/-- C6: for every 68-byte input `b`, `unmarshalHandshake` returns an error if
and only if `b[0]` is not 19 or `b[1:20]` is not "BitTorrent protocol";
otherwise it returns a handshake whose `PeerID` is `b[48:68]`; replacing the
reserved bytes `b[20:28]` by any other 8 bytes does not change the result; and
decoding `h.Marshal()` succeeds with `h.PeerID` for every handshake `h`. -/
theorem unmarshalHandshake_spec (b : List Nat) (hb : b.length = 68) :
    ((unmarshalHandshake b).isError = true ↔
      (b[0]? ≠ some 19 ∨ slice b 1 20 ≠ some protocolString)) ∧
    ((unmarshalHandshake b).isError = false →
      unmarshalHandshake b = .ok { InfoHash := zero20, PeerID := b.drop 48 }) ∧
    slice b 48 68 = some (b.drop 48) ∧
    (∀ r : List Nat, r.length = 8 →
      unmarshalHandshake (b.take 20 ++ r ++ b.drop 28) = unmarshalHandshake b) ∧
    (∀ h : Handshake, h.InfoHash.length = 20 → h.PeerID.length = 20 →
      unmarshalHandshake h.Marshal = .ok { InfoHash := zero20, PeerID := h.PeerID }) := by
  have hs : slice b 1 20 = some ((b.take 20).drop 1) := by simp [slice, hb]
  refine ⟨?_, ?_, ?_, ?_, ?_⟩
  · rw [unmarshalHandshake_eq b hb, hs]
    split_ifs with hc
    · simpa [Outcome.isError] using hc
    · simpa [Outcome.isError] using hc
  · rw [unmarshalHandshake_eq b hb]
    split_ifs with hc
    · simp [Outcome.isError]
    · simp
  · simp [slice, hb, take_of_length]
  · intro r hr
    exact unmarshalHandshake_reserved b r hb hr
  · intro h hi hp
    obtain ⟨hl, h0, h1, -, -, -, h5⟩ := Handshake_Marshal_parts h hi hp
    rw [unmarshalHandshake_eq _ hl]
    simp only [slice, hl] at h1 h5
    simp at h1 h5
    rw [take_of_length _ 68 hl] at h5
    simp [h0, h1, h5]

/-- Witness of C6 at the 68 zero bytes (rejected: byte 0 is not 19) and at the
marshalled handshake with info hash `01 .. 01` and peer id `02 .. 02`. -/
theorem unmarshalHandshake_spec_witness :
    (unmarshalHandshake (List.replicate 68 0)).isError = true ∧
    unmarshalHandshake (Handshake.Marshal ⟨List.replicate 20 1, List.replicate 20 2⟩)
      = .ok { InfoHash := zero20, PeerID := List.replicate 20 2 } :=
  ⟨((unmarshalHandshake_spec (List.replicate 68 0) (by decide)).1).2 (Or.inl (by decide)),
   (unmarshalHandshake_spec (List.replicate 68 0) (by decide)).2.2.2.2
      ⟨List.replicate 20 1, List.replicate 20 2⟩ (by decide) (by decide)⟩

end pwp

/-! ## Bitfields -/

theorem forLoop_succ {σ : Type} (n : Nat) (body : Nat → σ → σ) (s : σ) :
    forLoop (n + 1) body s = body n (forLoop n body s) := rfl

theorem forLoop_congr {σ : Type} (n : Nat) (f g : Nat → σ → σ) (s : σ)
    (h : ∀ i, i < n → ∀ t, f i t = g i t) : forLoop n f s = forLoop n g s := by
  induction n with
  | zero => rfl
  | succ k ih =>
    rw [forLoop_succ, forLoop_succ, ih (fun i hi t => h i (by omega) t), h k (by omega)]

/-- Inner loop of `unpackBitmap` after `n` rounds on byte `x` at index `j`. -/
theorem unpack_inner (x j : Nat) (n : Nat) (m : List Bool) :
    (forLoop n (fun i m => if bitSet x i then m.set (8 * j + i) true else m) m).length
      = m.length ∧
    ∀ k, (forLoop n (fun i m => if bitSet x i then m.set (8 * j + i) true else m) m)[k]? =
      if k < m.length ∧ 8 * j ≤ k ∧ k < 8 * j + n ∧ bitSet x (k - 8 * j) = true then some true
      else m[k]? := by
  induction n with
  | zero =>
    refine ⟨rfl, fun k => ?_⟩
    rw [if_neg]
    · rfl
    · rintro ⟨-, h1, h2, -⟩
      omega
  | succ n ih =>
    obtain ⟨hl, hk⟩ := ih
    rw [forLoop_succ]
    constructor
    · split_ifs <;> simp [hl]
    · intro k
      by_cases c : k < m.length ∧ 8 * j ≤ k ∧ k < 8 * j + n ∧ bitSet x (k - 8 * j) = true
      · have c2 : k < m.length ∧ 8 * j ≤ k ∧ k < 8 * j + (n + 1)
            ∧ bitSet x (k - 8 * j) = true := ⟨c.1, c.2.1, by omega, c.2.2.2⟩
        rw [if_pos c2]
        have hk' := hk k
        rw [if_pos c] at hk'
        by_cases hb : bitSet x n = true
        · rw [if_pos hb, List.getElem?_set, hk', hl]
          split_ifs <;> first | rfl | omega
        · rw [if_neg hb, hk']
      · have hk' := hk k
        rw [if_neg c] at hk'
        by_cases hb : bitSet x n = true
        · rw [if_pos hb, List.getElem?_set, hk', hl]
          by_cases e : 8 * j + n = k
          · rw [if_pos e]
            by_cases hlt : k < m.length
            · have c2 : k < m.length ∧ 8 * j ≤ k ∧ k < 8 * j + (n + 1)
                  ∧ bitSet x (k - 8 * j) = true := by
                refine ⟨hlt, by omega, by omega, ?_⟩
                have : k - 8 * j = n := by omega
                rw [this]; exact hb
              rw [if_pos c2, if_pos (by omega)]
            · rw [if_neg (by omega), if_neg (fun h => hlt h.1)]
              exact (List.getElem?_eq_none (by omega)).symm
          · rw [if_neg e, if_neg]
            rintro ⟨a, b, c', d⟩
            exact c ⟨a, b, by omega, d⟩
        · rw [if_neg hb, hk', if_neg]
          rintro ⟨a, b, c', d⟩
          by_cases e : k - 8 * j = n
          · rw [e] at d; exact hb d
          · exact c ⟨a, b, by omega, d⟩

/-- Every entry of the unpacked bitmap: the bit of byte `k / 8` at mask
`1 << (8 - (k % 8 + 1))`. -/
theorem unpack_outer (b : List Nat) (n : Nat) (m0 : List Bool) (hn : n ≤ b.length)
    (h0 : ∀ k, k < m0.length → m0[k]? = some false) :
    (forLoop n (fun j m =>
      forLoop 8 (fun i m => if bitSet (b.getD j 0) i then m.set (8 * j + i) true else m) m)
      m0).length = m0.length ∧
    ∀ k, k < m0.length →
      (forLoop n (fun j m =>
        forLoop 8 (fun i m => if bitSet (b.getD j 0) i then m.set (8 * j + i) true else m) m)
        m0)[k]? = some (decide (k / 8 < n) && bitSet (b.getD (k / 8) 0) (k % 8)) := by
  induction n with
  | zero =>
    refine ⟨rfl, fun k hk => ?_⟩
    simp [forLoop, h0 k hk]
  | succ n ih =>
    obtain ⟨hl, hk⟩ := ih (by omega)
    rw [forLoop_succ]
    obtain ⟨il, ik⟩ := unpack_inner (b.getD n 0) n 8 (forLoop n (fun j m =>
      forLoop 8 (fun i m => if bitSet (b.getD j 0) i then m.set (8 * j + i) true else m) m) m0)
    refine ⟨by rw [il, hl], fun k hlt => ?_⟩
    rw [ik k, hl, hk k hlt]
    by_cases e : k / 8 = n
    · have e1 : 8 * n ≤ k := by omega
      have e2 : k < 8 * n + 8 := by omega
      have e3 : k - 8 * n = k % 8 := by omega
      have e4 : ¬ (k / 8 < n) := by omega
      have e5 : k / 8 < n + 1 := by omega
      rw [e3]
      by_cases hb : bitSet (b.getD n 0) (k % 8) = true
      · rw [if_pos ⟨hlt, e1, e2, hb⟩, e, hb]
        simp
      · rw [if_neg (fun h => hb h.2.2.2), e, Bool.eq_false_iff.mpr hb]
        simp
    · rw [if_neg (by rintro ⟨-, a, c, -⟩; omega)]
      have : decide (k / 8 < n) = decide (k / 8 < n + 1) := by
        by_cases q : k / 8 < n
        · have q2 : k / 8 < n + 1 := by omega
          simp [q, q2]
        · have q2 : ¬ k / 8 < n + 1 := by omega
          simp [q, q2]
      rw [this]

theorem unpackBitmap_length (b : List Nat) : (unpackBitmap b).length = b.length * 8 := by
  have h := (unpack_outer b b.length (List.replicate (b.length * 8) false) (le_refl _)
    (fun k hk => by simp at hk; simp [hk])).1
  simpa [unpackBitmap] using h

theorem unpackBitmap_getElem? (b : List Nat) (k : Nat) (hk : k < b.length * 8) :
    (unpackBitmap b)[k]? = some (bitSet (b.getD (k / 8) 0) (k % 8)) := by
  have h := (unpack_outer b b.length (List.replicate (b.length * 8) false) (le_refl _)
    (fun k hk => by simp at hk; simp [hk])).2 k (by simpa using hk)
  have hd : k / 8 < b.length := by omega
  simpa [unpackBitmap, hd] using h

theorem pack_inner (c : Nat → Prop) [DecidablePred c] (mask : Nat → Nat) (j n : Nat)
    (bs : List Nat) (hj : j < bs.length) :
    forLoop n (fun i b => if c i then b.set j (b.getD j 0 ||| mask i) else b) bs
      = bs.set j (forLoop n (fun i acc => if c i then acc ||| mask i else acc) (bs.getD j 0)) := by
  induction n with
  | zero =>
    simp only [forLoop]
    rw [List.getD_eq_getElem _ _ hj]
    apply List.ext_getElem?
    intro k
    rw [List.getElem?_set]
    by_cases h1 : j = k
    · subst h1
      rw [if_pos rfl, if_pos hj]
      exact List.getElem?_eq_getElem hj
    · rw [if_neg h1]
  | succ n ih =>
    rw [forLoop_succ, forLoop_succ, ih]
    by_cases h : c n
    · rw [if_pos h, if_pos h, List.set_set]
      congr 2
      rw [List.getD_eq_getElem _ _ (by simpa using hj)]
      simp
    · rw [if_neg h, if_neg h]

theorem pack_outer (m : List Bool) (l n : Nat) (hn : n ≤ l) :
    (forLoop n (fun j b =>
      forLoop 8 (fun i b =>
        if 8 * j + i < m.length ∧ m.getD (8 * j + i) false = true then
          b.set j (b.getD j 0 ||| (1 <<< (8 - (i + 1))))
        else b) b) (List.replicate l 0)).length = l ∧
    ∀ k, k < l →
      (forLoop n (fun j b =>
        forLoop 8 (fun i b =>
          if 8 * j + i < m.length ∧ m.getD (8 * j + i) false = true then
            b.set j (b.getD j 0 ||| (1 <<< (8 - (i + 1))))
          else b) b) (List.replicate l 0))[k]?
        = some (if k < n then packedByte m k else 0) := by
  induction n with
  | zero =>
    refine ⟨by simp [forLoop], fun k hk => ?_⟩
    simp [forLoop, hk]
  | succ n ih =>
    obtain ⟨hl, hk⟩ := ih (by omega)
    rw [forLoop_succ]
    have hn' : n < (forLoop n (fun j b =>
      forLoop 8 (fun i b =>
        if 8 * j + i < m.length ∧ m.getD (8 * j + i) false = true then
          b.set j (b.getD j 0 ||| (1 <<< (8 - (i + 1))))
        else b) b) (List.replicate l 0)).length := by rw [hl]; omega
    have step := pack_inner (fun i => 8 * n + i < m.length ∧ m.getD (8 * n + i) false = true)
      (fun i => 1 <<< (8 - (i + 1))) n 8 _ hn'
    rw [step]
    refine ⟨by rw [List.length_set, hl], fun k hlt => ?_⟩
    rw [List.getElem?_set]
    by_cases e : n = k
    · subst e
      rw [if_pos rfl, if_pos hn', if_pos (by omega)]
      have h0 := hk n (by omega)
      rw [if_neg (by omega)] at h0
      have hd : List.getD (forLoop n (fun j b =>
        forLoop 8 (fun i b =>
          if 8 * j + i < m.length ∧ m.getD (8 * j + i) false = true then
            b.set j (b.getD j 0 ||| (1 <<< (8 - (i + 1))))
          else b) b) (List.replicate l 0)) n 0 = 0 := by
        rw [List.getD_eq_getElem?_getD, h0]
        rfl
      rw [hd]
      rfl
    · rw [if_neg e, hk k hlt]
      by_cases q : k < n
      · rw [if_pos q, if_pos (by omega)]
      · rw [if_neg q, if_neg (by omega)]

theorem packBitmap_length (m : List Bool) :
    (packBitmap m).length = if m.length % 8 ≠ 0 then m.length / 8 + 1 else m.length / 8 := by
  simp only [packBitmap]
  exact (pack_outer m _ _ (le_refl _)).1

theorem packBitmap_getElem? (m : List Bool) (k : Nat) (hk : k < (packBitmap m).length) :
    (packBitmap m)[k]? = some (packedByte m k) := by
  have hk' := hk
  rw [packBitmap_length] at hk'
  simp only [packBitmap]
  rw [(pack_outer m _ _ (le_refl _)).2 k hk', if_pos hk']

set_option maxRecDepth 100000 in
theorem maskedByte_full : ∀ x, x < 256 → maskedByte x 8 = x := by
  decide

set_option maxRecDepth 100000 in
theorem maskedByte_low_bits : ∀ r, r < 8 → ∀ x, x < 256 →
    maskedByte x r % 2 ^ (8 - r) = 0 := by
  decide

theorem and_mask_eq_zero (y n k : Nat) (hy : y % 2 ^ n = 0) (hk : k < n) :
    y &&& (1 <<< k) = 0 := by
  apply Nat.eq_of_testBit_eq
  intro j
  have hb : y.testBit k = false := by
    have h := Nat.testBit_mod_two_pow y n k
    rw [hy] at h
    simpa [hk] using h.symm
  rw [Nat.testBit_and, Nat.one_shiftLeft, Nat.testBit_two_pow, Nat.zero_testBit]
  by_cases e : k = j
  · subst e
    simp [hb]
  · simp [e]

theorem maskedByte_tail (r : Nat) (hr : r < 8) (i : Nat) (hi : i < 8) (x : Nat)
    (hx : x < 256) (hri : r ≤ i) : maskedByte x r &&& (1 <<< (7 - i)) = 0 :=
  and_mask_eq_zero _ (8 - r) (7 - i) (maskedByte_low_bits r hr x hx) (by omega)

theorem maskedByte_ge (x r : Nat) (hr : 8 ≤ r) : maskedByte x r = maskedByte x 8 := by
  unfold maskedByte
  apply forLoop_congr
  intro i hi t
  have h1 : i < r := by omega
  simp [h1, hi]

/-- The bytes `packBitmap` builds from the first `N` unpacked bits of `B`. -/
theorem packedByte_take_unpack (B : List Nat) (N j : Nat) (hN : N ≤ B.length * 8) :
    packedByte ((unpackBitmap B).take N) j = maskedByte (B.getD j 0) (N - 8 * j) := by
  have hlen : ((unpackBitmap B).take N).length = N := by
    rw [List.length_take, unpackBitmap_length]
    omega
  unfold packedByte maskedByte
  apply forLoop_congr
  intro i hi t
  rw [hlen]
  by_cases h : 8 * j + i < N
  · have h2 : i < N - 8 * j := by omega
    have hget : ((unpackBitmap B).take N).getD (8 * j + i) false = bitSet (B.getD j 0) i := by
      rw [List.getD_eq_getElem?_getD, List.getElem?_take_of_lt h,
        unpackBitmap_getElem? B _ (by omega)]
      have e1 : (8 * j + i) / 8 = j := by omega
      have e2 : (8 * j + i) % 8 = i := by omega
      rw [e1, e2]
      rfl
    rw [hget]
    simp [h, h2]
  · have h2 : ¬ i < N - 8 * j := by omega
    simp [h, h2]

theorem packBitmap_take_unpack_getElem? (B : List Nat) (N j : Nat)
    (hlen : B.length = (N + 7) / 8) (hj : j < B.length) :
    (packBitmap ((unpackBitmap B).take N))[j]?
      = some (maskedByte (B.getD j 0) (N - 8 * j)) := by
  have hN : N ≤ B.length * 8 := by omega
  have hm : ((unpackBitmap B).take N).length = N := by
    rw [List.length_take, unpackBitmap_length]
    omega
  have hpl : (packBitmap ((unpackBitmap B).take N)).length = B.length := by
    rw [packBitmap_length, hm]
    split_ifs <;> omega
  rw [packBitmap_getElem? _ _ (by rw [hpl]; exact hj), packedByte_take_unpack B N j hN]

/-- C7: for every piece count `N` and every packed bitfield `B` of `ceil(N / 8)`
bytes, the truncation `unpackBitmap(B)[:N]` succeeds and packing it gives `B`
back when `N` is a multiple of 8; in every case the result has as many bytes as
`B` and agrees with `B` on the first `N / 8` bytes, and when `N` is not a
multiple of 8 every bit of its last byte at a position from `N % 8` on
(mask `1 << (7 - i)`) is zero. -/
theorem packBitmap_unpackBitmap (N : Nat) (B : List Nat) (hlen : B.length = (N + 7) / 8)
    (hB : ∀ x ∈ B, x < 256) :
    ∃ m, slice (unpackBitmap B) 0 N = some m ∧
      (N % 8 = 0 → packBitmap m = B) ∧
      (packBitmap m).length = B.length ∧
      (∀ j, j < N / 8 → (packBitmap m)[j]? = B[j]?) ∧
      (N % 8 ≠ 0 → ∃ y, (packBitmap m)[N / 8]? = some y ∧
        ∀ i, N % 8 ≤ i → i < 8 → y &&& (1 <<< (7 - i)) = 0) := by
  have hN : N ≤ B.length * 8 := by omega
  have hm : ((unpackBitmap B).take N).length = N := by
    rw [List.length_take, unpackBitmap_length]
    omega
  have hpl : (packBitmap ((unpackBitmap B).take N)).length = B.length := by
    rw [packBitmap_length, hm]
    split_ifs <;> omega
  have hfull : ∀ j, j < N / 8 → (packBitmap ((unpackBitmap B).take N))[j]? = B[j]? := by
    intro j hj
    have hjB : j < B.length := by omega
    rw [packBitmap_take_unpack_getElem? B N j hlen hjB, maskedByte_ge _ _ (by omega),
      List.getD_eq_getElem _ _ hjB, maskedByte_full _ (hB _ (List.getElem_mem hjB))]
    exact (List.getElem?_eq_getElem hjB).symm
  refine ⟨(unpackBitmap B).take N, ?_, ?_, hpl, hfull, ?_⟩
  · simp [slice, unpackBitmap_length, hN]
  · intro h8
    apply List.ext_getElem?
    intro j
    by_cases hj : j < B.length
    · exact hfull j (by omega)
    · rw [List.getElem?_eq_none (by omega), List.getElem?_eq_none (by omega)]
  · intro h8
    have hjB : N / 8 < B.length := by omega
    refine ⟨_, packBitmap_take_unpack_getElem? B N (N / 8) hlen hjB, ?_⟩
    intro i hi1 hi2
    have e : N - 8 * (N / 8) = N % 8 := by omega
    rw [e, List.getD_eq_getElem _ _ hjB]
    exact maskedByte_tail (N % 8) (by omega) i hi2 _ (hB _ (List.getElem_mem hjB)) hi1

/-- Witness of C7 at `N = 11` and the two bytes `0x81 0x5f`: the five padding
bits of the second byte are cleared. -/
theorem packBitmap_unpackBitmap_witness :
    ∃ m, slice (unpackBitmap [0x81, 0x5f]) 0 11 = some m ∧
      (11 % 8 = 0 → packBitmap m = [0x81, 0x5f]) ∧
      (packBitmap m).length = [0x81, 0x5f].length ∧
      (∀ j, j < 11 / 8 → (packBitmap m)[j]? = [0x81, 0x5f][j]?) ∧
      (11 % 8 ≠ 0 → ∃ y, (packBitmap m)[11 / 8]? = some y ∧
        ∀ i, 11 % 8 ≤ i → i < 8 → y &&& (1 <<< (7 - i)) = 0) :=
  packBitmap_unpackBitmap 11 [0x81, 0x5f] (by decide) (by decide)

/-- C8: bitfields are MSB-first: for every byte sequence `b` and every
`i < 8 * len(b)`, entry `i` of `unpackBitmap(b)` is true exactly when byte
`b[i / 8]` has the bit with mask `1 << (7 - i % 8)` set; and the bytes
`0b10000001 0b01000000` truncated to 11 entries give `[T,F,F,F,F,F,F,T,F,T,F]`. -/
theorem unpackBitmap_msb_first (b : List Nat) (i : Nat) (hi : i < 8 * b.length) :
    (∃ x, b[i / 8]? = some x ∧
      (unpackBitmap b)[i]? = some (decide (x &&& (1 <<< (7 - i % 8)) > 0))) ∧
    slice (unpackBitmap [0b10000001, 0b01000000]) 0 11
      = some [true, false, false, false, false, false, false, true, false, true, false] := by
  refine ⟨?_, by decide⟩
  have hd : i / 8 < b.length := by omega
  refine ⟨b[i / 8], List.getElem?_eq_getElem hd, ?_⟩
  rw [unpackBitmap_getElem? b i (by omega), List.getD_eq_getElem _ _ hd]
  have e : 8 - (i % 8 + 1) = 7 - i % 8 := by omega
  simp only [bitSet, e]

/-- Witness of C8 at entry 9 of the two bytes `0b10000001 0b01000000`. -/
theorem unpackBitmap_msb_first_witness :
    ∃ x, [0b10000001, 0b01000000][9 / 8]? = some x ∧
      (unpackBitmap [0b10000001, 0b01000000])[9]?
        = some (decide (x &&& (1 <<< (7 - 9 % 8)) > 0)) :=
  (unpackBitmap_msb_first [0b10000001, 0b01000000] 9 (by decide)).1

/-- The truncation of `shakeHands` panics exactly when the peer's bitfield
carries fewer bits than there are pieces. -/
theorem peerPiecesSet_eq_none_iff (data : List Nat) (n : Nat) :
    peerPiecesSet data n = none ↔ data.length * 8 < n := by
  simp [peerPiecesSet, slice, unpackBitmap_length]

/-- C9 (the code at the failing inputs): with one piece and a peer bitfield
message with an empty payload, and with nine pieces and a one-byte bitfield,
the slice expression of `shakeHands` panics; with eight pieces and one byte it
yields eight entries. -/
theorem peerPiecesSet_short_bitfield_panics :
    peerPiecesSet [] 1 = none ∧
    peerPiecesSet [0x80] 9 = none ∧
    peerPiecesSet [0x80] 8
      = some [true, false, false, false, false, false, false, false] := by
  decide

/-! ## The lexer -/

namespace bencode

theorem lexInteger_progress (l l' : lexer) (ts : List token)
    (h : lexInteger l = (ts, .continue l')) :
    l'.input = l.input ∧ l.start < l'.start := by
  unfold lexInteger at h
  split at h
  · simp at h
  · dsimp only at h
    split at h
    · simp at h
    · split at h
      · simp at h
      · split at h
        · simp at h
        · simp only [Prod.mk.injEq, Next.continue.injEq] at h
          obtain ⟨-, rfl⟩ := h
          exact ⟨rfl, by dsimp only; omega⟩

theorem lexString_progress (l l' : lexer) (ts : List token)
    (h : lexString l = (ts, .continue l')) :
    l'.input = l.input ∧ l.start < l'.start := by
  unfold lexString at h
  split at h
  · simp at h
  · split at h
    · simp at h
    · dsimp only at h
      split at h
      · simp at h
      · split at h
        · simp at h
        · rename_i hs1 hs2
          simp only [Prod.mk.injEq, Next.continue.injEq] at h
          obtain ⟨-, rfl⟩ := h
          refine ⟨rfl, ?_⟩
          simp only [not_lt] at hs2
          dsimp only
          omega

theorem iteration_progress (l l' : lexer) (ts : List token)
    (h : iteration l = (ts, .continue l')) :
    l'.input = l.input ∧ l.start < l'.start := by
  unfold iteration at h
  split at h
  · split at h <;> simp at h
  · dsimp only at h
    split at h
    · simp only [Prod.mk.injEq, Next.continue.injEq] at h
      obtain ⟨-, rfl⟩ := h
      exact ⟨rfl, by dsimp only; omega⟩
    · split at h
      · simp only [Prod.mk.injEq, Next.continue.injEq] at h
        obtain ⟨-, rfl⟩ := h
        exact ⟨rfl, by dsimp only; omega⟩
      · split at h
        · split at h
          · simp at h
          · simp only [Prod.mk.injEq, Next.continue.injEq] at h
            obtain ⟨-, rfl⟩ := h
            exact ⟨rfl, by dsimp only; omega⟩
        · split at h
          · exact lexInteger_progress l l' ts h
          · split at h
            · exact lexString_progress l l' ts h
            · simp at h

theorem lexInteger_stop (l : lexer) (ts : List token) (s : Stop)
    (h : lexInteger l = (ts, .stop s)) : s = .returned := by
  unfold lexInteger at h
  split at h
  · simp only [Prod.mk.injEq, Next.stop.injEq] at h
    exact h.2.symm
  · dsimp only at h
    split at h
    · simp only [Prod.mk.injEq, Next.stop.injEq] at h
      exact h.2.symm
    · split at h
      · simp only [Prod.mk.injEq, Next.stop.injEq] at h
        exact h.2.symm
      · split at h
        · simp only [Prod.mk.injEq, Next.stop.injEq] at h
          exact h.2.symm
        · simp at h

theorem lexString_stop (l : lexer) (ts : List token) (s : Stop)
    (h : lexString l = (ts, .stop s)) : s ≠ .outOfFuel := by
  unfold lexString at h
  split at h
  · simp only [Prod.mk.injEq, Next.stop.injEq] at h
    rw [← h.2]
    simp
  · split at h
    · simp only [Prod.mk.injEq, Next.stop.injEq] at h
      rw [← h.2]
      simp
    · dsimp only at h
      split at h
      · simp only [Prod.mk.injEq, Next.stop.injEq] at h
        rw [← h.2]
        simp
      · split at h
        · simp only [Prod.mk.injEq, Next.stop.injEq] at h
          rw [← h.2]
          simp
        · simp at h

theorem iteration_stop (l : lexer) (ts : List token) (s : Stop)
    (h : iteration l = (ts, .stop s)) : s ≠ .outOfFuel := by
  unfold iteration at h
  split at h
  · split at h <;>
    · simp only [Prod.mk.injEq, Next.stop.injEq] at h
      rw [← h.2]
      simp
  · dsimp only at h
    split at h
    · simp at h
    · split at h
      · simp at h
      · split at h
        · split at h
          · simp only [Prod.mk.injEq, Next.stop.injEq] at h
            rw [← h.2]
            simp
          · simp at h
        · split at h
          · rw [lexInteger_stop l ts s h]
            simp
          · split at h
            · exact lexString_stop l ts s h
            · simp only [Prod.mk.injEq, Next.stop.injEq] at h
              rw [← h.2]
              simp

theorem iteration_at_end (l : lexer) (h : l.start ≥ l.input.length) :
    ∃ ts, iteration l = (ts, .stop .returned) := by
  unfold iteration
  rw [if_pos h]
  split
  · exact ⟨_, rfl⟩
  · exact ⟨_, rfl⟩

/-- The iteration budget of `lex` is never exhausted. -/
theorem run_fuel (fuel : Nat) (l : lexer) (hf : l.input.length < fuel + l.start)
    (h0 : 0 < fuel) : (run fuel l).2 ≠ .outOfFuel := by
  induction fuel generalizing l with
  | zero => omega
  | succ n ih =>
    unfold run
    split
    · rename_i ts s hi
      exact iteration_stop l ts s hi
    · rename_i ts l' hi
      obtain ⟨hin, hst⟩ := iteration_progress l l' ts hi
      have hlt : l.start < l.input.length := by
        by_contra hc
        obtain ⟨ts', hts⟩ := iteration_at_end l (by omega)
        rw [hts] at hi
        simp at hi
      exact ih l' (by rw [hin]; omega) (by omega)

/-- The goroutine started by `lex` returns or panics on every input: the
iteration budget of the model is never what stops it. -/
theorem lex_stops (input : List Nat) : (lex input).2 ≠ .outOfFuel :=
  run_fuel _ _ (by simp) (by omega)

end bencode

/-! ## The info-section digest -/

namespace bencode

/-- C10 (the code at the failing inputs): for the document
`d4:infod4:name4:infoee`, whose top-level `info` value is the substring
`d4:name4:infoe`, `HashInfo` digests `d4:name4:infoee`, one byte too many,
because the string `info` inside the value restarts the capture; for
`d1:a4:info4:infod3:keyi42eee` it digests `4:infod3:keyi42ee`, starting at the
earlier string `info`. For the document `d4:infod3:keyi42eee` of the claim it
digests `d3:keyi42ee`. -/
theorem HashInfo_restarts_at_info_string :
    digestedInfo (str "d4:infod4:name4:infoee") = .ok (str "d4:name4:infoee") ∧
    str "d4:name4:infoee" ≠ str "d4:name4:infoe" ∧
    (∀ sha1 : List Nat → List Nat,
      HashInfo sha1 (str "d4:infod4:name4:infoee") = .ok (sha1 (str "d4:name4:infoee"))) ∧
    digestedInfo (str "d1:a4:info4:infod3:keyi42eee") = .ok (str "4:infod3:keyi42ee") ∧
    digestedInfo (str "d4:infod3:keyi42eee") = .ok (str "d3:keyi42ee") := by
  have h : digestedInfo (str "d4:infod4:name4:infoee") = .ok (str "d4:name4:infoee") := by
    decide
  refine ⟨h, by decide, ?_, by decide, by decide⟩
  intro sha1
  simp only [HashInfo, h]

end bencode


/-! ## 64-bit sums -/

theorem wrapInt64_of_range (x : Int) (h0 : 0 ≤ x) (h1 : x < 9223372036854775808) :
    bencode.wrapInt64 x = x := by
  unfold bencode.wrapInt64
  omega

/-! ## The tracker response -/

theorem Uint16_eq (b0 b1 : Nat) (h1 : b1 < 256) : Uint16 b0 b1 = 256 * b0 + b1 := by
  have h := Nat.mul_add_lt_is_or (show b1 < 2 ^ 8 by simpa using h1) b0
  unfold Uint16
  rw [Nat.or_comm, Nat.shiftLeft_eq, Nat.mul_comm b0, ← h]

/-- The address that `parseTrackerResponse` makes of the `j`-th group of six
bytes of a compact peers string. -/
theorem compactPeer_eq (s : List Nat) (j : Nat) (hj : 6 * j + 6 ≤ s.length) :
    compactPeer s (6 * j) =
      some (decimal (s.getD (6 * j) 0) ++ bencode.str "." ++ decimal (s.getD (6 * j + 1) 0)
        ++ bencode.str "." ++ decimal (s.getD (6 * j + 2) 0) ++ bencode.str "."
        ++ decimal (s.getD (6 * j + 3) 0) ++ bencode.str ":"
        ++ decimal (Uint16 (s.getD (6 * j + 4) 0) (s.getD (6 * j + 5) 0))) := by
  have h0 : s[6 * j]? = some (s.getD (6 * j) 0) := by
    rw [List.getD_eq_getElem _ _ (by omega)]; exact List.getElem?_eq_getElem (by omega)
  have h1 : s[6 * j + 1]? = some (s.getD (6 * j + 1) 0) := by
    rw [List.getD_eq_getElem _ _ (by omega)]; exact List.getElem?_eq_getElem (by omega)
  have h2 : s[6 * j + 2]? = some (s.getD (6 * j + 2) 0) := by
    rw [List.getD_eq_getElem _ _ (by omega)]; exact List.getElem?_eq_getElem (by omega)
  have h3 : s[6 * j + 3]? = some (s.getD (6 * j + 3) 0) := by
    rw [List.getD_eq_getElem _ _ (by omega)]; exact List.getElem?_eq_getElem (by omega)
  have h45 : slice s (6 * j + 4) (6 * j + 6)
      = some [s.getD (6 * j + 4) 0, s.getD (6 * j + 5) 0] := by
    have hs : slice s (6 * j + 4) (6 * j + 6) = some ((s.take (6 * j + 6)).drop (6 * j + 4)) := by
      simp only [slice]
      rw [if_pos ⟨by omega, hj⟩]
    rw [hs]
    congr 1
    apply List.ext_getElem?
    intro k
    rw [List.getElem?_drop]
    by_cases hk : k < 2
    · rw [List.getElem?_take_of_lt (by omega)]
      have hk' : k = 0 ∨ k = 1 := by omega
      rcases hk' with rfl | rfl
      · rw [List.getD_eq_getElem _ _ (by omega)]
        simp only [Nat.add_zero, List.getElem?_cons_zero]
        exact List.getElem?_eq_getElem (by omega)
      · rw [List.getD_eq_getElem _ _ (by omega), List.getD_eq_getElem _ _ (by omega)]
        simp only [List.getElem?_cons_succ, List.getElem?_cons_zero]
        exact List.getElem?_eq_getElem (by omega)
    · rw [List.getElem?_eq_none (by simp; omega), List.getElem?_eq_none (by simp; omega)]
  simp only [compactPeer, h0, h1, h2, h3, h45]

/-- The loop over a compact peers string after `n` rounds. -/
theorem compactPeers_loop (s : List Nat) (n : Nat) (hn : 6 * n ≤ s.length) :
    forLoop n
      (fun j acc =>
        match acc with
        | none => none
        | some peers =>
          match compactPeer s (6 * j) with
          | some peer => some (peers ++ [peer])
          | none => none)
      (some [])
    = some ((List.range n).map fun j =>
        decimal (s.getD (6 * j) 0) ++ bencode.str "." ++ decimal (s.getD (6 * j + 1) 0)
        ++ bencode.str "." ++ decimal (s.getD (6 * j + 2) 0) ++ bencode.str "."
        ++ decimal (s.getD (6 * j + 3) 0) ++ bencode.str ":"
        ++ decimal (Uint16 (s.getD (6 * j + 4) 0) (s.getD (6 * j + 5) 0))) := by
  induction n with
  | zero => rfl
  | succ n ih =>
    rw [forLoop_succ, ih (by omega), List.range_succ, List.map_append]
    simp only [compactPeer_eq s n (by omega), List.map_cons, List.map_nil]

/-- The result of `parseTrackerResponse` on a compact peers string. -/
theorem parseTrackerResponse_compact_eq (d1 : bencode.Dict) (s : List Nat)
    (hf : ∀ r, bencode.Dict.get d1 (bencode.str "failure reason") ≠ some (.string r))
    (hp : bencode.Dict.get d1 (bencode.str "peers") = some (.string s)) :
    parseTrackerResponse d1 =
      if s.length % 6 ≠ 0 then .error .peersNotDivisibleBy6
      else .ok ((List.range (s.length / 6)).map fun j =>
        decimal (s.getD (6 * j) 0) ++ bencode.str "." ++ decimal (s.getD (6 * j + 1) 0)
        ++ bencode.str "." ++ decimal (s.getD (6 * j + 2) 0) ++ bencode.str "."
        ++ decimal (s.getD (6 * j + 3) 0) ++ bencode.str ":"
        ++ decimal (Uint16 (s.getD (6 * j + 4) 0) (s.getD (6 * j + 5) 0))) := by
  unfold parseTrackerResponse
  split
  · rename_i r hr
    exact absurd hr (hf r)
  · simp only [hp]
    split_ifs with h6
    · rfl
    · have hn : (s.length + 5) / 6 = s.length / 6 := by omega
      have hl := compactPeers_loop s (s.length / 6) (by omega)
      simp only [compactPeers, hn, hl]

/-- C15: for every tracker response dict without a string `failure reason`
whose `peers` entry is a byte string `s`: if `len(s)` is a multiple of 6,
`parseTrackerResponse` returns exactly `len(s) / 6` addresses, the `j`-th being
the decimal texts of the bytes `s[6j] .. s[6j+3]` joined by dots, a colon and
the decimal text of the big-endian 16-bit value of `s[6j+4], s[6j+5]`; if
`len(s)` is not a multiple of 6 it returns an error. The six bytes
`01 02 03 04 1a e1` give `["1.2.3.4:6881"]`. -/
theorem parseTrackerResponse_compact (d1 : bencode.Dict) (s : List Nat)
    (hf : ∀ r, bencode.Dict.get d1 (bencode.str "failure reason") ≠ some (.string r))
    (hp : bencode.Dict.get d1 (bencode.str "peers") = some (.string s)) :
    (s.length % 6 = 0 →
      ∃ peers, parseTrackerResponse d1 = .ok peers ∧ peers.length = s.length / 6 ∧
        ∀ j, j < s.length / 6 →
          peers[j]? = some (decimal (s.getD (6 * j) 0) ++ bencode.str "."
            ++ decimal (s.getD (6 * j + 1) 0) ++ bencode.str "."
            ++ decimal (s.getD (6 * j + 2) 0) ++ bencode.str "."
            ++ decimal (s.getD (6 * j + 3) 0) ++ bencode.str ":"
            ++ decimal (Uint16 (s.getD (6 * j + 4) 0) (s.getD (6 * j + 5) 0)))) ∧
    (∀ b0 b1, b1 < 256 → Uint16 b0 b1 = 256 * b0 + b1) ∧
    (s.length % 6 ≠ 0 → parseTrackerResponse d1 = .error .peersNotDivisibleBy6) ∧
    parseTrackerResponse [(bencode.str "peers", .string [0x01, 0x02, 0x03, 0x04, 0x1a, 0xe1])]
      = .ok [bencode.str "1.2.3.4:6881"] := by
  refine ⟨?_, fun b0 b1 h => Uint16_eq b0 b1 h, ?_, by decide⟩
  · intro h6
    refine ⟨(List.range (s.length / 6)).map fun j =>
        decimal (s.getD (6 * j) 0) ++ bencode.str "." ++ decimal (s.getD (6 * j + 1) 0)
        ++ bencode.str "." ++ decimal (s.getD (6 * j + 2) 0) ++ bencode.str "."
        ++ decimal (s.getD (6 * j + 3) 0) ++ bencode.str ":"
        ++ decimal (Uint16 (s.getD (6 * j + 4) 0) (s.getD (6 * j + 5) 0)), ?_, ?_, ?_⟩
    · rw [parseTrackerResponse_compact_eq d1 s hf hp, if_neg (by omega)]
    · simp
    · intro j hj
      rw [List.getElem?_map, List.getElem?_range hj]
      rfl
  · intro h6
    rw [parseTrackerResponse_compact_eq d1 s hf hp, if_pos h6]

/-- Witness of C15 at a response whose peers string holds the two addresses
`1.2.3.4:6881` and `10.0.0.1:80`. -/
theorem parseTrackerResponse_compact_witness :
    ∃ peers,
      parseTrackerResponse
        [(bencode.str "peers", .string [1, 2, 3, 4, 0x1a, 0xe1, 10, 0, 0, 1, 0, 80])] = .ok peers ∧
      peers.length = 2 :=
  let h := (parseTrackerResponse_compact
    [(bencode.str "peers", .string [1, 2, 3, 4, 0x1a, 0xe1, 10, 0, 0, 1, 0, 80])]
    [1, 2, 3, 4, 0x1a, 0xe1, 10, 0, 0, 1, 0, 80] (fun r h => by cases h) (by decide)).1
    (by decide)
  ⟨h.choose, h.choose_spec.1, h.choose_spec.2.1⟩

/-! ## The metainfo -/

theorem filesEntry_totalSize (first : List Nat) (j : Nat) (v : bencode.Value)
    (st st' : filesState) (h : filesEntry first j v st = .ok st') :
    st'.totalSize = bencode.wrapInt64 (st.totalSize + declaredLength v) := by
  unfold filesEntry at h
  split at h
  · rename_i d
    split at h
    · rename_i i hi
      split at h
      · dsimp only at h
        split at h
        · simp at h
        · split at h
          · simp at h
          · simp only [Outcome.ok.injEq] at h
            rw [← h]
            simp only [declaredLength, hi]
          · simp at h
      · simp at h
    · simp at h
  · simp at h

theorem filesLoop_totalSize (first : List Nat) (l1 : List bencode.Value) (j : Nat)
    (st st' : filesState) (h : filesLoop first l1 j st = .ok st') :
    st'.totalSize = declaredTotal l1 st.totalSize := by
  induction l1 generalizing j st with
  | nil =>
    simp only [filesLoop, Outcome.ok.injEq] at h
    rw [← h]
    rfl
  | cons v rest ih =>
    unfold filesLoop at h
    split at h
    · rename_i st1 h1
      rw [ih _ _ h, filesEntry_totalSize first j v st st1 h1]
      rfl
    · simp at h
    · simp at h

theorem splitHashes_join_take (s : List Nat) (n : Nat) (hn : n * 20 ≤ s.length) :
    ((List.range n).map fun i => (s.take (i * 20 + 20)).drop (i * 20)).flatten
      = s.take (n * 20) := by
  induction n with
  | zero => simp
  | succ n ih =>
    rw [List.range_succ, List.map_append, List.flatten_append, ih (by omega)]
    simp only [List.map_cons, List.map_nil, List.flatten_cons, List.flatten_nil, List.append_nil]
    have e : (n + 1) * 20 = n * 20 + 20 := by omega
    rw [e]
    have h1 : List.take (n * 20) s = List.take (n * 20) (List.take (n * 20 + 20) s) := by
      rw [List.take_take]
      congr 1
      omega
    rw [h1, List.take_append_drop]

theorem splitHashes_join (s : List Nat) (h : s.length % 20 = 0) :
    (splitHashes s).flatten = s := by
  unfold splitHashes
  rw [splitHashes_join_take s (s.length / 20) (by omega)]
  exact List.take_of_length_le (by omega)

theorem splitHashes_length (s : List Nat) : (splitHashes s).length = s.length / 20 := by
  simp [splitHashes]

theorem splitHashes_mem_length (s : List Nat) (x : List Nat) (hx : x ∈ splitHashes s) :
    x.length = 20 := by
  simp only [splitHashes, List.mem_map, List.mem_range] at hx
  obtain ⟨i, hi, rfl⟩ := hx
  rw [List.length_drop, List.length_take]
  have : i * 20 + 20 ≤ s.length := by
    have := Nat.div_mul_le_self s.length 20
    have : (i + 1) * 20 ≤ s.length / 20 * 20 := Nat.mul_le_mul_right 20 hi
    omega
  omega

/-- What `parseMetainfo` has checked when it returns a metainfo. -/
theorem parseMetainfo_ok (v : bencode.Dict) (m : metainfo) (h : parseMetainfo v = .ok m) :
    ∃ info s i,
      bencode.Dict.get v (bencode.str "info") = some (.dict info) ∧
      bencode.Dict.get info (bencode.str "pieces") = some (.string s) ∧
      s.length % 20 = 0 ∧
      bencode.Dict.get info (bencode.str "piece length") = some (.int i) ∧
      i = i % 4294967296 ∧
      m.pieceLength = (i % 4294967296).toNat ∧
      m.pieceHashes = splitHashes s ∧
      ((∃ n name, bencode.Dict.get info (bencode.str "length") = some (.int n) ∧
          bencode.Dict.get info (bencode.str "name") = some (.string name) ∧
          m.totalSize = n ∧ m.files = [{ isdir := false, size := n, path := name }]) ∨
       (∃ l1, bencode.Dict.get info (bencode.str "files") = some (.list l1) ∧
          m.totalSize = declaredTotal l1 0)) := by
  unfold parseMetainfo at h
  split at h
  · rename_i info hinfo
    split at h
    · rename_i s hs
      split at h
      · simp at h
      · rename_i h20
        split at h
        · rename_i i hi
          split at h
          · simp at h
          · rename_i hfit
            refine ⟨info, s, i, hinfo, hs, by omega, hi, by simpa using hfit, ?_⟩
            dsimp only at h
            split at h
            · simp at h
            · simp at h
            · rename_i n hsingle hmulti
              split at h
              · rename_i name hname
                simp only [Outcome.ok.injEq] at h
                subst h
                refine ⟨rfl, rfl, Or.inl ⟨n, name, ?_, hname, rfl, rfl⟩⟩
                split at hsingle
                · rename_i n' hn'
                  simp only [Option.some.injEq] at hsingle
                  rw [hn', hsingle]
                · simp at hsingle
              · simp at h
            · rename_i l1 hsingle hmulti
              split at h
              · rename_i name hname
                split at h
                · rename_i st hst
                  simp only [Outcome.ok.injEq] at h
                  subst h
                  refine ⟨rfl, rfl, Or.inr ⟨l1, ?_, ?_⟩⟩
                  · split at hmulti
                    · rename_i l1' hl1'
                      simp only [Option.some.injEq] at hmulti
                      rw [hl1', hmulti]
                    · simp at hmulti
                  · exact filesLoop_totalSize _ _ _ _ _ hst
                · simp at h
                · simp at h
              · simp at h
        · simp at h
    · simp at h
  · simp at h

theorem truncateTo_length (c : List Nat) (size : Nat) : (truncateTo c size).length = size := by
  unfold truncateTo
  rw [List.length_take, List.length_append, List.length_replicate]
  omega

/-- With a buffer of length 0 every `Read` returns 0 bytes, which is not less
than `len(p) = 0`: the loop of `build` compares hash after hash and runs out
of the range of `hashes`. -/
theorem readLoop_zero_length (sha1 : List Nat → List Nat) (hashes : List (List Nat))
    (c : List Nat) : ∀ (fuel off i : Nat) (ps : List Bool), hashes.length - i < fuel →
    readLoop sha1 hashes c fuel off { buf := [], filled := 0, i := i, piecesSet := ps }
      = .panic := by
  intro fuel
  induction fuel with
  | zero => intro off i ps h; omega
  | succ fuel ih =>
    intro off i ps h
    unfold readLoop
    have hbuf : copyInto ([] : List Nat) 0 (0 + min (0 - 0) (c.length - off))
        ((c.drop off).take (min (0 - 0) (c.length - off))) = [] := by
      simp [copyInto]
    dsimp only [List.length_nil]
    rw [hbuf, if_neg (by simp)]
    cases hh : hashes[i]? with
    | none => rfl
    | some h0 =>
      dsimp only
      have hi : i < hashes.length := by
        by_contra hc
        rw [List.getElem?_eq_none (by omega)] at hh
        cases hh
      exact ih _ (i + 1) _ (by omega)

/-- The method `build` with piece length 0 on a file list that starts with a
file: index out of range at `hashes[i]`, whatever the file holds. -/
theorem build_zero_length (sha1 : List Nat → List Nat) (f : fileList) (c : List Nat)
    (rest : Disk) (hashes : List (List Nat)) (hd : f.isdir = false) (hs : 0 ≤ f.size) :
    build sha1 ((f, c) :: rest) 0 hashes = .panic := by
  unfold build scanFiles
  dsimp only
  rw [hd, if_neg (by simp), if_neg (not_lt.mpr hs)]
  have h := readLoop_zero_length sha1 hashes (truncateTo c f.size.toNat)
    ((truncateTo c f.size.toNat).length + hashes.length + 2) 0 0
    (List.replicate hashes.length false) (by omega)
  rw [List.replicate_zero, h]

/-- The method `build` without a piece hash on a file list that starts with a
file of at least one piece: index out of range at `hashes[i]` when the buffer
is full for the first time, whatever the file holds. -/
theorem build_no_hashes (sha1 : List Nat → List Nat) (f : fileList) (c : List Nat)
    (rest : Disk) (L : Nat) (hd : f.isdir = false) (hL : 0 < L) (hs : (L : Int) ≤ f.size) :
    build sha1 ((f, c) :: rest) L [] = .panic := by
  unfold build scanFiles
  dsimp only
  rw [hd, if_neg (by simp), if_neg (by omega)]
  have hlen := truncateTo_length c f.size.toNat
  rw [hlen]
  unfold readLoop
  dsimp only [List.length_nil, Nat.add_zero, Nat.zero_add]
  rw [hlen, List.length_replicate, if_neg (by omega)]
  rfl

/-- C16 (the code at the failing input): the metainfo with `length` 5,
`name` "a", `piece length` 0 and an empty `pieces` string is accepted, with
`pieceLength = 0`. On its file list `build` with this piece length fails with
an index out of range at `hashes[i]`, whatever the file holds and whatever the
hashes are, and the length of the last piece is an integer division by
zero. -/
theorem parseMetainfo_zero_pieceLength_crashes :
    parseMetainfo
        [(bencode.str "info", .dict
          [(bencode.str "length", .int 5), (bencode.str "name", .string (bencode.str "a")),
           (bencode.str "piece length", .int 0), (bencode.str "pieces", .string [])])]
      = .ok { pieceHashes := [], pieceLength := 0, totalSize := 5,
              files := [{ isdir := false, path := bencode.str "a", size := 5 }] } ∧
    (∀ (sha1 : List Nat → List Nat) (c : List Nat) (hashes : List (List Nat)),
      build sha1 [({ isdir := false, path := bencode.str "a", size := 5 }, c)] 0 hashes
        = .panic) ∧
    (∀ (totalSize : Int) (n : Nat), fetchLength 0 totalSize (n + 1) n = none) := by
  refine ⟨by decide, ?_, ?_⟩
  · intro sha1 c hashes
    exact build_zero_length sha1 _ c [] hashes rfl (by decide)
  · intro totalSize n
    unfold fetchLength
    rw [if_pos (by push_cast; omega), if_pos rfl]

/-- The test of the piece length in `parseMetainfo`: every metainfo it accepts
has a piece length that fits in 32 bits, `0 <= pieceLength <= 2^32 - 1`, equal
to the `piece length` integer of the info dictionary; a `piece length` that is
negative or `2^32` or more is rejected with an error. -/
theorem parseMetainfo_pieceLength (v : bencode.Dict) :
    (∀ m, parseMetainfo v = .ok m →
      m.pieceLength ≤ 2 ^ 32 - 1 ∧
      ∃ info, bencode.Dict.get v (bencode.str "info") = some (.dict info) ∧
        bencode.Dict.get info (bencode.str "piece length")
          = some (.int (m.pieceLength : Int))) ∧
    (∀ info i, bencode.Dict.get v (bencode.str "info") = some (.dict info) →
      bencode.Dict.get info (bencode.str "piece length") = some (.int i) →
      (i < 0 ∨ 2 ^ 32 ≤ i) → (parseMetainfo v).isError = true) := by
  constructor
  · intro m h
    obtain ⟨info, s, i, hinfo, -, -, hi, hfit, hpl, -, -⟩ := parseMetainfo_ok v m h
    have h0 : 0 ≤ i % 4294967296 := Int.emod_nonneg _ (by norm_num)
    have h1 : i % 4294967296 < 4294967296 := Int.emod_lt_of_pos _ (by norm_num)
    refine ⟨?_, info, hinfo, ?_⟩
    · rw [hpl]
      norm_num
      omega
    · rw [hi, hpl, Int.toNat_of_nonneg h0, ← hfit]
  · intro info i hinfo hi hbad
    have h0 : 0 ≤ i % 4294967296 := Int.emod_nonneg _ (by norm_num)
    have h1 : i % 4294967296 < 4294967296 := Int.emod_lt_of_pos _ (by norm_num)
    have hne : i ≠ i % 4294967296 := by
      norm_num at hbad
      omega
    unfold parseMetainfo
    rw [hinfo]
    dsimp only
    split
    · split
      · rfl
      · rw [hi]
        dsimp only
        rw [if_pos hne]
        rfl
    · rfl

/-- An instance of `parseMetainfo_pieceLength`: a metainfo with `piece length`
16384 is accepted with that piece length, one with `piece length` -1 is
rejected. -/
theorem parseMetainfo_pieceLength_witness :
    (∃ m, parseMetainfo
        [(bencode.str "info", .dict
          [(bencode.str "length", .int 5), (bencode.str "name", .string (bencode.str "a")),
           (bencode.str "piece length", .int 16384), (bencode.str "pieces", .string [])])]
        = .ok m ∧ m.pieceLength ≤ 2 ^ 32 - 1) ∧
    (parseMetainfo
        [(bencode.str "info", .dict
          [(bencode.str "length", .int 5), (bencode.str "name", .string (bencode.str "a")),
           (bencode.str "piece length", .int (-1)), (bencode.str "pieces", .string [])])]
      ).isError = true :=
  ⟨⟨{ pieceHashes := [], pieceLength := 16384, totalSize := 5,
       files := [{ isdir := false, path := bencode.str "a", size := 5 }] },
     by decide,
     ((parseMetainfo_pieceLength
        [(bencode.str "info", .dict
          [(bencode.str "length", .int 5), (bencode.str "name", .string (bencode.str "a")),
           (bencode.str "piece length", .int 16384), (bencode.str "pieces", .string [])])]).1
        { pieceHashes := [], pieceLength := 16384, totalSize := 5,
          files := [{ isdir := false, path := bencode.str "a", size := 5 }] }
        (by decide)).1⟩,
   (parseMetainfo_pieceLength
      [(bencode.str "info", .dict
        [(bencode.str "length", .int 5), (bencode.str "name", .string (bencode.str "a")),
         (bencode.str "piece length", .int (-1)), (bencode.str "pieces", .string [])])]).2
      [(bencode.str "length", .int 5), (bencode.str "name", .string (bencode.str "a")),
       (bencode.str "piece length", .int (-1)), (bencode.str "pieces", .string [])]
      (-1) (by decide) (by decide) (Or.inl (by decide))⟩

/-- C17 (the code at the failing input): the single-file metainfo with
`length` 5, `piece length` 1 and an empty `pieces` string is accepted although
it has no piece hash where `ceil(5 / 1) = 5` are needed. On its file list
`build` with this piece length and these hashes fails with an index out of
range at `hashes[i]` when it compares the first piece, whatever the file
holds. -/
theorem parseMetainfo_missing_hashes_crashes :
    ∃ m, parseMetainfo
        [(bencode.str "info", .dict
          [(bencode.str "length", .int 5), (bencode.str "name", .string (bencode.str "a")),
           (bencode.str "piece length", .int 1), (bencode.str "pieces", .string [])])]
        = .ok m ∧
      m.totalSize = 5 ∧ m.pieceLength = 1 ∧ m.pieceHashes.length = 0 ∧
      (m.pieceHashes.length : Int) ≠ (m.totalSize + m.pieceLength - 1) / m.pieceLength ∧
      m.files = [{ isdir := false, path := bencode.str "a", size := 5 }] ∧
      ∀ (sha1 : List Nat → List Nat) (c : List Nat),
        build sha1 [({ isdir := false, path := bencode.str "a", size := 5 }, c)]
          m.pieceLength m.pieceHashes = .panic :=
  ⟨{ pieceHashes := [], pieceLength := 1, totalSize := 5,
     files := [{ isdir := false, path := bencode.str "a", size := 5 }] },
   by decide, by decide, by decide, by decide, by decide, rfl,
   fun sha1 c => build_no_hashes sha1 _ c [] 1 rfl (by decide) (by decide)⟩

/-- The piece hashes and the total size of `parseMetainfo`: every metainfo it
accepts has as `pieceHashes` the 20-byte groups of the `pieces` string, whose length is a
multiple of 20, and as `totalSize` the declared `length` (single file) or the
64-bit sum of the lengths that the `files` entries declare; a `pieces` string
whose length is not a multiple of 20 is rejected. The number of hashes is not
compared with `totalSize` and `pieceLength`. -/
theorem parseMetainfo_hashes_and_total (v : bencode.Dict) :
    (∀ m, parseMetainfo v = .ok m →
      ∃ info s, bencode.Dict.get v (bencode.str "info") = some (.dict info) ∧
        bencode.Dict.get info (bencode.str "pieces") = some (.string s) ∧
        s.length % 20 = 0 ∧
        m.pieceHashes.length = s.length / 20 ∧
        (∀ x ∈ m.pieceHashes, x.length = 20) ∧
        m.pieceHashes.flatten = s ∧
        ((∃ n, bencode.Dict.get info (bencode.str "length") = some (.int n) ∧
            m.totalSize = n) ∨
         (∃ l1, bencode.Dict.get info (bencode.str "files") = some (.list l1) ∧
            m.totalSize = declaredTotal l1 0))) ∧
    (∀ info s, bencode.Dict.get v (bencode.str "info") = some (.dict info) →
      bencode.Dict.get info (bencode.str "pieces") = some (.string s) →
      s.length % 20 ≠ 0 → parseMetainfo v = .error .piecesNotMultipleOf20) := by
  constructor
  · intro m h
    obtain ⟨info, s, i, hinfo, hs, h20, -, -, -, hph, htot⟩ := parseMetainfo_ok v m h
    refine ⟨info, s, hinfo, hs, h20, ?_, ?_, ?_, ?_⟩
    · rw [hph, splitHashes_length]
    · intro x hx
      rw [hph] at hx
      exact splitHashes_mem_length s x hx
    · rw [hph, splitHashes_join s h20]
    · rcases htot with ⟨n, name, hn, -, ht, -⟩ | ⟨l1, hl, ht⟩
      · exact Or.inl ⟨n, hn, ht⟩
      · exact Or.inr ⟨l1, hl, ht⟩
  · intro info s hinfo hs h20
    unfold parseMetainfo
    rw [hinfo]
    dsimp only
    rw [hs]
    dsimp only
    rw [if_pos h20]

/-- An instance of `parseMetainfo_hashes_and_total`: a two-file metainfo with
lengths 5 and 7 and one piece hash is accepted with `totalSize = 12`. -/
theorem parseMetainfo_hashes_and_total_witness :
    ∃ info s, bencode.Dict.get
        [(bencode.str "info", bencode.Value.dict
          [(bencode.str "files", .list
            [.dict [(bencode.str "length", .int 5),
                    (bencode.str "path", .list [.string (bencode.str "x")])],
             .dict [(bencode.str "length", .int 7),
                    (bencode.str "path", .list [.string (bencode.str "y")])]]),
           (bencode.str "name", .string (bencode.str "a")),
           (bencode.str "piece length", .int 16384),
           (bencode.str "pieces", .string (List.replicate 20 97))])]
        (bencode.str "info") = some (.dict info) ∧
      bencode.Dict.get info (bencode.str "pieces") = some (.string s) ∧
      s.length % 20 = 0 :=
  let h := (parseMetainfo_hashes_and_total
    [(bencode.str "info", bencode.Value.dict
      [(bencode.str "files", .list
        [.dict [(bencode.str "length", .int 5),
                (bencode.str "path", .list [.string (bencode.str "x")])],
         .dict [(bencode.str "length", .int 7),
                (bencode.str "path", .list [.string (bencode.str "y")])]]),
       (bencode.str "name", .string (bencode.str "a")),
       (bencode.str "piece length", .int 16384),
       (bencode.str "pieces", .string (List.replicate 20 97))])]).1
    { pieceHashes := [List.replicate 20 97], pieceLength := 16384, totalSize := 12,
      files := [{ isdir := true, path := bencode.str "./a", size := 0 },
                { isdir := false, path := bencode.str "./a/x", size := 5 },
                { isdir := false, path := bencode.str "./a/y", size := 7 }] }
    (by decide)
  ⟨h.choose, h.choose_spec.choose, h.choose_spec.choose_spec.1,
    h.choose_spec.choose_spec.2.1, h.choose_spec.choose_spec.2.2.1⟩

/-! ## The length of the last piece -/

/-- For a total size below `2^32` the conversion `uint32(m.totalSize)` keeps
the value and the last piece gets `totalSize mod pieceLength`, or
`pieceLength` when that is zero. -/
theorem fetchLength_small (pieceLength : Nat) (totalSize : Int) (nPieces p : Nat)
    (hL : 0 < pieceLength) (h0 : 0 ≤ totalSize) (h32 : totalSize < 4294967296) :
    fetchLength pieceLength totalSize nPieces p =
      if (p : Int) = (nPieces : Int) - 1 then
        if totalSize.toNat % pieceLength ≠ 0 then some (totalSize.toNat % pieceLength)
        else some pieceLength
      else some pieceLength := by
  unfold fetchLength
  have e : totalSize % 4294967296 = totalSize := Int.emod_eq_of_lt h0 h32
  have hne : pieceLength ≠ 0 := by omega
  simp only [e, hne, if_false]

/-- C20 (the code at the failing inputs): with `totalSize = 2^32`,
`pieceLength = 786432` and `N = ceil(2^32 / 786432) = 5462` pieces, the length
passed for the last piece `N - 1` is 786432, while `totalSize mod pieceLength`
is 262144; likewise with `pieceLength = 3` and `N = 1431655766` the last piece
gets 3 while `totalSize mod pieceLength` is 1. The other pieces get
`pieceLength`. -/
theorem fetchLength_truncates_totalSize :
    fetchLength 786432 4294967296 5462 5461 = some 786432 ∧
    (4294967296 : Int) % 786432 = 262144 ∧
    (4294967296 + 786432 - 1) / 786432 = 5462 ∧
    fetchLength 786432 4294967296 5462 0 = some 786432 ∧
    fetchLength 3 4294967296 1431655766 1431655765 = some 3 ∧
    (4294967296 : Int) % 3 = 1 ∧
    (4294967296 + 3 - 1) / 3 = 1431655766 ∧
    fetchLength 3 4294967296 1431655766 0 = some 3 := by
  decide
/-! ## The startup verification -/

theorem copyInto_exact (buf data : List Nat) (k : Nat) :
    copyInto buf k (k + data.length) data = buf.take k ++ data ++ buf.drop (k + data.length) := by
  unfold copyInto
  have e : k + data.length - k = data.length := by omega
  rw [e, List.take_length, Nat.min_self]

theorem drop_append_mid (pre c post : List Nat) (off : Nat) (h : off ≤ c.length) :
    (pre ++ c ++ post).drop (pre.length + off) = c.drop off ++ post := by
  rw [List.append_assoc, List.drop_append, List.drop_append_of_le_length h]

theorem take_drop_mid (pre c post : List Nat) (off n : Nat) (h : off + n ≤ c.length) :
    ((pre ++ c ++ post).drop (pre.length + off)).take n = (c.drop off).take n := by
  rw [drop_append_mid pre c post off (by omega),
    List.take_append_of_le_length (by rw [List.length_drop]; omega)]

theorem take_add_drop (S : List Nat) (a k n : Nat) :
    (S.drop a).take (k + n) = (S.drop a).take k ++ (S.drop (a + k)).take n := by
  rw [List.take_add, List.drop_drop]

/-- The buffer of `build` after a `Read` of `n` bytes at stream position
`i * L + filled`. -/
theorem read_into_buf (S buf data : List Nat) (L i filled n : Nat) (hbl : buf.length = L)
    (hfn : filled + n ≤ L) (hdl : data.length = n)
    (hbt : buf.take filled = (S.drop (i * L)).take filled)
    (hdata : data = (S.drop (i * L + filled)).take n) :
    (copyInto buf filled (filled + n) data).length = L ∧
    (copyInto buf filled (filled + n) data).take (filled + n)
      = (S.drop (i * L)).take (filled + n) := by
  subst hdl
  rw [copyInto_exact]
  constructor
  · rw [List.length_append, List.length_append, List.length_take, List.length_drop, hbl]
    omega
  · rw [List.take_append_of_le_length (by
      rw [List.length_append, List.length_take, hbl]; omega)]
    rw [List.take_of_length_le (by
      rw [List.length_append, List.length_take, hbl]; omega)]
    rw [take_add_drop, hbt, ← hdata]

theorem decide_lt_succ_of_ne (p i : Nat) (h : p ≠ i) :
    decide (p < i + 1) = decide (p < i) := by
  by_cases q : p < i
  · have q2 : p < i + 1 := by omega
    simp [q, q2]
  · have q2 : ¬ p < i + 1 := by omega
    simp [q, q2]

/-- The pieces-set of `build` after the comparison of chunk `i`. -/
theorem set_get_step (sha1 : List Nat → List Nat) (hashes : List (List Nat)) (S : List Nat)
    (L i : Nat) (ps : List Bool) (B : List Nat) (hi : i < hashes.length)
    (hB : B = chunk S L i) (hsl : ps.length = hashes.length)
    (hsg : ∀ p, p < hashes.length →
      ps[p]? = some (decide (p < i) && decide (sha1 (chunk S L p) = hashes.getD p []))) :
    (if sha1 B = hashes[i] then ps.set i true else ps).length = hashes.length ∧
    ∀ p, p < hashes.length →
      (if sha1 B = hashes[i] then ps.set i true else ps)[p]?
        = some (decide (p < i + 1) && decide (sha1 (chunk S L p) = hashes.getD p [])) := by
  have hgetD : hashes.getD i [] = hashes[i] := List.getD_eq_getElem _ _ hi
  constructor
  · split_ifs
    · rw [List.length_set, hsl]
    · exact hsl
  · intro p hp
    have hold := hsg p hp
    by_cases hpi : p = i
    · rw [hpi] at hold ⊢
      rw [decide_eq_false (Nat.lt_irrefl i), Bool.false_and] at hold
      rw [hgetD, ← hB, decide_eq_true (Nat.lt_succ_self i), Bool.true_and]
      by_cases hsha : sha1 B = hashes[i]
      · rw [if_pos hsha, List.getElem?_set, if_pos rfl, if_pos (by rw [hsl]; exact hi),
          decide_eq_true hsha]
      · rw [if_neg hsha, hold, decide_eq_false hsha]
    · rw [decide_lt_succ_of_ne p i hpi, ← hold]
      split_ifs
      · rw [List.getElem?_set, if_neg (fun e => hpi e.symm)]
      · rfl

/-- One file of `build`: the loop that reads the content `c` keeps the
invariant and stops. -/
theorem readLoop_inv (sha1 : List Nat → List Nat) (hashes : List (List Nat)) (L : Nat)
    (pre c post : List Nat) (hL : 0 < L)
    (hN : hashes.length = ((pre ++ c ++ post).length + L - 1) / L) :
    ∀ (fuel off : Nat) (st : scanState), off ≤ c.length → c.length - off < fuel →
      ScanInv sha1 hashes (pre ++ c ++ post) L st (pre.length + off) →
      ∃ st', readLoop sha1 hashes c fuel off st = .ok st' ∧
        ScanInv sha1 hashes (pre ++ c ++ post) L st' (pre.length + c.length) := by
  intro fuel
  induction fuel with
  | zero => intro off st _ hf; omega
  | succ fuel ih =>
    intro off st hoff hf inv
    obtain ⟨hbl, hfl, hpos, hple, hbt, hsl, hsg⟩ := inv
    unfold readLoop
    dsimp only
    rw [hbl]
    obtain ⟨n, hn⟩ : ∃ n, n = min (L - st.filled) (c.length - off) := ⟨_, rfl⟩
    rw [← hn]
    have hdl : ((c.drop off).take n).length = n := by
      rw [List.length_take, List.length_drop]
      omega
    have hdata : (c.drop off).take n
        = ((pre ++ c ++ post).drop (st.i * L + st.filled)).take n := by
      rw [← hpos, take_drop_mid pre c post off _ (by omega)]
    obtain ⟨hlen, hpre⟩ := read_into_buf (pre ++ c ++ post) st.buf ((c.drop off).take n) L
      st.i st.filled n hbl (by omega) hdl hbt hdata
    obtain ⟨B, hB⟩ : ∃ B, B = copyInto st.buf st.filled (st.filled + n) ((c.drop off).take n) :=
      ⟨_, rfl⟩
    rw [← hB] at hlen hpre ⊢
    have hSl : (pre ++ c ++ post).length = pre.length + c.length + post.length := by
      rw [List.length_append, List.length_append]
    by_cases hshort : n < L - st.filled
    · rw [if_pos hshort]
      refine ⟨_, rfl, ?_⟩
      exact
        { buf_length := hlen
          filled_lt := by dsimp only; omega
          pos_eq := by dsimp only; omega
          pos_le := by omega
          buf_take := hpre
          set_length := hsl
          set_get := hsg }
    · rw [if_neg hshort]
      have hfill : st.filled + n = L := by omega
      have hchunk : B = chunk (pre ++ c ++ post) L st.i := by
        have h := hpre
        rw [hfill, List.take_of_length_le (by omega)] at h
        exact h
      have hmul : (st.i + 1) * L = st.i * L + L := by ring
      have hSlen : (st.i + 1) * L ≤ (pre ++ c ++ post).length := by omega
      have hi : st.i < hashes.length := by
        rw [hN]
        have h1 : st.i + 1 ≤ (pre ++ c ++ post).length / L :=
          (Nat.le_div_iff_mul_le hL).mpr hSlen
        have h2 : (pre ++ c ++ post).length / L ≤ ((pre ++ c ++ post).length + L - 1) / L :=
          Nat.div_le_div_right (by omega)
        omega
      rw [List.getElem?_eq_getElem hi]
      dsimp only
      obtain ⟨hsl', hsg'⟩ := set_get_step sha1 hashes (pre ++ c ++ post) L st.i st.piecesSet B
        hi hchunk hsl hsg
      exact ih (off + n)
        { buf := B, filled := 0, i := st.i + 1
          piecesSet := if sha1 B = hashes[st.i] then st.piecesSet.set st.i true
            else st.piecesSet }
        (by omega) (by omega)
        { buf_length := hlen
          filled_lt := hL
          pos_eq := by dsimp only; omega
          pos_le := by omega
          buf_take := by simp
          set_length := hsl'
          set_get := hsg' }

theorem truncateTo_self (c : List Nat) : truncateTo c c.length = c := by
  unfold truncateTo
  rw [Nat.sub_self, List.replicate_zero, List.append_nil, List.take_length]

/-- The loop of `build` over the files keeps the invariant and stops. -/
theorem scanFiles_inv (sha1 : List Nat → List Nat) (hashes : List (List Nat)) (L : Nat)
    (S : List Nat) (hL : 0 < L) (hN : hashes.length = (S.length + L - 1) / L) :
    ∀ (files : Disk) (pre : List Nat) (st : scanState), S = pre ++ streamOf files →
      (∀ f ∈ files, f.1.isdir = false → f.1.size = (f.2.length : Int)) →
      ScanInv sha1 hashes S L st pre.length →
      ∃ st', scanFiles sha1 hashes files st = .ok st' ∧
        ScanInv sha1 hashes S L st' S.length := by
  intro files
  induction files with
  | nil =>
    intro pre st hS _ inv
    refine ⟨st, rfl, ?_⟩
    have e : S.length = pre.length := by rw [hS]; simp [streamOf]
    rw [e]
    exact inv
  | cons fc rest ih =>
    intro pre st hS hsz inv
    obtain ⟨f, c⟩ := fc
    unfold scanFiles
    by_cases hd : f.isdir = true
    · rw [if_pos hd]
      have hS' : S = pre ++ streamOf rest := by
        rw [hS, streamOf, if_pos hd]
      exact ih pre st hS' (fun g hg => hsz g (List.mem_cons_of_mem _ hg)) inv
    · rw [if_neg hd]
      have hsize : f.size = (c.length : Int) :=
        hsz (f, c) (List.mem_cons_self _ _) (by simpa using hd)
      have hneg : ¬ f.size < 0 := by omega
      rw [if_neg hneg]
      have htn : f.size.toNat = c.length := by omega
      dsimp only
      rw [htn, truncateTo_self]
      have hS' : S = pre ++ c ++ streamOf rest := by
        rw [hS, streamOf, if_neg hd, List.append_assoc]
      subst hS'
      obtain ⟨st1, h1, inv1⟩ := readLoop_inv sha1 hashes L pre c (streamOf rest) hL hN
        (c.length + hashes.length + 2) 0 st (by omega) (by omega) inv
      rw [h1]
      dsimp only
      have e : pre.length + c.length = (pre ++ c).length := by rw [List.length_append]
      rw [e] at inv1
      exact ih (pre ++ c) st1 rfl (fun g hg => hsz g (List.mem_cons_of_mem _ hg)) inv1

/-- The pieces-set that `build` returns. -/
theorem build_eq (sha1 : List Nat → List Nat) (files : Disk) (L : Nat)
    (hashes : List (List Nat)) (hL : 0 < L)
    (hsz : ∀ f ∈ files, f.1.isdir = false → f.1.size = (f.2.length : Int))
    (hN : hashes.length = ((streamOf files).length + L - 1) / L) :
    ∃ ps, build sha1 files L hashes = .ok ps ∧ ps.length = hashes.length ∧
      ∀ p, p < hashes.length →
        ps[p]? = some (decide (sha1 (chunk (streamOf files) L p) = hashes.getD p [])) := by
  have inv0 : ScanInv sha1 hashes (streamOf files) L
      { buf := List.replicate L 0, filled := 0, i := 0,
        piecesSet := List.replicate hashes.length false } ([] : List Nat).length :=
    { buf_length := by simp
      filled_lt := hL
      pos_eq := by simp
      pos_le := by simp
      buf_take := by simp
      set_length := by simp
      set_get := by
        intro p hp
        simp [hp] }
  obtain ⟨st, hst, inv⟩ := scanFiles_inv sha1 hashes L (streamOf files) hL hN files [] _
    rfl hsz inv0
  obtain ⟨hbl, hfl, hpos, hple, hbt, hsl, hsg⟩ := inv
  unfold build
  dsimp only
  rw [hst]
  dsimp only
  have htl : (st.buf.take st.filled).length = st.filled := by
    rw [List.length_take, hbl]
    omega
  rw [htl]
  by_cases hf : st.filled > 0
  · rw [if_pos hf]
    have hdiv : (streamOf files).length / L = st.i := by
      rw [hpos, Nat.mul_comm, Nat.mul_add_div hL, Nat.div_eq_of_lt hfl]
      rfl
    have hNi : hashes.length = st.i + 1 := by
      rw [hN, hpos]
      have e : st.i * L + st.filled + L - 1 = (st.filled - 1) + L * (st.i + 1) := by
        have : L * (st.i + 1) = st.i * L + L := by ring
        omega
      rw [e, Nat.add_mul_div_left _ _ hL, Nat.div_eq_of_lt (by omega)]
      omega
    have hi : st.i < hashes.length := by omega
    have hchunk : st.buf.take st.filled = chunk (streamOf files) L st.i := by
      rw [hbt]
      unfold chunk
      have hrem : ((streamOf files).drop (st.i * L)).length = st.filled := by
        rw [List.length_drop]
        omega
      rw [List.take_of_length_le (by omega), List.take_of_length_le (by omega)]
    rw [List.getElem?_eq_getElem hi]
    dsimp only
    obtain ⟨hsl', hsg'⟩ := set_get_step sha1 hashes (streamOf files) L st.i st.piecesSet
      (st.buf.take st.filled) hi hchunk hsl hsg
    refine ⟨_, rfl, hsl', ?_⟩
    intro p hp
    rw [hsg' p hp, decide_eq_true (show p < st.i + 1 by omega), Bool.true_and]
  · rw [if_neg hf]
    have hf0 : st.filled = 0 := by omega
    have hNi : hashes.length = st.i := by
      rw [hN, hpos, hf0, Nat.add_zero]
      have e : st.i * L + L - 1 = (L - 1) + L * st.i := by
        have : L * st.i = st.i * L := by ring
        omega
      rw [e, Nat.add_mul_div_left _ _ hL, Nat.div_eq_of_lt (by omega)]
      omega
    refine ⟨_, rfl, hsl, ?_⟩
    intro p hp
    rw [hsg p hp, decide_eq_true (show p < st.i by omega), Bool.true_and]

/-- C18: for every file list whose files hold contents of their declared
sizes, every piece length `L > 0` and every hash list of length
`N = ceil(total / L)`, `build` returns a pieces-set of length `N` whose entry
`p` is true if and only if the SHA-1 of the stream bytes in
`[p * L, min((p + 1) * L, total))` equals `hashes[p]`. -/
theorem build_spec (sha1 : List Nat → List Nat) (files : Disk) (L : Nat)
    (hashes : List (List Nat)) (hL : 0 < L)
    (hsz : ∀ f ∈ files, f.1.isdir = false → f.1.size = (f.2.length : Int))
    (hN : hashes.length = ((streamOf files).length + L - 1) / L) :
    ∃ ps, build sha1 files L hashes = .ok ps ∧ ps.length = hashes.length ∧
      ∀ p, p < hashes.length →
        ∃ h, hashes[p]? = some h ∧
          (ps[p]? = some true ↔
            sha1 (((streamOf files).drop (p * L)).take L) = h) := by
  obtain ⟨ps, hb, hl, hg⟩ := build_eq sha1 files L hashes hL hsz hN
  refine ⟨ps, hb, hl, ?_⟩
  intro p hp
  refine ⟨hashes[p], List.getElem?_eq_getElem hp, ?_⟩
  rw [hg p hp, List.getD_eq_getElem _ _ hp]
  simp [chunk]

/-- Witness of C18: two files of 5 and 4 bytes behind a directory, pieces of
4 bytes, and three hashes of which the second is wrong. -/
theorem build_spec_witness :
    ∃ ps, build (fun x => x)
        [({ isdir := true, path := [99], size := 0 }, []),
         ({ isdir := false, path := [97], size := 5 }, [1, 2, 3, 4, 5]),
         ({ isdir := false, path := [98], size := 4 }, [6, 7, 8, 9])]
        4 [[1, 2, 3, 4], [5, 6, 7, 0], [9]] = .ok ps ∧ ps.length = 3 :=
  let h := build_spec (fun x => x)
    [({ isdir := true, path := [99], size := 0 }, []),
     ({ isdir := false, path := [97], size := 5 }, [1, 2, 3, 4, 5]),
     ({ isdir := false, path := [98], size := 4 }, [6, 7, 8, 9])]
    4 [[1, 2, 3, 4], [5, 6, 7, 0], [9]] (by decide) (by decide) (by decide)
  ⟨h.choose, h.choose_spec.1, h.choose_spec.2.1⟩

/-! ## The scatter write -/

theorem streamOf_eq_flat (disk : Disk) (h : DiskOk disk) : streamOf disk = flat disk := by
  induction disk with
  | nil => rfl
  | cons fc rest ih =>
    obtain ⟨f, c⟩ := fc
    have hr : DiskOk rest := fun g hg => h g (List.mem_cons_of_mem _ hg)
    have hfc := h (f, c) (List.mem_cons_self _ _)
    unfold streamOf
    by_cases hd : f.isdir = true
    · rw [if_pos hd, ih hr]
      have : c = [] := hfc.2 hd
      subst this
      simp [flat]
    · rw [if_neg hd, ih hr]
      simp [flat]

theorem flat_cons (fc : fileList × List Nat) (rest : Disk) :
    flat (fc :: rest) = fc.2 ++ flat rest := by
  simp [flat]

theorem flat_append (a b : Disk) : flat (a ++ b) = flat a ++ flat b := by
  simp [flat]

theorem disk_split (disk : Disk) (idx : Nat) (f : fileList) (c : List Nat)
    (h : disk[idx]? = some (f, c)) :
    disk = disk.take idx ++ (f, c) :: disk.drop (idx + 1) := by
  have hlt : idx < disk.length := by
    by_contra hc
    rw [List.getElem?_eq_none (by omega)] at h
    cases h
  have e : disk[idx] = (f, c) := by
    rw [List.getElem?_eq_getElem hlt] at h
    exact Option.some.inj h
  rw [← e, ← List.drop_eq_getElem_cons hlt, List.take_append_drop]

theorem disk_set (disk : Disk) (idx : Nat) (fc : fileList × List Nat)
    (h : idx < disk.length) :
    disk.set idx fc = disk.take idx ++ fc :: disk.drop (idx + 1) := by
  rw [List.set_eq_take_append_cons_drop, if_pos h]

theorem splice_nil (S : List Nat) (k : Nat) : splice S k [] = S := by
  simp [splice]

theorem splice_mid (A c B chunk : List Nat) (off : Nat) (h : off + chunk.length ≤ c.length) :
    A ++ (c.take off ++ chunk ++ c.drop (off + chunk.length)) ++ B
      = splice (A ++ c ++ B) (A.length + off) chunk := by
  unfold splice
  have h1 : (A ++ c ++ B).take (A.length + off) = A ++ c.take off := by
    rw [List.append_assoc, List.take_append, List.take_append_of_le_length (by omega)]
  have h2 : (A ++ c ++ B).drop (A.length + off + chunk.length)
      = c.drop (off + chunk.length) ++ B := by
    rw [List.append_assoc, Nat.add_assoc, List.drop_append,
      List.drop_append_of_le_length (by omega)]
  rw [h1, h2]
  simp only [List.append_assoc]

theorem splice_length (S D : List Nat) (k : Nat) (h : k + D.length ≤ S.length) :
    (splice S k D).length = S.length := by
  unfold splice
  rw [List.length_append, List.length_append, List.length_take, List.length_drop]
  omega

theorem splice_splice (S D : List Nat) (k m : Nat) (h : k + D.length ≤ S.length)
    (hm : m ≤ D.length) :
    splice (splice S k (D.take m)) (k + m) (D.drop m) = splice S k D := by
  have hl1 : (D.take m).length = m := by rw [List.length_take]; omega
  have hl2 : (D.drop m).length = D.length - m := List.length_drop _ _
  unfold splice
  rw [hl1, hl2]
  have h1 : (S.take k ++ D.take m ++ S.drop (k + m)).take (k + m) = S.take k ++ D.take m := by
    rw [List.take_append_of_le_length (by
      rw [List.length_append, List.length_take, hl1]; omega)]
    rw [List.take_of_length_le (by
      rw [List.length_append, List.length_take, hl1]; omega)]
  have h2 : (S.take k ++ D.take m ++ S.drop (k + m)).drop (k + m + (D.length - m))
      = S.drop (k + D.length) := by
    have e : k + m + (D.length - m) = (S.take k ++ D.take m).length + (D.length - m) := by
      rw [List.length_append, List.length_take, hl1]
      omega
    rw [e, List.drop_append, List.drop_drop]
    congr 1
    omega
  rw [h1, h2, List.append_assoc (S.take k), List.take_append_drop]

theorem writeAt_inside (c chunk : List Nat) (off : Nat) (h : off + chunk.length ≤ c.length) :
    writeAt c off chunk = c.take off ++ chunk ++ c.drop (off + chunk.length) := by
  unfold writeAt
  have e : off - c.length = 0 := by omega
  rw [e, List.replicate_zero, List.append_nil]

theorem flat_take_succ (disk : Disk) (idx : Nat) (f : fileList) (c : List Nat)
    (h : disk[idx]? = some (f, c)) :
    flat (disk.take (idx + 1)) = flat (disk.take idx) ++ c := by
  have hlt : idx < disk.length := by
    by_contra hc
    rw [List.getElem?_eq_none (by omega)] at h
    cases h
  have e : disk[idx] = (f, c) := by
    rw [List.getElem?_eq_getElem hlt] at h
    exact Option.some.inj h
  rw [List.take_succ, List.getElem?_eq_getElem hlt, e, flat_append]
  simp [flat]

theorem flat_split (disk : Disk) (idx : Nat) (f : fileList) (c : List Nat)
    (h : disk[idx]? = some (f, c)) :
    flat disk = flat (disk.take idx) ++ c ++ flat (disk.drop (idx + 1)) := by
  have e := disk_split disk idx f c h
  have e2 : flat disk = flat (disk.take idx ++ (f, c) :: disk.drop (idx + 1)) := by rw [← e]
  rw [e2, flat_append, flat_cons, List.append_assoc]

theorem DiskOk_set (disk : Disk) (idx : Nat) (f : fileList) (c c' : List Nat)
    (hok : DiskOk disk) (h : disk[idx]? = some (f, c)) (hl : c'.length = c.length)
    (hd : f.isdir = false) : DiskOk (disk.set idx (f, c')) := by
  intro g hg
  rcases List.mem_or_eq_of_mem_set hg with hm | rfl
  · exact hok g hm
  · have hfc := hok (f, c) (List.getElem?_mem h)
    refine ⟨?_, ?_⟩
    · dsimp only
      rw [hl]
      exact hfc.1
    · intro hdir
      dsimp only at hdir
      rw [hd] at hdir
      cases hdir

theorem take_set_self (l : Disk) (n : Nat) (a : fileList × List Nat) :
    (l.set n a).take n = l.take n :=
  List.ext_getElem? fun i => by
    rw [List.getElem?_take, List.getElem?_take]
    split
    · rw [List.getElem?_set_ne (by omega)]
    · rfl

theorem resolved_cons_file (resolve : List Nat → List Nat) (f : fileList) (c : List Nat)
    (rest : Disk) (h : f.isdir = false) :
    resolved resolve ((f, c) :: rest) = resolve f.path :: resolved resolve rest := by
  simp [resolved, h]

theorem resolved_cons_dir (resolve : List Nat → List Nat) (f : fileList) (c : List Nat)
    (rest : Disk) (h : f.isdir = true) :
    resolved resolve ((f, c) :: rest) = resolved resolve rest := by
  simp [resolved, h]

theorem resolved_tail (resolve : List Nat → List Nat) (g : fileList × List Nat) (rest : Disk)
    (h : (resolved resolve (g :: rest)).Nodup) : (resolved resolve rest).Nodup := by
  obtain ⟨f, c⟩ := g
  cases hd : f.isdir with
  | true =>
    rw [resolved_cons_dir resolve f c rest hd] at h
    exact h
  | false =>
    rw [resolved_cons_file resolve f c rest hd] at h
    exact (List.nodup_cons.mp h).2

theorem mem_resolved (resolve : List Nat → List Nat) : ∀ (disk : Disk) (idx : Nat)
    (f : fileList) (c : List Nat), disk[idx]? = some (f, c) → f.isdir = false →
    resolve f.path ∈ resolved resolve disk := by
  intro disk
  induction disk with
  | nil => intro idx f c h _; simp at h
  | cons g rest ih =>
    intro idx f c h hd
    obtain ⟨g1, g2⟩ := g
    cases idx with
    | zero =>
      rw [List.getElem?_cons_zero] at h
      cases h
      rw [resolved_cons_file resolve f c rest hd]
      exact List.mem_cons_self _ _
    | succ idx =>
      rw [List.getElem?_cons_succ] at h
      have hm := ih idx f c h hd
      cases hg : g1.isdir with
      | true =>
        rw [resolved_cons_dir resolve g1 g2 rest hg]
        exact hm
      | false =>
        rw [resolved_cons_file resolve g1 g2 rest hg]
        exact List.mem_cons_of_mem _ hm

theorem resolved_set (resolve : List Nat → List Nat) : ∀ (disk : Disk) (idx : Nat)
    (f : fileList) (c c' : List Nat), disk[idx]? = some (f, c) →
    resolved resolve (disk.set idx (f, c')) = resolved resolve disk := by
  intro disk
  induction disk with
  | nil => intro idx f c c' h; simp at h
  | cons g rest ih =>
    intro idx f c c' h
    obtain ⟨g1, g2⟩ := g
    cases idx with
    | zero =>
      rw [List.getElem?_cons_zero] at h
      cases h
      rw [List.set_cons_zero]
      simp [resolved]
    | succ idx =>
      rw [List.getElem?_cons_succ] at h
      rw [List.set_cons_succ]
      simp [resolved, ih idx f c c' h]

theorem writeFile_cons (resolve : List Nat → List Nat) (g : fileList × List Nat) (rest : Disk)
    (path c : List Nat) :
    writeFile resolve (g :: rest) path c
      = (if g.1.isdir = false ∧ resolve g.1.path = resolve path then (g.1, c) else g)
        :: writeFile resolve rest path c := rfl

theorem writeFile_of_not_mem (resolve : List Nat → List Nat) : ∀ (disk : Disk)
    (path c : List Nat), resolve path ∉ resolved resolve disk →
    writeFile resolve disk path c = disk := by
  intro disk
  induction disk with
  | nil => intro path c _; rfl
  | cons g rest ih =>
    intro path c h
    obtain ⟨g1, g2⟩ := g
    rw [writeFile_cons]
    cases hg : g1.isdir with
    | true =>
      rw [resolved_cons_dir resolve g1 g2 rest hg] at h
      rw [ih path c h, if_neg (by simp [hg])]
    | false =>
      rw [resolved_cons_file resolve g1 g2 rest hg] at h
      have h1 : resolve g1.path ≠ resolve path := fun e => h (e ▸ List.mem_cons_self _ _)
      have h2 : resolve path ∉ resolved resolve rest := fun e => h (List.mem_cons_of_mem _ e)
      rw [ih path c h2, if_neg (fun e => h1 e.2)]

/-- On a file list whose file nodes name pairwise different files, a write
changes the node it goes through and no other. -/
theorem writeFile_eq_set (resolve : List Nat → List Nat) : ∀ (disk : Disk) (idx : Nat)
    (f : fileList) (c c' : List Nat), (resolved resolve disk).Nodup →
    disk[idx]? = some (f, c) → f.isdir = false →
    writeFile resolve disk f.path c' = disk.set idx (f, c') := by
  intro disk
  induction disk with
  | nil => intro idx f c c' _ h; simp at h
  | cons g rest ih =>
    intro idx f c c' hnd h hd
    obtain ⟨g1, g2⟩ := g
    rw [writeFile_cons]
    cases idx with
    | zero =>
      rw [List.getElem?_cons_zero] at h
      cases h
      rw [resolved_cons_file resolve f c rest hd] at hnd
      rw [List.set_cons_zero, writeFile_of_not_mem resolve rest f.path c'
        (List.nodup_cons.mp hnd).1, if_pos ⟨hd, rfl⟩]
    | succ idx =>
      rw [List.getElem?_cons_succ] at h
      rw [List.set_cons_succ, ih idx f c c' (resolved_tail resolve _ rest hnd) h hd]
      have hm := mem_resolved resolve rest idx f c h hd
      cases hg : g1.isdir with
      | true => rw [if_neg (by simp [hg])]
      | false =>
        rw [resolved_cons_file resolve g1 g2 rest hg] at hnd
        have h1 : resolve g1.path ≠ resolve f.path :=
          fun e => (List.nodup_cons.mp hnd).1 (e ▸ hm)
        rw [if_neg (fun e => h1 e.2)]

/-- The loops of `storePiece` write `data` at stream position `t` and keep
every node's size, on a file list whose file nodes name pairwise different
files. -/
theorem storeLoop_spec (resolve : List Nat → List Nat) : ∀ (fuel : Nat) (disk : Disk)
    (idx b t : Nat) (data : List Nat)
    (f : fileList) (c : List Nat), DiskOk disk → (resolved resolve disk).Nodup →
    disk[idx]? = some (f, c) →
    b = (flat (disk.take idx)).length → b ≤ t → t + data.length ≤ (flat disk).length →
    (flat disk).length < 9223372036854775808 → data.length + (disk.length - idx) < fuel →
    ∃ disk', storeLoop resolve fuel disk idx (b : Int) ((b + c.length : Nat) : Int) (t : Int)
        data = .ok disk' ∧
      DiskOk disk' ∧
      disk'.map Prod.fst = disk.map Prod.fst ∧
      disk'.map (fun g => g.2.length) = disk.map (fun g => g.2.length) ∧
      flat disk' = splice (flat disk) t data := by
  intro fuel
  induction fuel with
  | zero => intro disk idx b t data f c _ _ _ _ _ _ _ hf; omega
  | succ fuel ih =>
    intro disk idx b t data f c hok hnd hnode hb hbt hend htot hfuel
    have hlt : idx < disk.length := by
      by_contra hc
      rw [List.getElem?_eq_none (by omega)] at hnode
      cases hnode
    have hsplit := flat_split disk idx f c hnode
    have hSl : (flat disk).length = b + c.length + (flat (disk.drop (idx + 1))).length := by
      rw [hsplit, List.length_append, List.length_append, ← hb]
    unfold storeLoop
    by_cases hdata : data.length > 0
    · rw [if_pos hdata]
      by_cases hadv : (t : Int) ≥ ((b + c.length : Nat) : Int)
      · rw [if_pos hadv]
        have hrest : 0 < (flat (disk.drop (idx + 1))).length := by omega
        have hlt1 : idx + 1 < disk.length := by
          by_contra hc
          rw [List.drop_eq_nil_of_le (by omega)] at hrest
          simp [flat] at hrest
        obtain ⟨f', c', hnode'⟩ : ∃ f' c', disk[idx + 1]? = some (f', c') :=
          ⟨disk[idx + 1].1, disk[idx + 1].2, List.getElem?_eq_getElem hlt1⟩
        have hsz : f'.size = (c'.length : Int) := (hok (f', c') (List.getElem?_mem hnode')).1
        have hns : nodeSize disk (idx + 1) = some (c'.length : Int) := by
          unfold nodeSize
          rw [if_pos hlt1, hnode']
          simp [hsz]
        rw [hns]
        dsimp only
        have hb' : b + c.length = (flat (disk.take (idx + 1))).length := by
          rw [flat_take_succ disk idx f c hnode, List.length_append, ← hb]
        have hsplit' := flat_split disk (idx + 1) f' c' hnode'
        have hSl' : (flat disk).length
            = b + c.length + c'.length + (flat (disk.drop (idx + 1 + 1))).length := by
          rw [hsplit', List.length_append, List.length_append, ← hb']
        have hw : bencode.wrapInt64 (((b + c.length : Nat) : Int) + (c'.length : Int))
            = ((b + c.length + c'.length : Nat) : Int) := by
          rw [wrapInt64_of_range _ (by omega) (by omega)]
          omega
        rw [hw]
        exact ih disk (idx + 1) (b + c.length) t data f' c' hok hnd hnode' hb' (by omega) hend
          htot (by omega)
      · rw [if_neg hadv]
        dsimp only
        rw [hnode]
        dsimp only
        have hc0 : c ≠ [] := by
          intro h0
          rw [h0] at hadv
          simp at hadv
          omega
        have hfc := hok (f, c) (List.getElem?_mem hnode)
        have hdir : f.isdir = false := by
          by_contra hd
          exact hc0 (hfc.2 (by simpa using hd))
        have hcond : ¬ (f.isdir = true ∨ (t : Int) - (b : Int) < 0) := by
          rw [hdir]
          intro h
          rcases h with h | h
          · cases h
          · omega
        rw [if_neg hcond]
        obtain ⟨m, hm⟩ : ∃ m, m = min data.length (b + c.length - t) := ⟨_, rfl⟩
        have hm1 : 1 ≤ m := by omega
        have hm2 : m ≤ data.length := by omega
        have hm3 : t - b + m ≤ c.length := by omega
        have hm4 : b + (t - b) = t := by omega
        have hmax : min (data.length : Int) (((b + c.length : Nat) : Int) - (t : Int))
            = (m : Int) := by omega
        have hoff : ((t : Int) - (b : Int)).toNat = t - b := by omega
        have hfu : (data.length - m) + (disk.length - idx) < fuel := by omega
        have hend' : t + m + (data.length - m) ≤ (flat disk).length := by omega
        have hbt' : b ≤ t + m := by omega
        have hr1 : (0 : Int) ≤ (t : Int) + (m : Int) := by omega
        have hr2 : (t : Int) + (m : Int) < 9223372036854775808 := by omega
        have hend2 : t + m ≤ (flat disk).length := by omega
        clear hm hfuel hSl hadv hcond hdata
        rw [hmax, hoff, Int.toNat_ofNat,
          writeFile_eq_set resolve disk idx f c (writeAt c (t - b) (data.take m)) hnd hnode hdir]
        have hcl : (data.take m).length = m := by
          rw [List.length_take]
          exact Nat.min_eq_left hm2
        have hw : writeAt c (t - b) (data.take m)
            = c.take (t - b) ++ data.take m ++ c.drop (t - b + (data.take m).length) :=
          writeAt_inside c (data.take m) (t - b) (by rw [hcl]; exact hm3)
        have hcl' : (writeAt c (t - b) (data.take m)).length = c.length := by
          rw [hw, List.length_append, List.length_append, List.length_take, List.length_drop,
            hcl]
          clear * - hm3
          omega
        have hset := disk_set disk idx (f, writeAt c (t - b) (data.take m)) hlt
        have hnode2 : (disk.set idx (f, writeAt c (t - b) (data.take m)))[idx]?
            = some (f, writeAt c (t - b) (data.take m)) := by
          rw [List.getElem?_set, if_pos rfl, if_pos hlt]
        have htake : (disk.set idx (f, writeAt c (t - b) (data.take m))).take idx
            = disk.take idx := take_set_self disk idx _
        have hflat : flat (disk.set idx (f, writeAt c (t - b) (data.take m)))
            = splice (flat disk) t (data.take m) := by
          rw [hset, flat_append, flat_cons]
          dsimp only
          rw [hw, hsplit, ← List.append_assoc]
          have h := splice_mid (flat (disk.take idx)) c (flat (disk.drop (idx + 1)))
            (data.take m) (t - b) (by rw [hcl]; exact hm3)
          rw [h, ← hb, hm4]
        have hflen : (flat (disk.set idx (f, writeAt c (t - b) (data.take m)))).length
            = (flat disk).length := by
          rw [hflat, splice_length _ _ _ (by rw [hcl]; exact hend2)]
        have hwrap : bencode.wrapInt64 ((t : Int) + (m : Int)) = ((t + m : Nat) : Int) := by
          rw [wrapInt64_of_range _ hr1 hr2]
          exact (Int.ofNat_add t m).symm
        rw [hwrap]
        have hstop : ((b + c.length : Nat) : Int)
            = ((b + (writeAt c (t - b) (data.take m)).length : Nat) : Int) := by
          rw [hcl']
        rw [hstop]
        have a1 : b = (flat ((disk.set idx (f, writeAt c (t - b) (data.take m))).take idx)).length := by
          rw [htake]
          exact hb
        have a2 : t + m + (data.drop m).length
            ≤ (flat (disk.set idx (f, writeAt c (t - b) (data.take m)))).length := by
          rw [hflen, List.length_drop]
          exact hend'
        have a3 : (flat (disk.set idx (f, writeAt c (t - b) (data.take m)))).length
            < 9223372036854775808 := by
          rw [hflen]
          exact htot
        have a4 : (data.drop m).length
            + ((disk.set idx (f, writeAt c (t - b) (data.take m))).length - idx) < fuel := by
          rw [List.length_set, List.length_drop]
          exact hfu
        obtain ⟨disk', h1, h0, h2, h3, h4⟩ := ih (disk.set idx (f, writeAt c (t - b) (data.take m)))
          idx b (t + m) (data.drop m) f (writeAt c (t - b) (data.take m))
          (DiskOk_set disk idx f c _ hok hnode hcl' hdir)
          (by rw [resolved_set resolve disk idx f c _ hnode]; exact hnd) hnode2 a1 hbt' a2 a3 a4
        refine ⟨disk', h1, h0, ?_, ?_, ?_⟩
        · rw [h2, hset]
          conv_rhs => rw [disk_split disk idx f c hnode]
          simp only [List.map_append, List.map_cons]
        · rw [h3, hset]
          conv_rhs => rw [disk_split disk idx f c hnode]
          simp only [List.map_append, List.map_cons, hcl']
        · rw [h4, hflat]
          exact splice_splice (flat disk) data t m hend hm2
    · rw [if_neg hdata]
      have hnil : data = [] := by
        cases data with
        | nil => rfl
        | cons x xs => simp at hdata
      subst hnil
      exact ⟨disk, rfl, hok, rfl, rfl, (splice_nil _ _).symm⟩

/-- What `storePiece` leaves on disk when the file nodes name pairwise
different files. -/
theorem storePiece_eq (resolve : List Nat → List Nat) (D : List Nat) (p L : Nat) (files : Disk)
    (hok : DiskOk files) (hnd : (resolved resolve files).Nodup)
    (htot : (streamOf files).length < 9223372036854775808)
    (hfit : L * p + D.length ≤ (streamOf files).length) :
    ∃ disk', storePiece resolve D p L files = .ok disk' ∧
      disk'.map Prod.fst = files.map Prod.fst ∧
      disk'.map (fun g => g.2.length) = files.map (fun g => g.2.length) ∧
      streamOf disk' = splice (streamOf files) (L * p) D := by
  rw [streamOf_eq_flat files hok] at htot hfit ⊢
  have hwrap : bencode.wrapInt64 ((L : Int) * (p : Int)) = ((L * p : Nat) : Int) := by
    have h0 : (0 : Int) ≤ (L : Int) * (p : Int) := by positivity
    have h1 : (L : Int) * (p : Int) < 9223372036854775808 := by
      have : ((L * p : Nat) : Int) < 9223372036854775808 := by omega
      rwa [Int.ofNat_mul] at this
    rw [wrapInt64_of_range _ h0 h1]
    exact (Int.ofNat_mul L p).symm
  unfold storePiece
  rw [hwrap]
  cases files with
  | nil =>
    have hD : D = [] := by
      simp [flat] at hfit
      exact hfit.2
    subst hD
    refine ⟨[], ?_, rfl, rfl, ?_⟩
    · simp [nodeSize, storeLoop]
    · simp [streamOf, flat, splice]
  | cons fc rest =>
    obtain ⟨f, c⟩ := fc
    have hsz : f.size = (c.length : Int) := (hok (f, c) (List.mem_cons_self _ _)).1
    have hns : nodeSize ((f, c) :: rest) 0 = some (((0 + c.length : Nat) : Int)) := by
      simp [nodeSize, hsz]
    rw [hns]
    dsimp only
    obtain ⟨disk', h1, h0, h2, h3, h4⟩ := storeLoop_spec resolve
      (D.length + ((f, c) :: rest).length + 2) ((f, c) :: rest) 0 0 (L * p) D f c hok hnd
      (List.getElem?_cons_zero) (by simp [flat]) (Nat.zero_le _) hfit htot (by omega)
    refine ⟨disk', h1, h2, h3, ?_⟩
    rw [streamOf_eq_flat disk' h0, h4]

/-- Two different files of 10000 bytes and pieces of 16384 bytes: piece 0
fills the first file and the first 6384 bytes of the second. -/
theorem storePiece_two_files (resolve : List Nat → List Nat) (f1 f2 : fileList)
    (c1 c2 D : List Nat)
    (hd1 : f1.isdir = false) (hd2 : f2.isdir = false)
    (hne : resolve f1.path ≠ resolve f2.path) (hs1 : f1.size = 10000)
    (hs2 : f2.size = 10000) (hl1 : c1.length = 10000) (hl2 : c2.length = 10000)
    (hD : D.length = 16384) :
    storePiece resolve D 0 16384 [(f1, c1), (f2, c2)]
      = .ok [(f1, D.take 10000), (f2, D.drop 10000 ++ c2.drop 6384)] := by
  have hnd : (resolved resolve [(f1, c1), (f2, c2)]).Nodup := by
    rw [resolved_cons_file resolve f1 c1 _ hd1, resolved_cons_file resolve f2 c2 _ hd2]
    simp [resolved, hne]
  have hok : DiskOk [(f1, c1), (f2, c2)] := by
    intro g hg
    simp only [List.mem_cons, List.mem_singleton, List.not_mem_nil, or_false] at hg
    rcases hg with rfl | rfl
    · exact ⟨by rw [hs1, hl1]; rfl, fun h => by rw [hd1] at h; cases h⟩
    · exact ⟨by rw [hs2, hl2]; rfl, fun h => by rw [hd2] at h; cases h⟩
  have hS : streamOf [(f1, c1), (f2, c2)] = c1 ++ c2 := by
    simp [streamOf, hd1, hd2]
  obtain ⟨disk', h, hf, hl, hs⟩ := storePiece_eq resolve D 0 16384 [(f1, c1), (f2, c2)] hok
    hnd
    (by rw [hS, List.length_append, hl1, hl2]; norm_num)
    (by rw [hS, List.length_append, hl1, hl2, hD]; norm_num)
  rw [h]
  congr 1
  rcases disk' with _ | ⟨⟨g1, x⟩, _ | ⟨⟨g2, y⟩, _ | ⟨z, r⟩⟩⟩
  · simp at hf
  · simp at hf
  · simp only [List.map_cons, List.map_nil, List.cons.injEq, and_true] at hf hl
    obtain ⟨rfl, rfl⟩ := hf
    obtain ⟨hx, hy⟩ := hl
    rw [hl1] at hx
    rw [hl2] at hy
    have hxy : x ++ y = D ++ c2.drop 6384 := by
      have e : streamOf [(g1, x), (g2, y)] = x ++ y := by
        simp [streamOf, hd1, hd2]
      rw [e, hS] at hs
      rw [hs]
      unfold splice
      rw [Nat.mul_zero, List.take_zero, List.nil_append, Nat.zero_add, hD]
      have : (c1 ++ c2).drop 16384 = c2.drop 6384 := by
        rw [List.drop_append_eq_append_drop, hl1, List.drop_eq_nil_of_le (by omega),
          List.nil_append]
      rw [this]
    have hx' : x = D.take 10000 := by
      have h1 : (x ++ y).take 10000 = x := by
        rw [List.take_append_of_le_length (by omega), List.take_of_length_le (by omega)]
      rw [← h1, hxy, List.take_append_of_le_length (by omega)]
    have hy' : y = D.drop 10000 ++ c2.drop 6384 := by
      have h1 : (x ++ y).drop 10000 = y := by
        rw [List.drop_append_of_le_length (by omega), List.drop_eq_nil_of_le (by omega),
          List.nil_append]
      rw [← h1, hxy, List.drop_append_of_le_length (by omega)]
    rw [hx', hy']
  · simp at hf

/-- C19 (as stated, refuted): a write through one of two nodes with the same
path reaches both. `parseMetainfo` accepts a `files` list that names the path
`a` twice, with one byte each; when the file `./t/a` holds `[1]`, piece 0 with
the data `[9]` leaves the stream `[9, 9]`, whatever the resolution of paths
is, where the old stream `[1, 1]` with the bytes in `[0, 1)` replaced is
`[9, 1]`. -/
theorem storePiece_overwrites_alias :
    parseMetainfo
        [(bencode.str "info", .dict
          [(bencode.str "files", .list
            [.dict [(bencode.str "length", .int 1),
                    (bencode.str "path", .list [.string (bencode.str "a")])],
             .dict [(bencode.str "length", .int 1),
                    (bencode.str "path", .list [.string (bencode.str "a")])]]),
           (bencode.str "name", .string (bencode.str "t")),
           (bencode.str "piece length", .int 1),
           (bencode.str "pieces", .string (List.replicate 40 97))])]
      = .ok { pieceHashes := [List.replicate 20 97, List.replicate 20 97], pieceLength := 1,
              totalSize := 2,
              files := [{ isdir := true, path := bencode.str "./t", size := 0 },
                        { isdir := false, path := bencode.str "./t/a", size := 1 },
                        { isdir := false, path := bencode.str "./t/a", size := 1 }] } ∧
      DiskOk [({ isdir := true, path := bencode.str "./t", size := 0 }, []),
              ({ isdir := false, path := bencode.str "./t/a", size := 1 }, [1]),
              ({ isdir := false, path := bencode.str "./t/a", size := 1 }, [1])] ∧
      0 * 1 + [9].length
        ≤ (streamOf [({ isdir := true, path := bencode.str "./t", size := 0 }, []),
                     ({ isdir := false, path := bencode.str "./t/a", size := 1 }, [1]),
                     ({ isdir := false, path := bencode.str "./t/a", size := 1 }, [1])]).length ∧
      (∀ resolve : List Nat → List Nat,
        storePiece resolve [9] 0 1
            [({ isdir := true, path := bencode.str "./t", size := 0 }, []),
             ({ isdir := false, path := bencode.str "./t/a", size := 1 }, [1]),
             ({ isdir := false, path := bencode.str "./t/a", size := 1 }, [1])]
          = .ok [({ isdir := true, path := bencode.str "./t", size := 0 }, []),
                 ({ isdir := false, path := bencode.str "./t/a", size := 1 }, [9]),
                 ({ isdir := false, path := bencode.str "./t/a", size := 1 }, [9])]) ∧
      streamOf [({ isdir := true, path := bencode.str "./t", size := 0 }, []),
                ({ isdir := false, path := bencode.str "./t/a", size := 1 }, [9]),
                ({ isdir := false, path := bencode.str "./t/a", size := 1 }, [9])] = [9, 9] ∧
      (streamOf [({ isdir := true, path := bencode.str "./t", size := 0 }, []),
                 ({ isdir := false, path := bencode.str "./t/a", size := 1 }, [1]),
                 ({ isdir := false, path := bencode.str "./t/a", size := 1 }, [1])]).take (0 * 1)
          ++ [9]
          ++ (streamOf [({ isdir := true, path := bencode.str "./t", size := 0 }, []),
                        ({ isdir := false, path := bencode.str "./t/a", size := 1 }, [1]),
                        ({ isdir := false, path := bencode.str "./t/a", size := 1 }, [1])]).drop
              (0 * 1 + [9].length)
        = [9, 1] := by
  refine ⟨by decide, by simp [DiskOk], by decide, ?_, by decide, by decide⟩
  intro resolve
  simp [storePiece, nodeSize, storeLoop, writeFile, writeAt, bencode.wrapInt64]

/-- C19 (amended): for every file list whose file nodes name pairwise
different files and whose nodes hold contents of their sizes (directories and
zero-size files hold none), piece length `L`, piece index `p` and data `D` with
`p * L + len(D)` at most the total size (below `2^63`), `storePiece` succeeds,
keeps every node and its size, and leaves a stream that is the old one with
exactly the bytes in `[p * L, p * L + len(D))` replaced by `D`. With two
different files of 10000 and 10000 bytes and `L = 16384`, piece 0 fills the
first file and the first 6384 bytes of the second. -/
theorem storePiece_spec (resolve : List Nat → List Nat) (D : List Nat) (p L : Nat)
    (files : Disk) (hok : DiskOk files) (hnd : (resolved resolve files).Nodup)
    (htot : (streamOf files).length < 2 ^ 63)
    (hfit : p * L + D.length ≤ (streamOf files).length) :
    ∃ disk', storePiece resolve D p L files = .ok disk' ∧
      disk'.map Prod.fst = files.map Prod.fst ∧
      disk'.map (fun g => g.2.length) = files.map (fun g => g.2.length) ∧
      streamOf disk'
        = (streamOf files).take (p * L) ++ D ++ (streamOf files).drop (p * L + D.length) ∧
      ∀ (f1 f2 : fileList) (c1 c2 E : List Nat), f1.isdir = false → f2.isdir = false →
        resolve f1.path ≠ resolve f2.path →
        f1.size = 10000 → f2.size = 10000 → c1.length = 10000 → c2.length = 10000 →
        E.length = 16384 →
        storePiece resolve E 0 16384 [(f1, c1), (f2, c2)]
          = .ok [(f1, E.take 10000), (f2, E.drop 10000 ++ c2.drop 6384)] := by
  have h := storePiece_eq resolve D p L files hok hnd (by norm_num at htot; exact htot)
    (by rw [Nat.mul_comm]; exact hfit)
  rw [Nat.mul_comm L p] at h
  obtain ⟨disk', h1, h2, h3, h4⟩ := h
  exact ⟨disk', h1, h2, h3, h4, storePiece_two_files resolve⟩

/-- Witness of C19 (amended): two files of 5 and 4 bytes behind a directory,
`L = 4`, and piece 1 written across the file boundary. -/
theorem storePiece_spec_witness :
    ∃ disk', storePiece id [21, 22, 23, 24] 1 4
        [({ isdir := true, path := [99], size := 0 }, []),
         ({ isdir := false, path := [97], size := 5 }, [1, 2, 3, 4, 5]),
         ({ isdir := false, path := [98], size := 4 }, [6, 7, 8, 9])] = .ok disk' ∧
      streamOf disk' = [1, 2, 3, 4, 21, 22, 23, 24, 9] :=
  let h := storePiece_spec id [21, 22, 23, 24] 1 4
    [({ isdir := true, path := [99], size := 0 }, []),
     ({ isdir := false, path := [97], size := 5 }, [1, 2, 3, 4, 5]),
     ({ isdir := false, path := [98], size := 4 }, [6, 7, 8, 9])]
    (by simp [DiskOk]) (by decide) (by decide) (by decide)
  ⟨h.choose, h.choose_spec.1, h.choose_spec.2.2.2.1.trans (by decide)⟩


/-! ## String lengths beyond the input -/

namespace bencode

/-- C13 (the code at the failing input): in `d1:a9223372036854775807:ae` the
length prefix `9223372036854775807` fits a signed 64-bit integer and declares
more bytes than the two that remain, yet the sum `l.start + int(n)` wraps to a
negative number, the test `l.start + int(n) > len(l.input)` does not fire, and
the slice expression of `emit` panics in the lexer goroutine: neither
`UnmarshalDict` nor `HashInfo` returns an error. A small excess such as
`d1:a5:ae` is reported as an error. -/
theorem lexString_length_overflow_panics :
    UnmarshalDict (str "d1:a9223372036854775807:ae") = .panic ∧
    digestedInfo (str "d1:a9223372036854775807:ae") = .panic ∧
    (∀ sha1, HashInfo sha1 (str "d1:a9223372036854775807:ae") = .panic) ∧
    (lex (str "d1:a9223372036854775807:ae")).2 = .crashed ∧
    UnmarshalDict (str "d1:a5:ae") = .error (.lexer (.lengthBeyondInput 5 6)) := by
  have h : digestedInfo (str "d1:a9223372036854775807:ae") = .panic := by decide
  refine ⟨by decide!, h, fun sha1 => ?_, by decide, by decide!⟩
  unfold HashInfo
  rw [h]

end bencode

/-! ## Decimal texts -/

theorem decimalAux_append (fuel n : Nat) (acc : List Nat) :
    decimalAux fuel n acc = decimalAux fuel n [] ++ acc := by
  induction fuel generalizing n acc with
  | zero => rfl
  | succ f ih =>
    unfold decimalAux
    split
    · rfl
    · rw [ih (n / 10) (_ :: acc), ih (n / 10) [_]]
      simp

theorem decimalAux_succ (fuel n : Nat) :
    decimalAux (fuel + 1) n [] =
      if n / 10 = 0 then [48 + n % 10] else decimalAux fuel (n / 10) [] ++ [48 + n % 10] := by
  conv => lhs; unfold decimalAux
  split
  · rfl
  · rw [decimalAux_append]
    rfl

theorem decimalValue_snoc (xs : List Nat) (c : Nat) :
    bencode.decimalValue (xs ++ [c]) = 10 * bencode.decimalValue xs + (c - 48) := by
  unfold bencode.decimalValue
  rw [List.foldl_append]
  rfl

theorem isDigit_iff (c : Nat) : bencode.isDigit c = true ↔ 48 ≤ c ∧ c ≤ 57 := by
  unfold bencode.isDigit
  rw [decide_eq_true_iff]
  exact Iff.rfl

theorem decimalAux_spec (fuel n : Nat) (h : n < 10 ^ (fuel + 1)) :
    ∃ c rest, decimalAux (fuel + 1) n [] = c :: rest ∧ bencode.isDigit c = true ∧
      rest.all bencode.isDigit = true ∧ bencode.decimalValue (c :: rest) = n ∧
      (c = 48 → rest = [] ∧ n = 0) := by
  induction fuel generalizing n with
  | zero =>
    have h10 : n < 10 := by simpa using h
    rw [decimalAux_succ, if_pos (by omega)]
    refine ⟨48 + n % 10, [], rfl, ?_, rfl, ?_, ?_⟩
    · rw [isDigit_iff]
      omega
    · show 10 * 0 + (48 + n % 10 - 48) = n
      omega
    · intro h0
      exact ⟨rfl, by omega⟩
  | succ f ih =>
    rw [decimalAux_succ]
    by_cases h10 : n / 10 = 0
    · rw [if_pos h10]
      refine ⟨48 + n % 10, [], rfl, ?_, rfl, ?_, ?_⟩
      · rw [isDigit_iff]
        omega
      · show 10 * 0 + (48 + n % 10 - 48) = n
        omega
      · intro h0
        exact ⟨rfl, by omega⟩
    · rw [if_neg h10]
      have hlt : n / 10 < 10 ^ (f + 1) := by
        rw [Nat.div_lt_iff_lt_mul (by norm_num)]
        rw [pow_succ] at h
        exact h
      obtain ⟨c, rest, he, hc, hr, hv, hz⟩ := ih (n / 10) hlt
      rw [he]
      refine ⟨c, rest ++ [48 + n % 10], rfl, hc, ?_, ?_, ?_⟩
      · rw [List.all_append, hr, Bool.true_and]
        simp only [List.all_cons, List.all_nil, Bool.and_true]
        rw [isDigit_iff]
        omega
      · rw [← List.cons_append, decimalValue_snoc, hv]
        omega
      · intro h0
        have := (hz h0).2
        omega

theorem decimal_spec (n : Nat) :
    ∃ c rest, decimal n = c :: rest ∧ bencode.isDigit c = true ∧
      rest.all bencode.isDigit = true ∧ bencode.decimalValue (c :: rest) = n ∧
      (c = 48 → rest = [] ∧ n = 0) :=
  decimalAux_spec n n (lt_of_lt_of_le (Nat.lt_pow_self (by norm_num : 1 < 10) n)
    (Nat.pow_le_pow_right (by norm_num) (Nat.le_succ n)))

theorem decimal_all (n : Nat) : (decimal n).all bencode.isDigit = true := by
  obtain ⟨c, rest, he, hc, hr, -, -⟩ := decimal_spec n
  rw [he, List.all_cons, hc, hr]
  rfl

theorem decimal_value (n : Nat) : bencode.decimalValue (decimal n) = n := by
  obtain ⟨c, rest, he, -, -, hv, -⟩ := decimal_spec n
  rw [he, hv]

theorem decimal_ne_nil (n : Nat) : decimal n ≠ [] := by
  obtain ⟨c, rest, he, -, -, -, -⟩ := decimal_spec n
  rw [he]
  exact List.cons_ne_nil _ _

theorem parseDecimal_decimal (n : Nat) (h : n < 9223372036854775808) :
    bencode.parseDecimal (decimal n) = some n := by
  unfold bencode.parseDecimal
  rw [if_pos ⟨decimal_ne_nil n, decimal_all n, by rw [decimal_value]; exact h⟩, decimal_value]

theorem indexByte_append (a b : List Nat) (c : Nat) (h : c ∉ a) :
    bencode.indexByte (a ++ c :: b) c = some a.length := by
  induction a with
  | nil => simp [bencode.indexByte]
  | cons x a ih =>
    have hx : x ≠ c := fun e => h (by rw [e]; exact List.mem_cons_self _ _)
    have ha : c ∉ a := fun e => h (List.mem_cons_of_mem _ e)
    rw [List.cons_append, bencode.indexByte, if_neg hx, ih ha]
    rfl

theorem not_mem_of_all_isDigit (a : List Nat) (c : Nat) (h : a.all bencode.isDigit = true)
    (hc : bencode.isDigit c = false) : c ∉ a := by
  intro hm
  rw [List.all_eq_true] at h
  rw [h c hm] at hc
  cases hc

/-! ## The rounds of the lexer -/

namespace bencode

theorem drop_eq_cons {inp : List Nat} {k c : Nat} {rest : List Nat}
    (h : inp.drop k = c :: rest) : k < inp.length ∧ inp.getD k 0 = c := by
  have hk : k < inp.length := by
    by_contra hc
    rw [List.drop_eq_nil_of_le (by omega)] at h
    cases h
  refine ⟨hk, ?_⟩
  have h0 : (inp.drop k)[0]? = some c := by rw [h]; exact List.getElem?_cons_zero
  rw [List.getElem?_drop, Nat.add_zero] at h0
  rw [List.getD_eq_getElem?_getD, h0]
  rfl

theorem drop_add_of_drop {inp : List Nat} {k : Nat} {a b : List Nat}
    (h : inp.drop k = a ++ b) : inp.drop (k + a.length) = b := by
  rw [← List.drop_drop, h, List.drop_left]

theorem take_drop_of_drop {inp : List Nat} {k : Nat} {a b : List Nat}
    (h : inp.drop k = a ++ b) : (inp.take (k + a.length)).drop k = a := by
  rw [List.drop_take, h, Nat.add_sub_cancel_left, List.take_left]

theorem iteration_dict (inp : List Nat) (d : Int) (k : Nat) (rest : List Nat)
    (h : inp.drop k = 'd'.toNat :: rest) :
    iteration (lexAt inp d k) =
      ([{ typ := .tokenDict, val := ['d'.toNat], depth := d }],
        .continue (lexAt inp (d + 1) (k + 1))) := by
  obtain ⟨hk, hg⟩ := drop_eq_cons h
  have hv : (inp.take (k + 1)).drop k = ['d'.toNat] :=
    take_drop_of_drop (a := ['d'.toNat]) h
  unfold iteration lexAt
  dsimp only
  rw [if_neg (by omega), hg, if_pos rfl]
  simp only [emit, hv]

theorem iteration_list (inp : List Nat) (d : Int) (k : Nat) (rest : List Nat)
    (h : inp.drop k = 'l'.toNat :: rest) :
    iteration (lexAt inp d k) =
      ([{ typ := .tokenList, val := ['l'.toNat], depth := d }],
        .continue (lexAt inp (d + 1) (k + 1))) := by
  obtain ⟨hk, hg⟩ := drop_eq_cons h
  have hv : (inp.take (k + 1)).drop k = ['l'.toNat] :=
    take_drop_of_drop (a := ['l'.toNat]) h
  unfold iteration lexAt
  dsimp only
  rw [if_neg (by omega), hg, if_neg (by decide), if_pos rfl]
  simp only [emit, hv]

theorem iteration_suffix (inp : List Nat) (d : Int) (k : Nat) (rest : List Nat)
    (hd : 0 ≤ d) (h : inp.drop k = 'e'.toNat :: rest) :
    iteration (lexAt inp (d + 1) k) =
      ([{ typ := .tokenSuffix, val := ['e'.toNat], depth := d }],
        .continue (lexAt inp d (k + 1))) := by
  obtain ⟨hk, hg⟩ := drop_eq_cons h
  have hv : (inp.take (k + 1)).drop k = ['e'.toNat] :=
    take_drop_of_drop (a := ['e'.toNat]) h
  unfold iteration lexAt
  dsimp only
  rw [if_neg (by omega), hg, if_neg (by decide), if_neg (by decide), if_pos rfl,
    Int.add_sub_cancel, if_neg (by omega)]
  simp only [emit, hv]

theorem iteration_eof (inp : List Nat) :
    iteration (lexAt inp 0 inp.length) =
      ([{ typ := .tokenEOF, val := [], depth := 0 }], .stop .returned) := by
  unfold iteration lexAt
  dsimp only
  rw [if_pos (le_refl _), if_neg (by decide)]
  simp [emit]

end bencode

namespace bencode

/-- The round of the lexer at an `i`: the three ways it can go, by the text
`body` up to the first `e`. -/
theorem iteration_int (inp : List Nat) (d : Int) (k : Nat) (body post : List Nat)
    (h : inp.drop k = 'i'.toNat :: body ++ 'e'.toNat :: post) (he : 'e'.toNat ∉ body)
    (hne : body ≠ []) :
    iteration (lexAt inp d k) =
      if body.getD 0 0 = 48 ∧ body.length ≠ 1 then
        ([{ typ := .tokenIntPrefix, val := ['i'.toNat], depth := d },
          { typ := .tokenError, val := [], depth := d, err := some (.leadingZero (k + 1)) }],
         .stop .returned)
      else if body.all isDigit = false then
        ([{ typ := .tokenIntPrefix, val := ['i'.toNat], depth := d },
          { typ := .tokenError, val := [], depth := d, err := some (.notDecimal (k + 1)) }],
         .stop .returned)
      else
        ([{ typ := .tokenIntPrefix, val := ['i'.toNat], depth := d },
          { typ := .tokenInt, val := body, depth := d + 1 }],
         .continue (lexAt inp (d + 1) (k + 1 + body.length))) := by
  have h' : inp.drop k = ['i'.toNat] ++ (body ++ 'e'.toNat :: post) := h
  obtain ⟨hk, hg⟩ := drop_eq_cons h
  have hv : (inp.take (k + 1)).drop k = ['i'.toNat] := take_drop_of_drop h'
  have hd1 : inp.drop (k + 1) = body ++ 'e'.toNat :: post := drop_add_of_drop h'
  have hvb : (inp.take (k + 1 + body.length)).drop (k + 1) = body := take_drop_of_drop hd1
  have hidx : indexByte (inp.drop (k + 1)) 'e'.toNat = some body.length := by
    rw [hd1]
    exact indexByte_append body post _ he
  have hlen : ¬ (inp.drop k).length < 3 := by
    rw [h]
    cases body with
    | nil => exact absurd rfl hne
    | cons c r =>
      simp only [List.length_cons, List.length_append]
      omega
  obtain ⟨c, r, rfl⟩ : ∃ c r, body = c :: r := by
    cases body with
    | nil => exact absurd rfl hne
    | cons c r => exact ⟨c, r, rfl⟩
  have hg1 : inp.getD (k + 1) 0 = c := (drop_eq_cons hd1).2
  unfold iteration lexAt
  dsimp only
  rw [if_neg (by omega), hg, if_neg (by decide), if_neg (by decide), if_neg (by decide),
    if_pos rfl]
  unfold lexInteger
  dsimp only
  rw [if_neg hlen, hidx]
  dsimp only
  rw [hg1, hvb, hd1]
  have c1 : (¬ (str "0e").isPrefixOf (c :: r ++ 'e'.toNat :: post) = true ∧ c = '0'.toNat) ↔
      ((c :: r).getD 0 0 = 48 ∧ (c :: r).length ≠ 1) := by
    cases r with
    | nil =>
      simp [str, List.isPrefixOf]
      intro h1 h2
      exact h1 h2.symm
    | cons c2 r2 =>
      have hc2 : ¬ (101 = c2) := fun e => he (by simp [← e])
      simp [str, List.isPrefixOf, hc2]
  have c2 : (List.dropWhile isDigit (c :: r) ≠ []) ↔ ((c :: r).all isDigit = false) := by
    rw [Ne, List.dropWhile_eq_nil_iff, ← List.all_eq_true, Bool.not_eq_true]
  simp only [c1, c2, emit, emitError, hv, hvb]

end bencode

namespace bencode

theorem isDigit_not_letter (c : Nat) (h : isDigit c = true) :
    c ≠ 'd'.toNat ∧ c ≠ 'l'.toNat ∧ c ≠ 'e'.toNat ∧ c ≠ 'i'.toNat ∧ c ≠ ':'.toNat := by
  rw [isDigit_iff] at h
  have h1 : 'd'.toNat = 100 := rfl
  have h2 : 'l'.toNat = 108 := rfl
  have h3 : 'e'.toNat = 101 := rfl
  have h4 : 'i'.toNat = 105 := rfl
  have h5 : ':'.toNat = 58 := rfl
  omega

theorem encodeString_length (s : List Nat) :
    (encodeString s).length = (decimal s.length).length + 1 + s.length := by
  unfold encodeString
  rw [List.length_append, List.length_cons]
  omega

/-- The round of the lexer at a byte string. -/
theorem iteration_string (inp : List Nat) (d : Int) (k : Nat) (s post : List Nat)
    (hlen : inp.length < 9223372036854775808)
    (h : inp.drop k = encodeString s ++ post) :
    iteration (lexAt inp d k) =
      (stringTokens d s, .continue (lexAt inp d (k + (encodeString s).length))) := by
  obtain ⟨c, rest, hdec, hc, hrest, -, -⟩ := decimal_spec s.length
  have hall := decimal_all s.length
  have h1 : inp.drop k = decimal s.length ++ (':'.toNat :: (s ++ post)) := by
    rw [h, encodeString]
    simp
  have h1c : inp.drop k = c :: (rest ++ (':'.toNat :: (s ++ post))) := by
    rw [h1, hdec]
    rfl
  obtain ⟨hk, hg⟩ := drop_eq_cons h1c
  obtain ⟨n1, n2, n3, n4, -⟩ := isDigit_not_letter c hc
  have hidx : indexByte (inp.drop k) ':'.toNat = some (decimal s.length).length := by
    rw [h1]
    exact indexByte_append _ _ _ (not_mem_of_all_isDigit _ _ hall (by decide))
  have hv1 : (inp.take (k + (decimal s.length).length)).drop k = decimal s.length :=
    take_drop_of_drop h1
  have h2 : inp.drop (k + (decimal s.length).length) = [':'.toNat] ++ (s ++ post) :=
    drop_add_of_drop h1
  have hv2 : (inp.take (k + (decimal s.length).length + 1)).drop (k + (decimal s.length).length)
      = [':'.toNat] := take_drop_of_drop h2
  have h3 : inp.drop (k + (decimal s.length).length + 1) = s ++ post := drop_add_of_drop h2
  have hv3 : (inp.take (k + (decimal s.length).length + 1 + s.length)).drop
      (k + (decimal s.length).length + 1) = s := take_drop_of_drop h3
  have htot : k + (decimal s.length).length + 1 + s.length ≤ inp.length := by
    have e := congrArg List.length h3
    rw [List.length_drop, List.length_append] at e
    have e2 := congrArg List.length h2
    rw [List.length_drop, List.length_append, List.length_append] at e2
    simp only [List.length_cons, List.length_nil] at e2
    omega
  have hs : s.length < 9223372036854775808 := by omega
  have hsum : wrapInt64 (((k + (decimal s.length).length + 1 : Nat) : Int) + (s.length : Int))
      = ((k + (decimal s.length).length + 1 + s.length : Nat) : Int) := by
    rw [wrapInt64_of_range _ (by omega) (by omega)]
    push_cast
    rfl
  unfold iteration lexAt
  dsimp only
  rw [if_neg (by omega), hg, if_neg n1, if_neg n2, if_neg n3, if_neg n4, if_pos hc]
  unfold lexString
  dsimp only
  rw [hidx]
  dsimp only
  rw [hv1, parseDecimal_decimal _ hs]
  dsimp only
  rw [hsum, if_neg (by omega), if_neg (by omega)]
  simp only [emit, hv1, hv2, Int.toNat_ofNat, hv3, stringTokens, encodeString_length]
  simp only [Nat.add_assoc]

end bencode

namespace bencode

theorem rounds_step (n : Nat) (l l1 l2 : lexer) (ts ts1 : List token)
    (h : iteration l = (ts, .continue l1)) (h2 : rounds n l1 = some (ts1, l2)) :
    rounds (n + 1) l = some (ts ++ ts1, l2) := by
  rw [rounds, h]
  dsimp only
  rw [h2]

theorem rounds_trans (a b : Nat) (l l1 l2 : lexer) (t1 t2 : List token)
    (h1 : rounds a l = some (t1, l1)) (h2 : rounds b l1 = some (t2, l2)) :
    rounds (a + b) l = some (t1 ++ t2, l2) := by
  induction a generalizing l t1 with
  | zero =>
    rw [rounds] at h1
    simp only [Option.some.injEq, Prod.mk.injEq] at h1
    obtain ⟨rfl, rfl⟩ := h1
    rw [Nat.zero_add, List.nil_append]
    exact h2
  | succ a ih =>
    rw [rounds] at h1
    rw [Nat.add_right_comm, rounds]
    split at h1
    · rename_i ts l' hi
      split at h1
      · rename_i ts' l'' hr
        simp only [Option.some.injEq, Prod.mk.injEq] at h1
        obtain ⟨rfl, rfl⟩ := h1
        rw [ih l' ts' hr, List.append_assoc]
      · cases h1
    · cases h1

theorem Lexes_one {l l1 : lexer} {ts : List token} (h : iteration l = (ts, .continue l1)) :
    Lexes l ts l1 :=
  ⟨1, by rw [rounds_step 0 l l1 l1 ts [] h rfl, List.append_nil]⟩

theorem Lexes_trans {l l1 l2 : lexer} {t1 t2 : List token} (h1 : Lexes l t1 l1)
    (h2 : Lexes l1 t2 l2) : Lexes l (t1 ++ t2) l2 := by
  obtain ⟨a, ha⟩ := h1
  obtain ⟨b, hb⟩ := h2
  exact ⟨a + b, rounds_trans a b l l1 l2 t1 t2 ha hb⟩

theorem Lexes_nil (l : lexer) : Lexes l [] l := ⟨0, rfl⟩

theorem decimalInt_of_nonneg (i : Int) (h : 0 ≤ i) : decimalInt i = decimal i.toNat := by
  unfold decimalInt
  rw [if_neg (by omega)]
  congr 1
  omega

theorem wellFormed_int (i : Int) (h : wellFormed (.int i) = true) :
    0 ≤ i ∧ i < 9223372036854775808 := by
  rw [wellFormed] at h
  exact of_decide_eq_true h

/-- The rounds of the lexer over the encoding of a non-negative integer. -/
theorem lexes_int (inp : List Nat) (i : Int) (hw : wellFormed (.int i) = true) (d : Int)
    (k : Nat) (post : List Nat) (hd : 0 ≤ d) (h : inp.drop k = encode (.int i) ++ post) :
    Lexes (lexAt inp d k) (tokens d (.int i)) (lexAt inp d (k + (encode (.int i)).length)) := by
  obtain ⟨h0, -⟩ := wellFormed_int i hw
  obtain ⟨c, rest, hdec, hc, hrest, -, hz⟩ := decimal_spec i.toNat
  have hall := decimal_all i.toNat
  have hb : decimalInt i = decimal i.toNat := decimalInt_of_nonneg i h0
  have h1 : inp.drop k = 'i'.toNat :: decimalInt i ++ 'e'.toNat :: post := by
    rw [h, encode]
    simp
  have he : 'e'.toNat ∉ decimalInt i := by
    rw [hb]
    exact not_mem_of_all_isDigit _ _ hall (by decide)
  have hne : decimalInt i ≠ [] := by
    rw [hb]
    exact decimal_ne_nil _
  have hit := iteration_int inp d k (decimalInt i) post h1 he hne
  have hnz : ¬ ((decimalInt i).getD 0 0 = 48 ∧ (decimalInt i).length ≠ 1) := by
    rw [hb, hdec]
    intro hx
    have := (hz hx.1).1
    rw [this] at hx
    exact hx.2 rfl
  rw [if_neg hnz, if_neg (by rw [hb, hall]; decide)] at hit
  have h2 : inp.drop (k + 1 + (decimalInt i).length) = 'e'.toNat :: post := by
    have h1' : inp.drop k = ('i'.toNat :: decimalInt i) ++ ('e'.toNat :: post) := h1
    have := drop_add_of_drop h1'
    rw [List.length_cons] at this
    rw [← this]
    congr 1
    omega
  have hit2 := iteration_suffix inp d (k + 1 + (decimalInt i).length) post hd h2
  have hfin : k + 1 + (decimalInt i).length + 1 = k + (encode (.int i)).length := by
    rw [encode]
    simp only [List.length_cons, List.length_append, List.length_nil]
    omega
  rw [hfin] at hit2
  have := Lexes_trans (Lexes_one hit) (Lexes_one hit2)
  rw [tokens]
  exact this

/-- The rounds of the lexer over the encoding of a byte string. -/
theorem lexes_string (inp : List Nat) (hlen : inp.length < 9223372036854775808)
    (s : List Nat) (d : Int) (k : Nat) (post : List Nat)
    (h : inp.drop k = encodeString s ++ post) :
    Lexes (lexAt inp d k) (stringTokens d s) (lexAt inp d (k + (encodeString s).length)) :=
  Lexes_one (iteration_string inp d k s post hlen h)

end bencode

namespace bencode

mutual
/-- The rounds of the lexer over the encoding of a well-formed value: it sends
the tokens of the value and stands behind the encoding, at the same depth. -/
theorem lexes_value (inp : List Nat) (hlen : inp.length < 9223372036854775808) :
    ∀ (v : Value), wellFormed v = true → ∀ (d : Int) (k : Nat) (post : List Nat), 0 ≤ d →
      inp.drop k = encode v ++ post →
      Lexes (lexAt inp d k) (tokens d v) (lexAt inp d (k + (encode v).length))
  | .int i, hw, d, k, post, hd, h => lexes_int inp i hw d k post hd h
  | .string s, _, d, k, post, _, h => by
    rw [encode] at h ⊢
    rw [tokens]
    exact lexes_string inp hlen s d k post h
  | .list l, hw, d, k, post, hd, h => by
    rw [wellFormed] at hw
    have h1 : inp.drop k = ['l'.toNat] ++ (encodeList l ++ ('e'.toNat :: post)) := by
      rw [h, encode]
      simp
    have hit := iteration_list inp d k _ h1
    have h2 := drop_add_of_drop h1
    have hl := lexes_list inp hlen l hw (d + 1) _ _ (by omega) h2
    have h3 := drop_add_of_drop h2
    have hit2 := iteration_suffix inp d _ post hd h3
    have hfin : k + ['l'.toNat].length + (encodeList l).length + 1 = k + (encode (.list l)).length := by
      rw [encode]
      simp only [List.length_cons, List.length_append, List.length_nil]
      omega
    rw [hfin] at hit2
    have := Lexes_trans (Lexes_one hit) (Lexes_trans hl (Lexes_one hit2))
    rw [tokens]
    simpa using this
  | .dict es, hw, d, k, post, hd, h => by
    rw [wellFormed, Bool.and_eq_true] at hw
    have h1 : inp.drop k = ['d'.toNat] ++ (encodeDict es ++ ('e'.toNat :: post)) := by
      rw [h, encode]
      simp
    have hit := iteration_dict inp d k _ h1
    have h2 := drop_add_of_drop h1
    have hl := lexes_dict inp hlen es hw.1 (d + 1) _ _ (by omega) h2
    have h3 := drop_add_of_drop h2
    have hit2 := iteration_suffix inp d _ post hd h3
    have hfin : k + ['d'.toNat].length + (encodeDict es).length + 1 = k + (encode (.dict es)).length := by
      rw [encode]
      simp only [List.length_cons, List.length_append, List.length_nil]
      omega
    rw [hfin] at hit2
    have := Lexes_trans (Lexes_one hit) (Lexes_trans hl (Lexes_one hit2))
    rw [tokens]
    simpa using this
/-- The rounds of the lexer over the elements of a list. -/
theorem lexes_list (inp : List Nat) (hlen : inp.length < 9223372036854775808) :
    ∀ (l : List Value), wellFormedList l = true → ∀ (d : Int) (k : Nat) (post : List Nat),
      0 ≤ d → inp.drop k = encodeList l ++ post →
      Lexes (lexAt inp d k) (tokensList d l) (lexAt inp d (k + (encodeList l).length))
  | [], _, d, k, _, _, _ => by
    rw [tokensList, encodeList]
    exact Lexes_nil _
  | v :: vs, hw, d, k, post, hd, h => by
    rw [wellFormedList, Bool.and_eq_true] at hw
    have h1 : inp.drop k = encode v ++ (encodeList vs ++ post) := by
      rw [h, encodeList, List.append_assoc]
    have hv := lexes_value inp hlen v hw.1 d k _ hd h1
    have h2 := drop_add_of_drop h1
    have hvs := lexes_list inp hlen vs hw.2 d _ post hd h2
    rw [tokensList, encodeList, List.length_append, ← Nat.add_assoc]
    exact Lexes_trans hv hvs
/-- The rounds of the lexer over the entries of a dictionary. -/
theorem lexes_dict (inp : List Nat) (hlen : inp.length < 9223372036854775808) :
    ∀ (es : List (List Nat × Value)), wellFormedDict es = true →
      ∀ (d : Int) (k : Nat) (post : List Nat),
      0 ≤ d → inp.drop k = encodeDict es ++ post →
      Lexes (lexAt inp d k) (tokensDict d es) (lexAt inp d (k + (encodeDict es).length))
  | [], _, d, k, _, _, _ => by
    rw [tokensDict, encodeDict]
    exact Lexes_nil _
  | (key, v) :: es, hw, d, k, post, hd, h => by
    rw [wellFormedDict, Bool.and_eq_true] at hw
    have h1 : inp.drop k = encodeString key ++ (encode v ++ (encodeDict es ++ post)) := by
      rw [h, encodeDict, List.append_assoc, List.append_assoc]
    have hk := lexes_string inp hlen key d k _ h1
    have h2 := drop_add_of_drop h1
    have hv := lexes_value inp hlen v hw.1 d _ _ hd h2
    have h3 := drop_add_of_drop h2
    have hvs := lexes_dict inp hlen es hw.2 d _ post hd h3
    rw [tokensDict, encodeDict, List.length_append, List.length_append, ← Nat.add_assoc,
      ← Nat.add_assoc, List.append_assoc]
    exact Lexes_trans hk (Lexes_trans hv hvs)
end

end bencode

/-! ## The parser on the tokens of a value -/

namespace bencode

theorem parseString_tokens (d : Int) (s : List Nat) (rest : List token) :
    parseString ({ typ := .tokenSemicolon, val := [':'.toNat], depth := d }
      :: { typ := .tokenString, val := s, depth := d } :: rest) = .ok (s, rest) := by
  simp [parseString, recvExpect, recv, expect]

theorem parseInt64_decimalInt (i : Int) (h0 : 0 ≤ i) (h1 : i < 9223372036854775808) :
    parseInt64 (decimalInt i) = i := by
  obtain ⟨c, rest, hdec, hc, hrest, hv, -⟩ := decimal_spec i.toNat
  have hall := decimal_all i.toNat
  rw [decimalInt_of_nonneg i h0]
  rw [isDigit_iff] at hc
  have hm : (decimal i.toNat).head? ≠ some '-'.toNat := by
    rw [hdec]
    simp
    omega
  have hpl : (decimal i.toNat).head? ≠ some '+'.toNat := by
    rw [hdec]
    simp
    omega
  unfold parseInt64
  simp only [hm, hpl, or_self, if_false, decide_False, Bool.false_eq_true, false_and]
  rw [if_neg (by rw [hall]; simp [decimal_ne_nil]), decimal_value]
  simp
  omega

theorem parseInt_tokens (d : Int) (i : Int) (h0 : 0 ≤ i) (h1 : i < 9223372036854775808)
    (rest : List token) :
    parseInt ({ typ := .tokenInt, val := decimalInt i, depth := d + 1 }
      :: { typ := .tokenSuffix, val := ['e'.toNat], depth := d } :: rest) = .ok (i, rest) := by
  simp [parseInt, recvExpect, recv, expect, parseInt64_decimalInt i h0 h1]

theorem tokens_head (d : Int) (v : Value) :
    ∃ t ts, tokens d v = t :: ts ∧ t.typ ≠ .tokenSuffix := by
  cases v with
  | int i => exact ⟨_, _, by rw [tokens], by simp⟩
  | string s => exact ⟨_, _, by rw [tokens, stringTokens], by simp⟩
  | list l => exact ⟨_, _, by rw [tokens, List.cons_append], by simp⟩
  | dict es => exact ⟨_, _, by rw [tokens, List.cons_append], by simp⟩

theorem Dict_set_append (m : Dict) (key : List Nat) (v : Value)
    (h : key ∉ m.map Prod.fst) : Dict.set m key v = m ++ [(key, v)] := by
  induction m with
  | nil => rfl
  | cons e m ih =>
    obtain ⟨k, w⟩ := e
    have hk : k ≠ key := fun e => h (by simp [e])
    have hm : key ∉ m.map Prod.fst := fun e => h (by simp at e ⊢; exact Or.inr e)
    rw [Dict.set, if_neg hk, ih hm]
    rfl

theorem foldl_set_append (es : List (List Nat × Value)) (m : Dict)
    (h : (m.map Prod.fst ++ es.map Prod.fst).Nodup) :
    es.foldl (fun m e => Dict.set m e.1 e.2) m = m ++ es := by
  induction es generalizing m with
  | nil => simp
  | cons e es ih =>
    have hk : e.1 ∉ m.map Prod.fst := by
      intro hm
      rw [List.nodup_append] at h
      exact h.2.2 hm (by simp)
    rw [List.foldl_cons, Dict_set_append m e.1 e.2 hk, ih]
    · simp
    · simpa using h

end bencode

namespace bencode

theorem tokens_length_pos (d : Int) (v : Value) : 1 ≤ (tokens d v).length := by
  cases v with
  | int i => rw [tokens]; simp
  | string s => rw [tokens, stringTokens]; simp
  | list l =>
    rw [tokens]
    simp only [List.length_cons, List.length_append, List.length_nil]
    omega
  | dict es =>
    rw [tokens]
    simp only [List.length_cons, List.length_append, List.length_nil]
    omega

mutual
/-- The parser on the tokens of a well-formed value returns the value and the
tokens behind it, when `fuel` is at least the number of tokens of the value. -/
theorem parseNext_tokens :
    ∀ (v : Value), wellFormed v = true → ∀ (d : Int) (fuel : Nat) (t : token)
      (ts rest : List token), t :: ts = tokens d v ++ rest → (tokens d v).length ≤ fuel →
      parseNext fuel t ts = .ok (v, rest)
  | .int i, hw, d, fuel, t, ts, rest, h, hf => by
    obtain ⟨h0, h1⟩ := wellFormed_int i hw
    rw [tokens] at h hf
    simp only [List.cons_append, List.nil_append, List.cons.injEq] at h
    obtain ⟨rfl, rfl⟩ := h
    obtain ⟨f, rfl⟩ : ∃ f, fuel = f + 1 := ⟨fuel - 1, by simp at hf; omega⟩
    rw [parseNext, if_pos rfl, parseInt_tokens d i h0 h1]
  | .string s, _, d, fuel, t, ts, rest, h, hf => by
    rw [tokens, stringTokens] at h hf
    simp only [List.cons_append, List.nil_append, List.cons.injEq] at h
    obtain ⟨rfl, rfl⟩ := h
    obtain ⟨f, rfl⟩ : ∃ f, fuel = f + 1 := ⟨fuel - 1, by simp at hf; omega⟩
    rw [parseNext, if_neg (by simp), if_pos rfl, parseString_tokens]
  | .list l, hw, d, fuel, t, ts, rest, h, hf => by
    rw [wellFormed] at hw
    rw [tokens] at h hf
    simp only [List.cons_append, List.append_assoc, List.nil_append, List.cons.injEq] at h
    obtain ⟨rfl, rfl⟩ := h
    obtain ⟨f, rfl⟩ : ∃ f, fuel = f + 1 := ⟨fuel - 1, by simp at hf; omega⟩
    have hl := parseList_tokens l hw (d + 1) f []
      { typ := .tokenSuffix, val := ['e'.toNat], depth := d } rest rfl
      (by simp at hf; omega)
    rw [parseNext, if_neg (by simp), if_neg (by simp), if_neg (by simp), if_pos rfl, hl]
    rfl
  | .dict es, hw, d, fuel, t, ts, rest, h, hf => by
    rw [wellFormed, Bool.and_eq_true] at hw
    rw [tokens] at h hf
    simp only [List.cons_append, List.append_assoc, List.nil_append, List.cons.injEq] at h
    obtain ⟨rfl, rfl⟩ := h
    obtain ⟨f, rfl⟩ : ∃ f, fuel = f + 1 := ⟨fuel - 1, by simp at hf; omega⟩
    have hl := parseDict_tokens es hw.1 (d + 1) f []
      { typ := .tokenSuffix, val := ['e'.toNat], depth := d } rest rfl
      (by simp at hf; omega)
    rw [parseNext, if_neg (by simp), if_neg (by simp), if_pos rfl, hl,
      foldl_set_append es [] (by simpa using of_decide_eq_true hw.2)]
    rfl
/-- The loop of `parseList` over the tokens of the elements of a list. -/
theorem parseList_tokens :
    ∀ (l : List Value), wellFormedList l = true → ∀ (d : Int) (fuel : Nat) (m : List Value)
      (sfx : token) (rest : List token), sfx.typ = .tokenSuffix →
      (tokensList d l).length + 1 ≤ fuel →
      parseList fuel m (tokensList d l ++ sfx :: rest) = .ok (m ++ l, rest)
  | [], _, d, fuel, m, sfx, rest, hs, hf => by
    obtain ⟨f, rfl⟩ : ∃ f, fuel = f + 1 := ⟨fuel - 1, by omega⟩
    rw [tokensList, List.nil_append, parseList, recv]
    dsimp only
    rw [if_pos hs, List.append_nil]
  | v :: vs, hw, d, fuel, m, sfx, rest, hs, hf => by
    rw [wellFormedList, Bool.and_eq_true] at hw
    obtain ⟨t, ts, ht, hne⟩ := tokens_head d v
    have h3 := tokens_length_pos d v
    rw [tokensList, List.length_append] at hf
    obtain ⟨f, rfl⟩ : ∃ f, fuel = f + 1 := ⟨fuel - 1, by omega⟩
    have hv := parseNext_tokens v hw.1 d f t (ts ++ (tokensList d vs ++ sfx :: rest))
      (tokensList d vs ++ sfx :: rest) (by rw [ht]; rfl) (by omega)
    have hvs := parseList_tokens vs hw.2 d f (m ++ [v]) sfx rest hs (by omega)
    rw [tokensList, List.append_assoc, ht, List.cons_append, parseList, recv]
    dsimp only
    rw [if_neg hne, hv]
    dsimp only
    rw [hvs, List.append_assoc]
    rfl
/-- The loop of `parseDict` over the tokens of the entries of a dictionary. -/
theorem parseDict_tokens :
    ∀ (es : List (List Nat × Value)), wellFormedDict es = true → ∀ (d : Int) (fuel : Nat)
      (m : Dict) (sfx : token) (rest : List token), sfx.typ = .tokenSuffix →
      (tokensDict d es).length + 1 ≤ fuel →
      parseDict fuel m (tokensDict d es ++ sfx :: rest)
        = .ok (es.foldl (fun m e => Dict.set m e.1 e.2) m, rest)
  | [], _, d, fuel, m, sfx, rest, hs, hf => by
    obtain ⟨f, rfl⟩ : ∃ f, fuel = f + 1 := ⟨fuel - 1, by omega⟩
    rw [tokensDict, List.nil_append, parseDict, recv]
    dsimp only
    rw [if_pos hs]
    rfl
  | (key, v) :: es, hw, d, fuel, m, sfx, rest, hs, hf => by
    rw [wellFormedDict, Bool.and_eq_true] at hw
    obtain ⟨t, ts, ht, hne⟩ := tokens_head d v
    have h3 := tokens_length_pos d v
    rw [tokensDict, List.length_append, List.length_append] at hf
    obtain ⟨f, rfl⟩ : ∃ f, fuel = f + 1 := ⟨fuel - 1, by omega⟩
    have hv := parseNext_tokens v hw.1 d f t (ts ++ (tokensDict d es ++ sfx :: rest))
      (tokensDict d es ++ sfx :: rest) (by rw [ht]; rfl) (by omega)
    have hvs := parseDict_tokens es hw.2 d f (Dict.set m key v) sfx rest hs (by omega)
    rw [tokensDict, List.append_assoc, List.append_assoc, ht, stringTokens, List.cons_append,
      List.cons_append, List.cons_append, List.nil_append, List.cons_append, parseDict, recv]
    dsimp only
    rw [if_neg (by simp), expect, if_neg (by simp), if_neg (by simp)]
    dsimp only
    rw [parseString_tokens]
    dsimp only [recv]
    rw [hv]
    dsimp only
    rw [hvs]
    rfl
end

end bencode

/-! ## Decoding an encoded dictionary -/

namespace bencode

theorem rounds_run (n : Nat) (l l1 : lexer) (ts : List token)
    (h : rounds n l = some (ts, l1)) (f : Nat) :
    run (n + f) l = (ts ++ (run f l1).1, (run f l1).2) := by
  induction n generalizing l ts with
  | zero =>
    rw [rounds] at h
    simp only [Option.some.injEq, Prod.mk.injEq] at h
    obtain ⟨rfl, rfl⟩ := h
    rw [Nat.zero_add, List.nil_append]
  | succ n ih =>
    rw [rounds] at h
    rw [Nat.add_right_comm, run]
    split at h
    · rename_i ts0 l' hi
      split at h
      · rename_i ts' l'' hr
        simp only [Option.some.injEq, Prod.mk.injEq] at h
        obtain ⟨rfl, rfl⟩ := h
        rw [hi]
        dsimp only
        rw [ih l' ts' hr, List.append_assoc]
      · cases h
    · cases h

theorem run_determined (f g : Nat) (l : lexer) (hf : (run f l).2 ≠ .outOfFuel)
    (hg : (run g l).2 ≠ .outOfFuel) : run f l = run g l := by
  induction f generalizing g l with
  | zero => exact absurd rfl hf
  | succ f ih =>
    cases g with
    | zero => exact absurd rfl hg
    | succ g =>
      rw [run] at hf hg ⊢
      rw [run]
      rcases hi : iteration l with ⟨ts, l' | s⟩
      · rw [hi] at hf hg
        dsimp only at hf hg ⊢
        rw [ih g l' hf hg]
      · rfl

theorem lex_of_lexes (inp : List Nat) (ts ts1 : List token) (l1 : lexer) (s : Stop)
    (h : Lexes (lexAt inp 0 0) ts l1) (hi : iteration l1 = (ts1, .stop s)) :
    lex inp = (ts ++ ts1, s) := by
  obtain ⟨n, hn⟩ := h
  have h1 : run 1 l1 = (ts1, s) := by
    rw [run, hi]
  have hr := rounds_run n _ _ _ hn 1
  rw [h1] at hr
  have hs : s ≠ .outOfFuel := iteration_stop l1 ts1 s hi
  have hl : lex inp = run (inp.length + 1) (lexAt inp 0 0) := rfl
  rw [hl, ← hr]
  apply run_determined
  · rw [← hl]
    exact lex_stops inp
  · rw [hr]
    exact hs

/-- The tokens that `lex` sends for the encoding of a well-formed value. -/
theorem lex_encode (v : Value) (hw : wellFormed v = true)
    (hlen : (encode v).length < 9223372036854775808) :
    lex (encode v) = (tokens 0 v ++ [{ typ := .tokenEOF, val := [], depth := 0 }], .returned) := by
  have h := lexes_value (encode v) hlen v hw 0 0 [] (le_refl _) (by simp)
  rw [Nat.zero_add] at h
  exact lex_of_lexes _ _ _ _ _ h (iteration_eof _)

theorem parseDictTop_tokens (es : List (List Nat × Value))
    (hw : wellFormed (.dict es) = true) (d : Int) (fuel : Nat) (t0 sfx eof : token)
    (h0 : t0.typ = .tokenDict) (hs : sfx.typ = .tokenSuffix) (he : eof.typ = .tokenEOF)
    (hf : (tokensDict d es).length + 1 ≤ fuel) :
    parseDictTop fuel (t0 :: tokensDict d es ++ [sfx] ++ [eof]) = .ok es := by
  rw [wellFormed, Bool.and_eq_true] at hw
  have hp := parseDict_tokens es hw.1 d fuel [] sfx [eof] hs hf
  rw [foldl_set_append es [] (by simpa using of_decide_eq_true hw.2), List.nil_append] at hp
  have e : t0 :: tokensDict d es ++ [sfx] ++ [eof] = t0 :: (tokensDict d es ++ sfx :: [eof]) := by
    simp
  rw [e]
  simp [parseDictTop, recvExpect, recv, expect, h0, he, hp]

/-- Decoding the encoding of a well-formed dictionary gives the dictionary. -/
theorem UnmarshalDict_encode (es : List (List Nat × Value))
    (hw : wellFormed (.dict es) = true)
    (hlen : (encode (.dict es)).length < 9223372036854775808) :
    UnmarshalDict (encode (.dict es)) = .ok es := by
  have hl := lex_encode (.dict es) hw hlen
  unfold UnmarshalDict
  rw [hl]
  dsimp only
  rw [tokens]
  exact parseDictTop_tokens es hw (0 + 1) _ _ _ _ rfl rfl rfl
    (by simp only [List.length_cons, List.length_append, List.length_nil]; omega)

end bencode

/-! ## The parser on a stream that ends with an error token -/

namespace bencode

theorem errEnded_cons {t : token} {ts : List token} (h : errEnded (t :: ts))
    (hne : t.typ ≠ .tokenError) : t.typ ≠ .tokenEOF ∧ errEnded ts := by
  rw [errEnded] at h
  rcases h with ⟨h1, -⟩ | ⟨h1, -, h3⟩
  · exact absurd h1 hne
  · exact ⟨h1, h3⟩

theorem errBound_mono {α : Type} {r : Outcome ParseError (α × List token)} {n n1 : Nat}
    (h : errBound r n) (hn : n ≤ n1) : errBound r n1 := by
  cases r with
  | ok p => exact ⟨h.1, lt_of_lt_of_le h.2 hn⟩
  | error e => exact h
  | panic => exact h

theorem expect_errEnded (t : token) (ts : List token) (typ : tokenType)
    (h : errEnded (t :: ts)) :
    (∃ e, expect t typ = .error e ∧ e ≠ .outOfFuel) ∨
      (expect t typ = .ok t ∧ t.typ = typ ∧ t.typ ≠ .tokenError ∧ errEnded ts) := by
  rw [errEnded] at h
  rcases h with ⟨h1, h2⟩ | ⟨-, h2, h3⟩
  · obtain ⟨e, he⟩ := Option.ne_none_iff_exists'.mp h2
    left
    refine ⟨.lexer e, ?_, by simp⟩
    rw [expect, if_pos h1, he]
  · by_cases ht : t.typ = typ
    · right
      refine ⟨?_, ht, h2, h3⟩
      rw [expect, if_neg h2, if_neg (not_not.mpr ht)]
    · left
      refine ⟨.expected typ t.typ, ?_, by simp⟩
      rw [expect, if_neg h2, if_pos ht]

theorem recvExpect_errEnded (ts : List token) (typ : tokenType) (h : errEnded ts) :
    errBound (recvExpect ts typ) ts.length := by
  cases ts with
  | nil => exact absurd h (by simp [errEnded])
  | cons t ts1 =>
    rw [recvExpect, recv]
    dsimp only
    rcases expect_errEnded t ts1 typ h with ⟨e, he, hne⟩ | ⟨hok, -, -, hE⟩
    · rw [he]
      exact hne
    · rw [hok]
      exact ⟨hE, Nat.lt_succ_self _⟩

theorem parseString_errEnded (ts : List token) (h : errEnded ts) :
    errBound (parseString ts) ts.length := by
  have h1 := recvExpect_errEnded ts .tokenSemicolon h
  rw [parseString]
  cases hx : recvExpect ts .tokenSemicolon with
  | ok p =>
    obtain ⟨t, ts1⟩ := p
    rw [hx] at h1
    dsimp only
    have h2 := recvExpect_errEnded ts1 .tokenString h1.1
    cases hy : recvExpect ts1 .tokenString with
    | ok q =>
      obtain ⟨t2, ts2⟩ := q
      rw [hy] at h2
      exact ⟨h2.1, lt_trans h2.2 h1.2⟩
    | error e =>
      rw [hy] at h2
      exact h2
    | panic =>
      rw [hy] at h2
      exact h2
  | error e =>
    rw [hx] at h1
    exact h1
  | panic =>
    rw [hx] at h1
    exact h1

theorem parseInt_errEnded (ts : List token) (h : errEnded ts) :
    errBound (parseInt ts) ts.length := by
  have h1 := recvExpect_errEnded ts .tokenInt h
  rw [parseInt]
  cases hx : recvExpect ts .tokenInt with
  | ok p =>
    obtain ⟨t, ts1⟩ := p
    rw [hx] at h1
    dsimp only
    have h2 := recvExpect_errEnded ts1 .tokenSuffix h1.1
    cases hy : recvExpect ts1 .tokenSuffix with
    | ok q =>
      obtain ⟨t2, ts2⟩ := q
      rw [hy] at h2
      exact ⟨h2.1, lt_trans h2.2 h1.2⟩
    | error e =>
      rw [hy] at h2
      exact h2
    | panic =>
      rw [hy] at h2
      exact h2
  | error e =>
    rw [hx] at h1
    exact h1
  | panic =>
    rw [hx] at h1
    exact h1

end bencode

namespace bencode

/-- On a stream in which an error token comes first, the three functions of
the parser fail with an error of the program or leave such a stream, when
`fuel` exceeds twice the number of tokens. -/
theorem parse_errEnded (fuel : Nat) :
    (∀ (m : Dict) (ts : List token), errEnded ts → 2 * ts.length < fuel →
      errBound (parseDict fuel m ts) ts.length) ∧
    (∀ (m : List Value) (ts : List token), errEnded ts → 2 * ts.length < fuel →
      errBound (parseList fuel m ts) ts.length) ∧
    (∀ (t : token) (ts : List token), errEnded (t :: ts) → 2 * ts.length + 1 < fuel →
      errBound (parseNext fuel t ts) (ts.length + 1)) := by
  induction fuel with
  | zero =>
    exact ⟨fun _ _ _ h => absurd h (Nat.not_lt_zero _), fun _ _ _ h => absurd h (Nat.not_lt_zero _),
      fun _ _ _ h => absurd h (Nat.not_lt_zero _)⟩
  | succ f ih =>
    obtain ⟨ihD, ihL, ihN⟩ := ih
    refine ⟨?_, ?_, ?_⟩
    · intro m ts h hlen
      cases ts with
      | nil => exact absurd h (by simp [errEnded])
      | cons t ts1 =>
        rw [List.length_cons] at hlen
        rw [parseDict, recv]
        dsimp only
        by_cases hs : t.typ = .tokenSuffix
        · rw [if_pos hs]
          exact ⟨(errEnded_cons h (by rw [hs]; decide)).2, Nat.lt_succ_self _⟩
        · rw [if_neg hs]
          rcases expect_errEnded t ts1 .tokenStringLength h with ⟨e, he, hne⟩ | ⟨hok, -, -, hE⟩
          · rw [he]
            exact hne
          · rw [hok]
            dsimp only
            have hps := parseString_errEnded ts1 hE
            cases hx : parseString ts1 with
            | ok p =>
              obtain ⟨key, ts2⟩ := p
              rw [hx] at hps
              obtain ⟨hE2, hl2⟩ := hps
              dsimp only
              cases ts2 with
              | nil => exact absurd hE2 (by simp [errEnded])
              | cons t3 ts3 =>
                rw [List.length_cons] at hl2
                rw [recv]
                dsimp only
                have hn := ihN t3 ts3 hE2 (by omega)
                cases hy : parseNext f t3 ts3 with
                | ok q =>
                  obtain ⟨v, ts4⟩ := q
                  rw [hy] at hn
                  obtain ⟨hE4, hl4⟩ := hn
                  dsimp only
                  exact errBound_mono (ihD (Dict.set m key v) ts4 hE4 (by omega))
                    (by rw [List.length_cons]; omega)
                | error e =>
                  rw [hy] at hn
                  exact hn
                | panic =>
                  rw [hy] at hn
                  exact hn
            | error e =>
              rw [hx] at hps
              exact hps
            | panic =>
              rw [hx] at hps
              exact hps
    · intro m ts h hlen
      cases ts with
      | nil => exact absurd h (by simp [errEnded])
      | cons t ts1 =>
        rw [List.length_cons] at hlen
        rw [parseList, recv]
        dsimp only
        by_cases hs : t.typ = .tokenSuffix
        · rw [if_pos hs]
          exact ⟨(errEnded_cons h (by rw [hs]; decide)).2, Nat.lt_succ_self _⟩
        · rw [if_neg hs]
          have hn := ihN t ts1 h (by omega)
          cases hy : parseNext f t ts1 with
          | ok q =>
            obtain ⟨v, ts4⟩ := q
            rw [hy] at hn
            obtain ⟨hE4, hl4⟩ := hn
            dsimp only
            exact errBound_mono (ihL (m ++ [v]) ts4 hE4 (by omega))
              (by rw [List.length_cons]; omega)
          | error e =>
            rw [hy] at hn
            exact hn
          | panic =>
            rw [hy] at hn
            exact hn
    · intro t ts h hlen
      rw [parseNext]
      by_cases h1 : t.typ = .tokenIntPrefix
      · rw [if_pos h1]
        have hE := (errEnded_cons h (by rw [h1]; decide)).2
        have hp := parseInt_errEnded ts hE
        cases hx : parseInt ts with
        | ok p =>
          obtain ⟨i, ts1⟩ := p
          rw [hx] at hp
          exact ⟨hp.1, Nat.lt_succ_of_lt hp.2⟩
        | error e =>
          rw [hx] at hp
          exact hp
        | panic =>
          rw [hx] at hp
          exact hp
      · rw [if_neg h1]
        by_cases h2 : t.typ = .tokenStringLength
        · rw [if_pos h2]
          have hE := (errEnded_cons h (by rw [h2]; decide)).2
          have hp := parseString_errEnded ts hE
          cases hx : parseString ts with
          | ok p =>
            obtain ⟨i, ts1⟩ := p
            rw [hx] at hp
            exact ⟨hp.1, Nat.lt_succ_of_lt hp.2⟩
          | error e =>
            rw [hx] at hp
            exact hp
          | panic =>
            rw [hx] at hp
            exact hp
        · rw [if_neg h2]
          by_cases h3 : t.typ = .tokenDict
          · rw [if_pos h3]
            have hE := (errEnded_cons h (by rw [h3]; decide)).2
            have hp := ihD [] ts hE (by omega)
            cases hx : parseDict f [] ts with
            | ok p =>
              obtain ⟨i, ts1⟩ := p
              rw [hx] at hp
              exact ⟨hp.1, Nat.lt_succ_of_lt hp.2⟩
            | error e =>
              rw [hx] at hp
              exact hp
            | panic =>
              rw [hx] at hp
              exact hp
          · rw [if_neg h3]
            by_cases h4 : t.typ = .tokenList
            · rw [if_pos h4]
              have hE := (errEnded_cons h (by rw [h4]; decide)).2
              have hp := ihL [] ts hE (by omega)
              cases hx : parseList f [] ts with
              | ok p =>
                obtain ⟨i, ts1⟩ := p
                rw [hx] at hp
                exact ⟨hp.1, Nat.lt_succ_of_lt hp.2⟩
              | error e =>
                rw [hx] at hp
                exact hp
              | panic =>
                rw [hx] at hp
                exact hp
            · rw [if_neg h4]
              rcases expect_errEnded t ts .tokenError h with ⟨e, he, hne⟩ | ⟨-, ht, hnt, -⟩
              · rw [he]
                exact hne
              · exact absurd ht hnt

/-- On a stream in which an error token comes first, `parseDictTop` fails with
an error of the program. -/
theorem parseDictTop_errEnded (ts : List token) (h : errEnded ts) :
    ∃ e, parseDictTop (2 * ts.length + 1) ts = .error e ∧ e ≠ .outOfFuel := by
  have h1 := recvExpect_errEnded ts .tokenDict h
  rw [parseDictTop]
  cases hx : recvExpect ts .tokenDict with
  | ok p =>
    obtain ⟨t, ts1⟩ := p
    rw [hx] at h1
    obtain ⟨hE1, hl1⟩ := h1
    dsimp only
    have hl1' : ts1.length < ts.length := hl1
    have hd := (parse_errEnded (2 * ts.length + 1)).1 [] ts1 hE1 (by omega)
    cases hy : parseDict (2 * ts.length + 1) [] ts1 with
    | ok q =>
      obtain ⟨d, ts2⟩ := q
      rw [hy] at hd
      obtain ⟨hE2, -⟩ := hd
      dsimp only
      cases ts2 with
      | nil => exact absurd hE2 (by simp [errEnded])
      | cons t2 ts3 =>
        rw [recvExpect, recv]
        dsimp only
        rcases expect_errEnded t2 ts3 .tokenEOF hE2 with ⟨e, he, hne⟩ | ⟨-, ht, hnt, -⟩
        · rw [he]
          exact ⟨e, rfl, hne⟩
        · exact absurd ht (errEnded_cons hE2 hnt).1
    | error e =>
      rw [hy] at hd
      exact ⟨e, rfl, hd⟩
    | panic =>
      rw [hy] at hd
      exact absurd hd id
  | error e =>
    rw [hx] at h1
    exact ⟨e, rfl, h1⟩
  | panic =>
    rw [hx] at h1
    exact absurd h1 id

/-- When the lexer sends an error token before it ends the stream,
`UnmarshalDict` returns an error. -/
theorem UnmarshalDict_errEnded (b : List Nat) (h : errEnded (lex b).1) :
    ∃ e, UnmarshalDict b = .error e ∧ e ≠ .outOfFuel :=
  parseDictTop_errEnded _ h

end bencode

/-! ## The lexer up to an integer token -/

namespace bencode

theorem lexInteger_continue (l l' : lexer) (ts : List token)
    (h : lexInteger l = (ts, .continue l')) :
    l'.pos = l'.start ∧ (0 ≤ l.depth → 0 ≤ l'.depth) ∧
      ∀ t ∈ ts, t.typ ≠ .tokenEOF ∧ t.typ ≠ .tokenError := by
  unfold lexInteger at h
  split at h
  · simp at h
  · dsimp only at h
    split at h
    · simp at h
    · split at h
      · simp at h
      · split at h
        · simp at h
        · simp only [Prod.mk.injEq, Next.continue.injEq] at h
          obtain ⟨rfl, rfl⟩ := h
          refine ⟨rfl, fun h0 => by dsimp only; omega, ?_⟩
          intro t ht
          simp only [List.mem_cons, List.mem_singleton, List.not_mem_nil, or_false] at ht
          rcases ht with rfl | rfl <;> simp [emit]

theorem lexString_continue (l l' : lexer) (ts : List token)
    (h : lexString l = (ts, .continue l')) :
    l'.pos = l'.start ∧ (0 ≤ l.depth → 0 ≤ l'.depth) ∧
      ∀ t ∈ ts, t.typ ≠ .tokenEOF ∧ t.typ ≠ .tokenError := by
  unfold lexString at h
  split at h
  · simp at h
  · split at h
    · simp at h
    · dsimp only at h
      split at h
      · simp at h
      · split at h
        · simp at h
        · simp only [Prod.mk.injEq, Next.continue.injEq] at h
          obtain ⟨rfl, rfl⟩ := h
          refine ⟨rfl, fun h0 => h0, ?_⟩
          intro t ht
          simp only [List.mem_cons, List.mem_singleton, List.not_mem_nil, or_false] at ht
          rcases ht with rfl | rfl | rfl <;> simp [emit]

/-- A round of the lexer that goes on leaves `pos = start`, keeps the depth
non-negative and sends neither `tokenEOF` nor `tokenError`. -/
theorem iteration_continue (l l' : lexer) (ts : List token)
    (h : iteration l = (ts, .continue l')) :
    l'.pos = l'.start ∧ (0 ≤ l.depth → 0 ≤ l'.depth) ∧
      ∀ t ∈ ts, t.typ ≠ .tokenEOF ∧ t.typ ≠ .tokenError := by
  unfold iteration at h
  split at h
  · split at h <;> simp at h
  · dsimp only at h
    split at h
    · simp only [Prod.mk.injEq, Next.continue.injEq] at h
      obtain ⟨rfl, rfl⟩ := h
      refine ⟨rfl, fun h0 => by dsimp only; omega, ?_⟩
      intro t ht
      simp only [List.mem_singleton] at ht
      subst ht
      simp [emit]
    · split at h
      · simp only [Prod.mk.injEq, Next.continue.injEq] at h
        obtain ⟨rfl, rfl⟩ := h
        refine ⟨rfl, fun h0 => by dsimp only; omega, ?_⟩
        intro t ht
        simp only [List.mem_singleton] at ht
        subst ht
        simp [emit]
      · split at h
        · split at h
          · simp at h
          · rename_i hd
            simp only [Prod.mk.injEq, Next.continue.injEq] at h
            obtain ⟨rfl, rfl⟩ := h
            refine ⟨rfl, fun _ => by dsimp only at hd ⊢; omega, ?_⟩
            intro t ht
            simp only [List.mem_singleton] at ht
            subst ht
            simp [emit]
        · split at h
          · exact lexInteger_continue l l' ts h
          · split at h
            · exact lexString_continue l l' ts h
            · simp at h

/-- The lexer after rounds that all went on from the start of the input. -/
theorem rounds_inv (n : Nat) (l l1 : lexer) (ts : List token)
    (h : rounds n l = some (ts, l1)) (hp : l.pos = l.start) (hd : 0 ≤ l.depth) :
    l1.input = l.input ∧ l1.pos = l1.start ∧ 0 ≤ l1.depth ∧
      ∀ t ∈ ts, t.typ ≠ .tokenEOF ∧ t.typ ≠ .tokenError := by
  induction n generalizing l ts with
  | zero =>
    rw [rounds] at h
    simp only [Option.some.injEq, Prod.mk.injEq] at h
    obtain ⟨rfl, rfl⟩ := h
    exact ⟨rfl, hp, hd, fun t ht => absurd ht (List.not_mem_nil t)⟩
  | succ n ih =>
    rw [rounds] at h
    split at h
    · rename_i ts0 l' hi
      split at h
      · rename_i ts' l'' hr
        simp only [Option.some.injEq, Prod.mk.injEq] at h
        obtain ⟨rfl, rfl⟩ := h
        obtain ⟨h1, h2, h3⟩ := iteration_continue l l' ts0 hi
        obtain ⟨hin, -⟩ := iteration_progress l l' ts0 hi
        obtain ⟨g1, g2, g3, g4⟩ := ih l' ts' hr h1 (h2 hd)
        refine ⟨by rw [g1, hin], g2, g3, ?_⟩
        intro t ht
        rcases List.mem_append.mp ht with ht | ht
        · exact h3 t ht
        · exact g4 t ht
      · cases h
    · cases h

theorem errEnded_append (ts ts1 : List token)
    (h : ∀ t ∈ ts, t.typ ≠ .tokenEOF ∧ t.typ ≠ .tokenError) (h1 : errEnded ts1) :
    errEnded (ts ++ ts1) := by
  induction ts with
  | nil => exact h1
  | cons t ts ih =>
    rw [List.cons_append, errEnded]
    right
    exact ⟨(h t (List.mem_cons_self _ _)).1, (h t (List.mem_cons_self _ _)).2,
      ih (fun x hx => h x (List.mem_cons_of_mem _ hx))⟩

/-- When the lexer, after rounds that all went on, stops with an error token,
`UnmarshalDict` returns an error. -/
theorem UnmarshalDict_of_error_round (inp : List Nat) (n : Nat) (ts ts1 : List token)
    (l : lexer) (s : Stop) (hreach : rounds n (lexAt inp 0 0) = some (ts, l))
    (hi : iteration l = (ts1, .stop s)) (he : errEnded ts1) :
    ∃ e, UnmarshalDict inp = .error e ∧ e ≠ .outOfFuel := by
  obtain ⟨-, -, -, htok⟩ := rounds_inv n _ l ts hreach rfl (le_refl _)
  have hl := lex_of_lexes inp ts ts1 l s ⟨n, hreach⟩ hi
  apply UnmarshalDict_errEnded
  rw [hl]
  exact errEnded_append ts ts1 htok he

end bencode

/-! ## Integer tokens -/

namespace bencode

theorem lexer_eq_lexAt (l : lexer) (inp : List Nat) (h1 : l.input = inp)
    (h2 : l.pos = l.start) : l = lexAt inp l.depth l.start := by
  cases l
  simp only [lexAt, lexer.mk.injEq] at *
  exact ⟨h1, trivial, trivial, h2⟩

/-- At an integer token whose text has a leading zero or holds a byte that is
not a decimal digit the lexer stops with an error token, and `UnmarshalDict`
returns an error. -/
theorem UnmarshalDict_bad_integer (inp body post : List Nat) (n : Nat) (ts : List token)
    (l : lexer) (hreach : rounds n (lexAt inp 0 0) = some (ts, l))
    (hint : inp.drop l.start = 'i'.toNat :: body ++ 'e'.toNat :: post)
    (he : 'e'.toNat ∉ body)
    (hbad : (1 < body.length ∧ body.head? = some '0'.toNat) ∨ ∃ c ∈ body, isDigit c = false) :
    ∃ e, UnmarshalDict inp = .error e ∧ e ≠ .outOfFuel := by
  obtain ⟨hin, hpos, -, -⟩ := rounds_inv n _ l ts hreach rfl (le_refl _)
  have hl := lexer_eq_lexAt l inp hin hpos
  have hne : body ≠ [] := by
    rintro rfl
    rcases hbad with ⟨h, -⟩ | ⟨c, hc, -⟩
    · simp at h
    · simp at hc
  have hit := iteration_int inp l.depth l.start body post hint he hne
  rw [← hl] at hit
  by_cases c1 : body.getD 0 0 = 48 ∧ body.length ≠ 1
  · rw [if_pos c1] at hit
    exact UnmarshalDict_of_error_round inp n ts _ l _ hreach hit (by simp [errEnded])
  · rw [if_neg c1] at hit
    have c2 : body.all isDigit = false := by
      rcases hbad with ⟨h, hh⟩ | ⟨c, hc, hd⟩
      · exfalso
        apply c1
        refine ⟨?_, by omega⟩
        cases body with
        | nil => simp at h
        | cons x r =>
          simp only [List.head?_cons, Option.some.injEq] at hh
          rw [hh]
          rfl
      · rw [← Bool.not_eq_true, List.all_eq_true]
        intro hall
        rw [hall c hc] at hd
        cases hd
    rw [if_pos c2] at hit
    exact UnmarshalDict_of_error_round inp n ts _ l _ hreach hit (by simp [errEnded])

/-- At the text `i<decimal>e` of an integer in `[0, 2^63)` the lexer sends the
three tokens of the integer and goes on behind the text at the same depth,
and `parseNext` makes the integer of these tokens. -/
theorem integer_token_parses (inp post : List Nat) (i : Int) (n : Nat) (ts : List token)
    (l : lexer) (hreach : rounds n (lexAt inp 0 0) = some (ts, l))
    (hint : inp.drop l.start = encode (.int i) ++ post) (h0 : 0 ≤ i)
    (h1 : i < 9223372036854775808) :
    (∃ m, rounds m (lexAt inp 0 0)
        = some (ts ++ tokens l.depth (.int i),
            lexAt inp l.depth (l.start + (encode (.int i)).length))) ∧
    ∀ fuel rest, 3 ≤ fuel →
      ∃ t ts1, t :: ts1 = tokens l.depth (.int i) ++ rest ∧
        parseNext fuel t ts1 = .ok (.int i, rest) := by
  obtain ⟨hin, hpos, hdep, -⟩ := rounds_inv n _ l ts hreach rfl (le_refl _)
  have hl := lexer_eq_lexAt l inp hin hpos
  have hw : wellFormed (.int i) = true := by
    rw [wellFormed]
    exact decide_eq_true ⟨h0, h1⟩
  constructor
  · obtain ⟨m, hm⟩ := lexes_int inp i hw l.depth l.start post hdep hint
    rw [← hl] at hm
    exact ⟨n + m, rounds_trans n m _ l _ ts _ hreach hm⟩
  · intro fuel rest hf
    obtain ⟨t, ts1, ht, -⟩ := tokens_head l.depth (.int i)
    refine ⟨t, ts1 ++ rest, by rw [ht]; rfl, ?_⟩
    apply parseNext_tokens (.int i) hw l.depth fuel t (ts1 ++ rest) rest (by rw [ht]; rfl)
    rw [tokens]
    exact hf

/-- C11 (as stated, refuted): for the document `d1:ai-1ee` `UnmarshalDict`
returns the error of the lexer for an integer that is not in decimal, at
position 5, and no value. -/
theorem UnmarshalDict_rejects_minus_one :
    UnmarshalDict (str "d1:ai-1ee") = .error (.lexer (.notDecimal 5)) := by
  decide!

/-- C11 (amended): negative integers are rejected. For every document in
which the lexer, after rounds that all went on, stands at `i-<text>e`,
`UnmarshalDict` returns an error; and where it stands at `i<decimal>e`, the
decimal text without leading zero of an integer in `[0, 2^63)`, it sends the
three tokens of the integer, from which `parseNext` makes that integer. -/
theorem UnmarshalDict_negative_rejected (inp post : List Nat) (n : Nat) (ts : List token)
    (l : lexer) (hreach : rounds n (lexAt inp 0 0) = some (ts, l)) :
    (∀ text : List Nat, 'e'.toNat ∉ text →
      inp.drop l.start = 'i'.toNat :: ('-'.toNat :: text) ++ 'e'.toNat :: post →
      ∃ e, UnmarshalDict inp = .error e ∧ e ≠ .outOfFuel) ∧
    (∀ i : Int, 0 ≤ i → i < 2 ^ 63 →
      inp.drop l.start = 'i'.toNat :: decimal i.toNat ++ 'e'.toNat :: post →
      (∃ m, rounds m (lexAt inp 0 0)
          = some (ts ++ tokens l.depth (.int i),
              lexAt inp l.depth (l.start + (decimal i.toNat).length + 2))) ∧
      ∀ fuel rest, 3 ≤ fuel →
        ∃ t ts1, t :: ts1 = tokens l.depth (.int i) ++ rest ∧
          parseNext fuel t ts1 = .ok (.int i, rest)) := by
  constructor
  · intro text he hint
    refine UnmarshalDict_bad_integer inp ('-'.toNat :: text) post n ts l hreach hint ?_
      (Or.inr ⟨'-'.toNat, List.mem_cons_self _ _, by decide⟩)
    intro hm
    rcases List.mem_cons.mp hm with h | h
    · exact absurd h (by decide)
    · exact he h
  · intro i h0 h1 hint
    have h1' : i < 9223372036854775808 := by
      norm_num at h1
      exact h1
    have henc : encode (.int i) = 'i'.toNat :: decimal i.toNat ++ ['e'.toNat] := by
      rw [encode, decimalInt_of_nonneg i h0]
    have hint' : inp.drop l.start = encode (.int i) ++ post := by
      rw [hint, henc]
      simp
    have hlen : l.start + (decimal i.toNat).length + 2 = l.start + (encode (.int i)).length := by
      rw [henc]
      simp only [List.length_cons, List.length_append, List.length_nil]
      omega
    rw [hlen]
    exact integer_token_parses inp post i n ts l hreach hint' h0 h1'

end bencode

namespace bencode

/-- Witness of C11 (amended) at the document `d1:ai-1ee`, where the lexer
stands at `i-1e` after two rounds. -/
theorem UnmarshalDict_negative_rejected_witness :
    ∃ e, UnmarshalDict (str "d1:ai-1ee") = .error e ∧ e ≠ .outOfFuel :=
  (UnmarshalDict_negative_rejected (str "d1:ai-1ee") (str "e") 2
    ({ typ := .tokenDict, val := str "d", depth := 0 } :: stringTokens 1 (str "a"))
    (lexAt (str "d1:ai-1ee") 1 4) (by decide)).1 (str "1") (by decide) (by decide)

/-- C12: for every document in which the lexer, after rounds that all went
on, stands at an integer token `i<body>e`: if `body` is `0`, it sends the
three tokens of the integer 0 and `parseNext` makes the value 0 of them; if
`body` starts with `0` and is longer than one byte, or holds a byte that is
not a decimal digit, `UnmarshalDict` returns an error. The document
`d1:ai0ee` decodes to the dictionary with `a = 0`, `d1:ai01ee` and `d1:ai ee`
give an error of the lexer. -/
theorem UnmarshalDict_integer_body (inp body post : List Nat) (n : Nat) (ts : List token)
    (l : lexer) (hreach : rounds n (lexAt inp 0 0) = some (ts, l))
    (hint : inp.drop l.start = 'i'.toNat :: body ++ 'e'.toNat :: post)
    (he : 'e'.toNat ∉ body) :
    (body = ['0'.toNat] →
      (∃ m, rounds m (lexAt inp 0 0)
          = some (ts ++ tokens l.depth (.int 0), lexAt inp l.depth (l.start + 3))) ∧
      ∀ fuel rest, 3 ≤ fuel →
        ∃ t ts1, t :: ts1 = tokens l.depth (.int 0) ++ rest ∧
          parseNext fuel t ts1 = .ok (.int 0, rest)) ∧
    ((1 < body.length ∧ body.head? = some '0'.toNat) ∨ (∃ c ∈ body, isDigit c = false) →
      ∃ e, UnmarshalDict inp = .error e ∧ e ≠ .outOfFuel) ∧
    UnmarshalDict (str "d1:ai0ee") = .ok [(str "a", .int 0)] ∧
    UnmarshalDict (str "d1:ai01ee") = .error (.lexer (.leadingZero 5)) ∧
    UnmarshalDict (str "d1:ai ee") = .error (.lexer (.notDecimal 5)) := by
  refine ⟨?_, UnmarshalDict_bad_integer inp body post n ts l hreach hint he, by decide!,
    by decide!, by decide!⟩
  intro hb
  subst hb
  exact integer_token_parses inp post 0 n ts l hreach hint (le_refl _) (by decide)

/-- Witness of C12 at the document `d1:ai01ee`, where the lexer stands at
`i01e` after two rounds. -/
theorem UnmarshalDict_integer_body_witness :
    ∃ e, UnmarshalDict (str "d1:ai01ee") = .error e ∧ e ≠ .outOfFuel :=
  (UnmarshalDict_integer_body (str "d1:ai01ee") (str "01") (str "e") 2
    ({ typ := .tokenDict, val := str "d", depth := 0 } :: stringTokens 1 (str "a"))
    (lexAt (str "d1:ai01ee") 1 4) (by decide) (by decide) (by decide)).2.1
    (Or.inl (by decide))

/-- C14 (as stated, refuted): the dictionary with the entry `n = [-5]` is well
formed, its integer lies within the signed 64-bit range and its encoding is
`d1:nli-5eee`, for which `UnmarshalDict` returns the error of the lexer for an
integer that is not in decimal. -/
theorem UnmarshalDict_rejects_encoded_negative :
    encode (.dict [(str "n", .list [.int (-5)])]) = str "d1:nli-5eee" ∧
    UnmarshalDict (encode (.dict [(str "n", .list [.int (-5)])]))
      = .error (.lexer (.notDecimal 6)) := by
  constructor
  · decide
  · decide!

/-- C14 (amended): for every document `b` that is the encoding of a
dictionary whose integers lie in `[0, 2^63)` and whose dictionaries have no
duplicate keys, of fewer than `2^63` bytes, `UnmarshalDict` succeeds and
returns that dictionary, the entries in the order of the document, and
encoding the result gives back `b`. -/
theorem UnmarshalDict_roundtrip (b : List Nat) (es : List (List Nat × Value))
    (hb : b = encode (.dict es)) (hw : wellFormed (.dict es) = true)
    (hlen : b.length < 2 ^ 63) :
    ∃ d, UnmarshalDict b = .ok d ∧ d = es ∧ encode (.dict d) = b := by
  subst hb
  exact ⟨es, UnmarshalDict_encode es hw (by norm_num at hlen; exact hlen), rfl, rfl⟩

/-- Witness of C14 (amended) at the document `d1:ai7e1:bl2:xydeee`. -/
theorem UnmarshalDict_roundtrip_witness :
    ∃ d, UnmarshalDict (str "d1:ai7e1:bl2:xydeee") = .ok d ∧
      d = [(str "a", .int 7), (str "b", .list [.string (str "xy"), .dict []])] ∧
      encode (.dict d) = str "d1:ai7e1:bl2:xydeee" :=
  UnmarshalDict_roundtrip (str "d1:ai7e1:bl2:xydeee")
    [(str "a", .int 7), (str "b", .list [.string (str "xy"), .dict []])]
    (by decide) (by decide) (by decide)

end bencode

/-! ## The fuel of the parser -/

namespace bencode

theorem fuelBound_mono {α : Type} {r : Outcome ParseError (α × List token)} {n n1 : Nat}
    (h : fuelBound r n) (hn : n ≤ n1) : fuelBound r n1 := by
  cases r with
  | ok p => exact lt_of_lt_of_le h hn
  | error e => exact h
  | panic => exact h

theorem expect_cases (t : token) (typ : tokenType) :
    expect t typ = .ok t ∨ expect t typ = .panic ∨
      ∃ e, expect t typ = .error e ∧ e ≠ .outOfFuel := by
  unfold expect
  by_cases h1 : t.typ = .tokenError
  · rw [if_pos h1]
    cases t.err with
    | none => exact Or.inr (Or.inl rfl)
    | some e => exact Or.inr (Or.inr ⟨_, rfl, by simp⟩)
  · rw [if_neg h1]
    by_cases h2 : t.typ ≠ typ
    · rw [if_pos h2]
      exact Or.inr (Or.inr ⟨_, rfl, by simp⟩)
    · rw [if_neg h2]
      exact Or.inl rfl

theorem recvExpect_fuel (ts : List token) (typ : tokenType) :
    fuelBound (recvExpect ts typ) ts.length := by
  cases ts with
  | nil => exact trivial
  | cons t ts1 =>
    rw [recvExpect, recv]
    dsimp only
    rcases expect_cases t typ with h | h | ⟨e, h, hne⟩
    · rw [h]
      exact Nat.lt_succ_self _
    · rw [h]
      exact trivial
    · rw [h]
      exact hne

theorem parseString_fuel (ts : List token) : fuelBound (parseString ts) ts.length := by
  have h1 := recvExpect_fuel ts .tokenSemicolon
  rw [parseString]
  cases hx : recvExpect ts .tokenSemicolon with
  | ok p =>
    obtain ⟨t, ts1⟩ := p
    rw [hx] at h1
    dsimp only
    have h2 := recvExpect_fuel ts1 .tokenString
    cases hy : recvExpect ts1 .tokenString with
    | ok q =>
      obtain ⟨t2, ts2⟩ := q
      rw [hy] at h2
      exact lt_trans h2 h1
    | error e =>
      rw [hy] at h2
      exact h2
    | panic => exact trivial
  | error e =>
    rw [hx] at h1
    exact h1
  | panic => exact trivial

theorem parseInt_fuel (ts : List token) : fuelBound (parseInt ts) ts.length := by
  have h1 := recvExpect_fuel ts .tokenInt
  rw [parseInt]
  cases hx : recvExpect ts .tokenInt with
  | ok p =>
    obtain ⟨t, ts1⟩ := p
    rw [hx] at h1
    dsimp only
    have h2 := recvExpect_fuel ts1 .tokenSuffix
    cases hy : recvExpect ts1 .tokenSuffix with
    | ok q =>
      obtain ⟨t2, ts2⟩ := q
      rw [hy] at h2
      exact lt_trans h2 h1
    | error e =>
      rw [hy] at h2
      exact h2
    | panic => exact trivial
  | error e =>
    rw [hx] at h1
    exact h1
  | panic => exact trivial

/-- With more than twice as much fuel as there are tokens, the three functions
of the parser never stop for lack of fuel, and a result leaves fewer tokens. -/
theorem parse_fuel (fuel : Nat) :
    (∀ (m : Dict) (ts : List token), 2 * ts.length < fuel →
      fuelBound (parseDict fuel m ts) ts.length) ∧
    (∀ (m : List Value) (ts : List token), 2 * ts.length < fuel →
      fuelBound (parseList fuel m ts) ts.length) ∧
    (∀ (t : token) (ts : List token), 2 * ts.length + 1 < fuel →
      fuelBound (parseNext fuel t ts) (ts.length + 1)) := by
  induction fuel with
  | zero =>
    exact ⟨fun _ _ h => absurd h (Nat.not_lt_zero _), fun _ _ h => absurd h (Nat.not_lt_zero _),
      fun _ _ h => absurd h (Nat.not_lt_zero _)⟩
  | succ f ih =>
    obtain ⟨ihD, ihL, ihN⟩ := ih
    refine ⟨?_, ?_, ?_⟩
    · intro m ts hlen
      cases ts with
      | nil =>
        rw [parseDict, recv]
        exact trivial
      | cons t ts1 =>
        rw [List.length_cons] at hlen
        rw [parseDict, recv]
        dsimp only
        by_cases hs : t.typ = .tokenSuffix
        · rw [if_pos hs]
          exact Nat.lt_succ_self _
        · rw [if_neg hs]
          rcases expect_cases t .tokenStringLength with h | h | ⟨e, h, hne⟩
          · rw [h]
            dsimp only
            have hps := parseString_fuel ts1
            cases hx : parseString ts1 with
            | ok p =>
              obtain ⟨key, ts2⟩ := p
              rw [hx] at hps
              have hl2 : ts2.length < ts1.length := hps
              dsimp only
              cases ts2 with
              | nil =>
                rw [recv]
                exact trivial
              | cons t3 ts3 =>
                rw [List.length_cons] at hl2
                rw [recv]
                dsimp only
                have hn := ihN t3 ts3 (by omega)
                cases hy : parseNext f t3 ts3 with
                | ok q =>
                  obtain ⟨v, ts4⟩ := q
                  rw [hy] at hn
                  have hl4 : ts4.length < ts3.length + 1 := hn
                  dsimp only
                  exact fuelBound_mono (ihD (Dict.set m key v) ts4 (by omega))
                    (by rw [List.length_cons]; omega)
                | error e =>
                  rw [hy] at hn
                  exact hn
                | panic => exact trivial
            | error e =>
              rw [hx] at hps
              exact hps
            | panic => exact trivial
          · rw [h]
            exact trivial
          · rw [h]
            exact hne
    · intro m ts hlen
      cases ts with
      | nil =>
        rw [parseList, recv]
        exact trivial
      | cons t ts1 =>
        rw [List.length_cons] at hlen
        rw [parseList, recv]
        dsimp only
        by_cases hs : t.typ = .tokenSuffix
        · rw [if_pos hs]
          exact Nat.lt_succ_self _
        · rw [if_neg hs]
          have hn := ihN t ts1 (by omega)
          cases hy : parseNext f t ts1 with
          | ok q =>
            obtain ⟨v, ts4⟩ := q
            rw [hy] at hn
            have hl4 : ts4.length < ts1.length + 1 := hn
            dsimp only
            exact fuelBound_mono (ihL (m ++ [v]) ts4 (by omega))
              (by rw [List.length_cons]; omega)
          | error e =>
            rw [hy] at hn
            exact hn
          | panic => exact trivial
    · intro t ts hlen
      rw [parseNext]
      by_cases h1 : t.typ = .tokenIntPrefix
      · rw [if_pos h1]
        have hp := parseInt_fuel ts
        cases hx : parseInt ts with
        | ok p =>
          obtain ⟨i, ts1⟩ := p
          rw [hx] at hp
          exact Nat.lt_succ_of_lt hp
        | error e =>
          rw [hx] at hp
          exact hp
        | panic => exact trivial
      · rw [if_neg h1]
        by_cases h2 : t.typ = .tokenStringLength
        · rw [if_pos h2]
          have hp := parseString_fuel ts
          cases hx : parseString ts with
          | ok p =>
            obtain ⟨i, ts1⟩ := p
            rw [hx] at hp
            exact Nat.lt_succ_of_lt hp
          | error e =>
            rw [hx] at hp
            exact hp
          | panic => exact trivial
        · rw [if_neg h2]
          by_cases h3 : t.typ = .tokenDict
          · rw [if_pos h3]
            have hp := ihD [] ts (by omega)
            cases hx : parseDict f [] ts with
            | ok p =>
              obtain ⟨i, ts1⟩ := p
              rw [hx] at hp
              exact Nat.lt_succ_of_lt hp
            | error e =>
              rw [hx] at hp
              exact hp
            | panic => exact trivial
          · rw [if_neg h3]
            by_cases h4 : t.typ = .tokenList
            · rw [if_pos h4]
              have hp := ihL [] ts (by omega)
              cases hx : parseList f [] ts with
              | ok p =>
                obtain ⟨i, ts1⟩ := p
                rw [hx] at hp
                exact Nat.lt_succ_of_lt hp
              | error e =>
                rw [hx] at hp
                exact hp
              | panic => exact trivial
            · rw [if_neg h4]
              rcases expect_cases t .tokenError with h | h | ⟨e, h, hne⟩
              · rw [h]
                exact trivial
              · rw [h]
                exact trivial
              · rw [h]
                exact hne

/-- The recursion budget of `UnmarshalDict` is never exhausted: on every input
it gives a dictionary, an error of the program, or a panic. -/
theorem UnmarshalDict_fuel (b : List Nat) : UnmarshalDict b ≠ .error .outOfFuel := by
  unfold UnmarshalDict
  generalize (lex b).1 = ts
  have h1 := recvExpect_fuel ts .tokenDict
  rw [parseDictTop]
  cases hx : recvExpect ts .tokenDict with
  | ok p =>
    obtain ⟨t, ts1⟩ := p
    rw [hx] at h1
    have hl1 : ts1.length < ts.length := h1
    dsimp only
    have hd := (parse_fuel (2 * ts.length + 1)).1 [] ts1 (by omega)
    cases hy : parseDict (2 * ts.length + 1) [] ts1 with
    | ok q =>
      obtain ⟨d, ts2⟩ := q
      dsimp only
      have h2 := recvExpect_fuel ts2 .tokenEOF
      cases hz : recvExpect ts2 .tokenEOF with
      | ok r => simp
      | error e =>
        rw [hz] at h2
        intro hc
        simp only [Outcome.error.injEq] at hc
        exact h2 hc
      | panic => simp
    | error e =>
      rw [hy] at hd
      intro hc
      simp only [Outcome.error.injEq] at hc
      exact hd hc
    | panic => simp
  | error e =>
    rw [hx] at h1
    intro hc
    simp only [Outcome.error.injEq] at hc
    exact h1 hc
  | panic => simp

end bencode

/-! ## The identity key -/

namespace pwp

theorem uint32Bytes_injective (v w : Nat) (hv : v < 2 ^ 32) (hw : w < 2 ^ 32)
    (h : uint32Bytes v = uint32Bytes w) : v = w := by
  have h1 := Uint32_uint32Bytes v hv []
  have h2 := Uint32_uint32Bytes w hw []
  rw [h, h2] at h1
  exact (Option.some.inj h1).symm

/-- Closed form of the identity key of a message of a supported type: the
frame of the message with an empty `Data`. -/
theorem Id_eq (m : Message) (ht : m.Typ ≤ 8) :
    m.Id = .ok (uint32Bytes (payloadLength { m with Data := [] }) ++ m.Typ
      :: wireBody { m with Data := [] }) := by
  have hl : payloadLength { m with Data := [] } < 2 ^ 32 := by
    unfold payloadLength
    dsimp only
    split_ifs <;> norm_num
  exact Marshal_eq { m with Data := [] } ht hl

/-- The identity key of a piece message. -/
theorem Id_piece (p o l : Nat) (d : List Nat) :
    Message.Id { Typ := MessagePiece, PieceIndex := p, BlockOffset := o, BlockLength := l,
                 Data := d }
      = .ok (uint32Bytes 9 ++ MessagePiece :: (uint32Bytes p ++ uint32Bytes o)) := by
  rw [Id_eq _ (show MessagePiece ≤ 8 by decide)]
  simp [payloadLength, wireBody, MessagePiece, MessageHave, MessageRequest, MessageCancel,
    MessageBitfield]

/-- C24: two messages of a supported type with equal `Typ`, `PieceIndex`,
`BlockOffset` and `BlockLength` have the same identity key, whatever their
`Data`; the piece message decoded from a reply for `(p, o)` with any block
bytes has the key of the expectation `Message{Typ: MessagePiece, PieceIndex:
p, BlockOffset: o}`, and piece messages with a different index or offset have
different keys. -/
theorem Id_ignores_Data (a b : Message) (ht : a.Typ ≤ 8) (h1 : a.Typ = b.Typ)
    (h2 : a.PieceIndex = b.PieceIndex) (h3 : a.BlockOffset = b.BlockOffset)
    (h4 : a.BlockLength = b.BlockLength) :
    a.Id = b.Id ∧ (∃ key, a.Id = .ok key) ∧
    (∀ p o block, p < 2 ^ 32 → o < 2 ^ 32 →
      ∃ m, unmarshalMessage (MessagePiece :: (uint32Bytes p ++ uint32Bytes o ++ block)) = .ok m ∧
        m.Typ = MessagePiece ∧ m.PieceIndex = p ∧ m.BlockOffset = o ∧ m.Data = block ∧
        m.Id = Message.Id { Typ := MessagePiece, PieceIndex := p, BlockOffset := o,
                            BlockLength := 0, Data := [] }) ∧
    (∀ p o l d p1 o1 l1 d1, p < 2 ^ 32 → o < 2 ^ 32 → p1 < 2 ^ 32 → o1 < 2 ^ 32 →
      (p ≠ p1 ∨ o ≠ o1) →
      Message.Id { Typ := MessagePiece, PieceIndex := p, BlockOffset := o, BlockLength := l,
                   Data := d }
        ≠ Message.Id { Typ := MessagePiece, PieceIndex := p1, BlockOffset := o1,
                       BlockLength := l1, Data := d1 }) := by
  refine ⟨?_, ⟨_, Id_eq a ht⟩, ?_, ?_⟩
  · unfold Message.Id
    rw [h1, h2, h3, h4]
  · intro p o block hp ho
    have hw := unmarshal_wire ⟨MessagePiece, p, o, 0, block⟩
      (show MessagePiece ≤ 8 by decide) hp ho (by norm_num)
    have e : wireBody ⟨MessagePiece, p, o, 0, block⟩
        = uint32Bytes p ++ uint32Bytes o ++ block := by
      simp [wireBody, MessagePiece, MessageHave, MessageRequest, MessageCancel,
        MessageBitfield]
    rw [e] at hw
    refine ⟨_, hw, ?_, ?_, ?_, ?_, ?_⟩
    · rfl
    · simp [wireFields, MessagePiece, MessageHave, MessageRequest, MessageCancel]
    · simp [wireFields, MessagePiece, MessageHave, MessageRequest, MessageCancel]
    · simp [wireFields, MessagePiece, MessageHave, MessageRequest, MessageCancel,
        MessageBitfield]
    · rfl
  · intro p o l d p1 o1 l1 d1 hp ho hp1 ho1 hne heq
    rw [Id_piece p o l d, Id_piece p1 o1 l1 d1] at heq
    have h5 := List.append_cancel_left (Outcome.ok.inj heq)
    have h6 := (List.cons.inj h5).2
    have hlen : (uint32Bytes p).length = (uint32Bytes p1).length := by
      rw [uint32Bytes_length, uint32Bytes_length]
    obtain ⟨e1, e2⟩ := List.append_inj h6 hlen
    rcases hne with h | h
    · exact h (uint32Bytes_injective p p1 hp hp1 e1)
    · exact h (uint32Bytes_injective o o1 ho ho1 e2)

/-- Witness of C24 at two piece messages for piece 3, offset 16384, with
different block bytes. -/
theorem Id_ignores_Data_witness :
    Message.Id { Typ := MessagePiece, PieceIndex := 3, BlockOffset := 16384, BlockLength := 0,
                 Data := [1, 2, 3] }
      = Message.Id { Typ := MessagePiece, PieceIndex := 3, BlockOffset := 16384,
                     BlockLength := 0, Data := [] } :=
  (Id_ignores_Data
    { Typ := MessagePiece, PieceIndex := 3, BlockOffset := 16384, BlockLength := 0,
      Data := [1, 2, 3] }
    { Typ := MessagePiece, PieceIndex := 3, BlockOffset := 16384, BlockLength := 0, Data := [] }
    (by decide) rfl rfl rfl rfl).1

end pwp

/-! ## The router -/

theorem Inbox_get_delete_self {W : Type} (dir : Inbox W) (key : List Nat) :
    Inbox.get (Inbox.delete dir key) key = none := by
  induction dir with
  | nil => rfl
  | cons e rest ih =>
    obtain ⟨k, c⟩ := e
    by_cases h : k = key
    · rw [Inbox.delete, if_pos h]
      exact ih
    · rw [Inbox.delete, if_neg h, Inbox.get, if_neg h]
      exact ih

theorem Inbox_get_delete_other {W : Type} (dir : Inbox W) (key k : List Nat) (hk : k ≠ key) :
    Inbox.get (Inbox.delete dir key) k = Inbox.get dir k := by
  induction dir with
  | nil => rfl
  | cons e rest ih =>
    obtain ⟨k1, c⟩ := e
    by_cases h : k1 = key
    · have h1 : k1 ≠ k := fun e => hk (e ▸ h)
      rw [Inbox.delete, if_pos h, Inbox.get, if_neg h1]
      exact ih
    · rw [Inbox.delete, if_neg h, Inbox.get, Inbox.get, ih]

theorem Inbox_delete_of_get_none {W : Type} (dir : Inbox W) (key : List Nat)
    (h : Inbox.get dir key = none) : Inbox.delete dir key = dir := by
  induction dir with
  | nil => rfl
  | cons e rest ih =>
    obtain ⟨k, c⟩ := e
    by_cases hk : k = key
    · rw [Inbox.get, if_pos hk] at h
      cases h
    · rw [Inbox.get, if_neg hk] at h
      rw [Inbox.delete, if_neg hk, ih h]

theorem Inbox_get_set_self {W : Type} (dir : Inbox W) (key : List Nat) (ch : W) :
    Inbox.get (Inbox.set dir key ch) key = some ch := by
  induction dir with
  | nil => simp [Inbox.set, Inbox.get]
  | cons e rest ih =>
    obtain ⟨k, c⟩ := e
    by_cases h : k = key
    · rw [Inbox.set, if_pos h, Inbox.get, if_pos h]
    · rw [Inbox.set, if_neg h, Inbox.get, if_neg h]
      exact ih

/-- C23: for every inbox and frame `f` with identity key `key`: when a waiter
`w` is registered under `key`, `forward` sends `f` to `w` and to no other
waiter and removes the registration, so that a second frame with the same key
is discarded and the other registrations stay; when no waiter is registered
under `key`, `f` is discarded and the inbox is unchanged. A waiter that
receives `f` is the one registered under the key of `f`, and a waiter
registered by `expect` for `msg` is registered under the key of `msg`. -/
theorem forward_delivers_registered {W : Type} (dir : Inbox W) (f : pwp.Message)
    (key : List Nat) (hid : f.Id = .ok key) :
    (∀ w, Inbox.get dir key = some w →
      forward dir f = .ok (Inbox.delete dir key, some w) ∧
      Inbox.get (Inbox.delete dir key) key = none ∧
      (∀ g : pwp.Message, g.Id = .ok key →
        forward (Inbox.delete dir key) g = .ok (Inbox.delete dir key, none)) ∧
      (∀ k, k ≠ key → Inbox.get (Inbox.delete dir key) k = Inbox.get dir k)) ∧
    (Inbox.get dir key = none → forward dir f = .ok (dir, none)) ∧
    (∀ dir1 w, forward dir f = .ok (dir1, some w) → Inbox.get dir key = some w) ∧
    (∀ (ch : W) (msg : pwp.Message) (k : List Nat), msg.Id = .ok k →
      ∃ dir1, expect dir ch msg = .ok dir1 ∧ Inbox.get dir1 k = some ch) := by
  refine ⟨?_, ?_, ?_, ?_⟩
  · intro w hw
    refine ⟨?_, Inbox_get_delete_self dir key, ?_, fun k hk => Inbox_get_delete_other dir key k hk⟩
    · rw [forward, hid]
      dsimp only
      rw [hw]
    · intro g hg
      rw [forward, hg]
      dsimp only
      rw [Inbox_get_delete_self]
  · intro hn
    rw [forward, hid]
    dsimp only
    rw [hn]
  · intro dir1 w h
    rw [forward, hid] at h
    dsimp only at h
    cases hg : Inbox.get dir key with
    | none =>
      rw [hg] at h
      simp at h
    | some c =>
      rw [hg] at h
      simp only [Outcome.ok.injEq, Prod.mk.injEq, Option.some.injEq] at h
      rw [h.2]
  · intro ch msg k hk
    refine ⟨Inbox.set dir k ch, ?_, Inbox_get_set_self dir k ch⟩
    rw [expect, hk]

/-- Witness of C23: with waiters 1 and 2 registered for the piece replies
`(0, 0)` and `(0, 16384)`, a reply for `(0, 16384)` goes to waiter 2. -/
theorem forward_delivers_registered_witness :
    forward
      ([([0, 0, 0, 9, 7, 0, 0, 0, 0, 0, 0, 0, 0], 1),
        ([0, 0, 0, 9, 7, 0, 0, 0, 0, 0, 0, 64, 0], 2)] : Inbox Nat)
      { Typ := pwp.MessagePiece, PieceIndex := 0, BlockOffset := 16384, BlockLength := 0,
        Data := [5, 6] }
      = .ok ([([0, 0, 0, 9, 7, 0, 0, 0, 0, 0, 0, 0, 0], 1)], some 2) :=
  ((forward_delivers_registered
    ([([0, 0, 0, 9, 7, 0, 0, 0, 0, 0, 0, 0, 0], 1),
      ([0, 0, 0, 9, 7, 0, 0, 0, 0, 0, 0, 64, 0], 2)] : Inbox Nat)
    { Typ := pwp.MessagePiece, PieceIndex := 0, BlockOffset := 16384, BlockLength := 0,
      Data := [5, 6] }
    [0, 0, 0, 9, 7, 0, 0, 0, 0, 0, 0, 64, 0] (by decide)).1 2 (by decide)).1

/-! ## The announce URL -/

theorem upperhex_ne_plus (n : Nat) : upperhex n ≠ 43 := by
  unfold upperhex
  have h0 : '0'.toNat = 48 := rfl
  have hA : 'A'.toNat = 65 := rfl
  split_ifs <;> omega

theorem count_plus_escapeByte (c : Nat) :
    (escapeByte c).count 43 = if c = 32 then 1 else 0 := by
  unfold escapeByte
  have hs : ' '.toNat = 32 := rfl
  have hp : '+'.toNat = 43 := rfl
  have hq : '%'.toNat = 37 := rfl
  rw [hs, hp, hq]
  by_cases h : c = 32
  · rw [if_pos h, if_pos h]
    rfl
  · rw [if_neg h, if_neg h]
    by_cases he : shouldEscape c = true
    · rw [if_pos he]
      have h1 := upperhex_ne_plus (c / 16)
      have h2 := upperhex_ne_plus (c % 16)
      simp [List.count_cons, h1, h2]
    · rw [if_neg he]
      have hc : c ≠ 43 := by
        intro e
        apply he
        rw [e]
        decide
      simp [List.count_cons, hc]

theorem count_plus_QueryEscape (s : List Nat) : (QueryEscape s).count 43 = s.count 32 := by
  unfold QueryEscape
  induction s with
  | nil => rfl
  | cons c rest ih =>
    rw [List.map_cons, List.flatten_cons, List.count_append, ih, count_plus_escapeByte,
      List.count_cons]
    by_cases h : c = 32
    · simp [h]
      omega
    · simp [h]

theorem count_replaceFirst (s new : List Nat) (old : Nat) (hn : new.count old = 0) :
    (replaceFirst s old new).count old = s.count old - 1 := by
  induction s with
  | nil => rfl
  | cons c rest ih =>
    rw [replaceFirst]
    by_cases h : c = old
    · rw [if_pos h, List.count_append, hn, h, List.count_cons_self]
      omega
    · rw [if_neg h, List.count_cons_of_ne (fun e => h e.symm),
        List.count_cons_of_ne (fun e => h e.symm), ih]

/-- The number of `+` bytes in the `info_hash` part of the query: one less
than the number of space bytes of the hash. -/
theorem count_plus_infoHashQuery (infoHash : List Nat) :
    (infoHashQuery infoHash).count 43 = infoHash.count 32 - 1 := by
  unfold infoHashQuery
  have hp : '+'.toNat = 43 := rfl
  rw [hp, count_replaceFirst _ _ _ (by decide), List.count_append, count_plus_QueryEscape]
  have : (bencode.str "info_hash=").count 43 = 0 := by decide
  rw [this, Nat.zero_add]

/-- C21 (the code at the failing input): for a hash with the two space bytes
`20 20` in front of eighteen bytes `61`, the `info_hash` value in the query is
`%20+aaaaaaaaaaaaaaaaaa`: the second space stays a `+`, because
`strings.Replace` is called with the count 1. In general the value holds one
`+` less than the hash holds space bytes. -/
theorem infoHashQuery_keeps_plus :
    infoHashQuery (32 :: 32 :: List.replicate 18 97)
      = bencode.str "info_hash=%20+aaaaaaaaaaaaaaaaaa" ∧
    (32 :: 32 :: List.replicate 18 97 : List Nat).length = 20 ∧
    '+'.toNat ∈ infoHashQuery (32 :: 32 :: List.replicate 18 97) ∧
    (∀ infoHash : List Nat,
      (infoHashQuery infoHash).count '+'.toNat = infoHash.count ' '.toNat - 1) ∧
    rawQuery (32 :: 32 :: List.replicate 18 97) (bencode.str "-PK-0100-0123456890a")
        (bencode.str "50000") 1048576
      = bencode.str ("info_hash=%20+aaaaaaaaaaaaaaaaaa&compact=1&downloaded=0&left=1048576"
          ++ "&peer_id=-PK-0100-0123456890a&port=50000&uploaded=0") := by
  refine ⟨by decide, by decide, by decide, fun h => count_plus_infoHashQuery h, by decide⟩

/-! ## The block requests -/

/-- For a piece length above `2^32 - 16384` the loop of `fetchPiece` never
ends: every offset it reaches is a multiple of 16384 below the piece length. -/
theorem blockRequests_never_ends (L : Nat) (hL : 4294950912 < L) (fuel : Nat) :
    ∀ offs, offs % 16384 = 0 → offs < 4294967296 → blockRequests fuel L offs = none := by
  induction fuel with
  | zero =>
    intro offs _ _
    rfl
  | succ f ih =>
    intro offs h1 h2
    have hlt : offs < L := by omega
    have hn := ih ((offs + blockLength) % 4294967296)
      (by unfold blockLength; omega) (by omega)
    rw [blockRequests, if_pos hlt, hn]

/-- For a piece length of at most `2^32 - 16384` the loop of `fetchPiece`
sends, from the offset `16384 * k` on, the requests at the offsets `16384 * j`
below the piece length, each for `min(16384, L - 16384 * j)` bytes. -/
theorem blockRequests_from (L : Nat) (hL : L ≤ 4294950912) (m : Nat) :
    ∀ k fuel, (L + 16383) / 16384 = k + m → m < fuel →
      blockRequests fuel L (16384 * k)
        = some ((List.range' k m).map fun j => (16384 * j, min 16384 (L - 16384 * j))) := by
  induction m with
  | zero =>
    intro k fuel hk hf
    obtain ⟨f, rfl⟩ : ∃ f, fuel = f + 1 := ⟨fuel - 1, by omega⟩
    rw [blockRequests, if_neg (by omega)]
    rfl
  | succ m ih =>
    intro k fuel hk hf
    obtain ⟨f, rfl⟩ : ∃ f, fuel = f + 1 := ⟨fuel - 1, by omega⟩
    have hlt : 16384 * k < L := by omega
    have hnext : (16384 * k + blockLength) % 4294967296 = 16384 * (k + 1) := by
      unfold blockLength
      omega
    have hreq : requestLength L (16384 * k) = min 16384 (L - 16384 * k) := by
      unfold requestLength
      rw [hnext]
      unfold blockLength
      split_ifs <;> omega
    rw [blockRequests, if_pos hlt, hnext, ih (k + 1) f (by omega) (by omega), hreq]
    rfl

theorem sum_requestLengths (L n : Nat) :
    ((List.range n).map fun j => min 16384 (L - 16384 * j)).sum = min L (16384 * n) := by
  induction n with
  | zero => simp
  | succ n ih =>
    rw [List.range_succ, List.map_append, List.sum_append, ih]
    simp only [List.map_cons, List.map_nil, List.sum_cons, List.sum_nil]
    omega

/-- The requests of `fetchPiece` for a piece length of at most `2^32 - 16384`:
the loop ends after `ceil(L / 16384)` requests, at the offsets `0, 16384, ..`
below `L` in ascending order, and the lengths asked for add up to `L`. -/
theorem blockRequests_spec (L : Nat) (hL : L ≤ 4294950912) :
    blockRequests ((L + 16383) / 16384 + 1) L 0
      = some ((List.range ((L + 16383) / 16384)).map fun j =>
          (16384 * j, min 16384 (L - 16384 * j))) ∧
    (((List.range ((L + 16383) / 16384)).map fun j =>
        (16384 * j, min 16384 (L - 16384 * j))).map Prod.snd).sum = L := by
  constructor
  · have h := blockRequests_from L hL ((L + 16383) / 16384) 0 ((L + 16383) / 16384 + 1)
      (by omega) (by omega)
    rw [List.range_eq_range']
    exact h
  · rw [List.map_map]
    have h := sum_requestLengths L ((L + 16383) / 16384)
    have e : (Prod.snd ∘ fun j => (16384 * j, min 16384 (L - 16384 * j)))
        = fun j => min 16384 (L - 16384 * j) := rfl
    rw [e, h]
    omega

/-- C25 (the code at the failing input): for the piece length `2^32 - 1` the
request at the offset `2^32 - 16384` asks for 16384 bytes although 16383 are
left, because `offs+blockLength` wraps around to 0; the offset of the next
round is 0 again and the loop never ends. For every piece length of at most
`2^32 - 16384` the requests are those of the claim. -/
theorem blockRequests_wraps_around :
    requestLength 4294967295 4294950912 = 16384 ∧
    4294967295 - 4294950912 = 16383 ∧
    (4294950912 + blockLength) % 4294967296 = 0 ∧
    (∀ fuel, blockRequests fuel 4294967295 0 = none) ∧
    (∀ L, L ≤ 4294950912 →
      blockRequests ((L + 16383) / 16384 + 1) L 0
        = some ((List.range ((L + 16383) / 16384)).map fun j =>
            (16384 * j, min 16384 (L - 16384 * j)))) := by
  refine ⟨by decide, by decide, by decide, ?_, fun L hL => (blockRequests_spec L hL).1⟩
  intro fuel
  exact blockRequests_never_ends 4294967295 (by decide) fuel 0 (by decide) (by decide)

/-! ## The loop of the download driver -/

theorem driver_run_append (s : driver) (a b : List driverStep) :
    driver.run s (a ++ b) = (driver.run s a).bind fun s1 => driver.run s1 b := by
  induction a generalizing s with
  | nil => rfl
  | cons st rest ih =>
    rw [List.cons_append, driver.run, driver.run]
    cases s.step st with
    | none => rfl
    | some s1 => exact ih s1

theorem driver_run_adopts (s : driver) (n : Nat) :
    driver.run s (List.replicate n .adopt) = some { s with fetching := s.fetching + n } := by
  induction n generalizing s with
  | zero => rfl
  | succ n ih =>
    rw [List.replicate_succ, driver.run]
    simp only [driver.step]
    rw [ih]
    simp only [Option.some.injEq, driver.mk.injEq, true_and, and_true]
    omega

/-- The channel `wait` never holds more than 5 values, and in a run without
the step `adopt` the goroutines that were forked and have not yet received
from `wait` are as many as the values in `wait`. -/
theorem driver_run_inv (sts : List driverStep) :
    ∀ s s1, driver.run s sts = some s1 → s.wait ≤ 5 →
      s1.wait ≤ 5 ∧
      (driverStep.adopt ∉ sts → s.fetching + s.releasing = s.wait →
        s1.fetching + s1.releasing = s1.wait) := by
  induction sts with
  | nil =>
    intro s s1 h hw
    rw [driver.run, Option.some.injEq] at h
    subst h
    exact ⟨hw, fun _ h => h⟩
  | cons st rest ih =>
    intro s s1 h hw
    rw [driver.run] at h
    cases hs : s.step st with
    | none =>
      rw [hs] at h
      cases h
    | some s2 =>
      rw [hs] at h
      dsimp only at h
      cases st with
      | acquire =>
        simp only [driver.step] at hs
        split_ifs at hs with hc
        rw [Option.some.injEq] at hs
        subst hs
        obtain ⟨h1, h2⟩ := ih _ s1 h (by dsimp only; omega)
        refine ⟨h1, fun hn he => h2 (fun hm => hn (List.mem_cons_of_mem _ hm)) ?_⟩
        dsimp only
        omega
      | adopt =>
        simp only [driver.step, Option.some.injEq] at hs
        subst hs
        obtain ⟨h1, -⟩ := ih _ s1 h hw
        exact ⟨h1, fun hn => absurd (List.mem_cons_self _ _) hn⟩
      | fetched =>
        simp only [driver.step] at hs
        split_ifs at hs with hc
        rw [Option.some.injEq] at hs
        subst hs
        obtain ⟨h1, h2⟩ := ih _ s1 h hw
        refine ⟨h1, fun hn he => h2 (fun hm => hn (List.mem_cons_of_mem _ hm)) ?_⟩
        dsimp only
        omega
      | release =>
        simp only [driver.step] at hs
        split_ifs at hs with hc
        rw [Option.some.injEq] at hs
        subst hs
        obtain ⟨h1, h2⟩ := ih _ s1 h (by dsimp only; omega)
        refine ⟨h1, fun hn he => h2 (fun hm => hn (List.mem_cons_of_mem _ hm)) ?_⟩
        dsimp only
        omega

/-- C27 (the code at the failing schedule): after five rounds that take the
case `wait <- 1` and one round that takes the case `peer = <-peers`, six
goroutines are inside `getPiece` while `wait` holds 5 values; with `n` rounds
of the second kind there are `5 + n`. The channel `wait` itself never holds
more than 5 values, and a run without the case `peer = <-peers` keeps the
forked goroutines at no more than 5. -/
theorem driver_exceeds_semaphore :
    driver.run driver.init [.acquire, .acquire, .acquire, .acquire, .acquire, .adopt]
      = some { wait := 5, fetching := 6, releasing := 0 } ∧
    (∀ n, driver.run driver.init
        ([.acquire, .acquire, .acquire, .acquire, .acquire] ++ List.replicate n .adopt)
      = some { wait := 5, fetching := 5 + n, releasing := 0 }) ∧
    (∀ sts s1, driver.run driver.init sts = some s1 →
      s1.wait ≤ 5 ∧ (driverStep.adopt ∉ sts → s1.fetching + s1.releasing ≤ 5)) := by
  refine ⟨by decide, ?_, ?_⟩
  · intro n
    rw [driver_run_append]
    have h : driver.run driver.init [.acquire, .acquire, .acquire, .acquire, .acquire]
        = some { wait := 5, fetching := 5, releasing := 0 } := by decide
    rw [h, Option.some_bind, driver_run_adopts]
  · intro sts s1 h
    obtain ⟨h1, h2⟩ := driver_run_inv sts driver.init s1 h (by decide)
    refine ⟨h1, fun hn => ?_⟩
    have := h2 hn rfl
    omega

/-! ## The piece manager -/

theorem firstFalse_le (ps : List Bool) : firstFalse ps ≤ ps.length := by
  induction ps with
  | nil => exact le_refl _
  | cons b rest ih =>
    rw [firstFalse]
    split_ifs
    · exact Nat.zero_le _
    · rw [List.length_cons]
      omega

theorem firstFalse_below (ps : List Bool) :
    ∀ j, j < firstFalse ps → ps[j]? = some true := by
  induction ps with
  | nil =>
    intro j hj
    exact absurd hj (Nat.not_lt_zero _)
  | cons b rest ih =>
    intro j hj
    rw [firstFalse] at hj
    split_ifs at hj with hb
    · exact absurd hj (Nat.not_lt_zero _)
    · cases j with
      | zero =>
        rw [List.getElem?_cons_zero]
        cases b
        · exact absurd rfl hb
        · rfl
      | succ j =>
        rw [List.getElem?_cons_succ]
        exact ih j (by omega)

theorem firstFalse_at (ps : List Bool) (h : firstFalse ps ≠ ps.length) :
    ps[firstFalse ps]? = some false := by
  induction ps with
  | nil => exact absurd rfl h
  | cons b rest ih =>
    rw [firstFalse] at h ⊢
    split_ifs at h ⊢ with hb
    · rw [List.getElem?_cons_zero, hb]
    · rw [List.getElem?_cons_succ]
      exact ih (fun e => h (by rw [List.length_cons, e]))

theorem firstFalse_eq_length (ps : List Bool) :
    firstFalse ps = ps.length ↔ ∀ b ∈ ps, b = true := by
  induction ps with
  | nil => simp [firstFalse]
  | cons b rest ih =>
    rw [firstFalse]
    cases b
    · simp
    · simp [ih]

theorem countTrue_le (s : List Bool) : countTrue s ≤ s.length := by
  induction s with
  | nil => exact le_refl _
  | cons b rest ih =>
    rw [countTrue, List.length_cons]
    split_ifs <;> omega

theorem countTrue_eq_length (s : List Bool) :
    countTrue s = s.length ↔ ∀ b ∈ s, b = true := by
  induction s with
  | nil => simp [countTrue]
  | cons b rest ih =>
    have hle := countTrue_le rest
    rw [countTrue, List.length_cons]
    cases b
    · simp
      omega
    · simp [ih]

theorem copyInto_full {α : Type} (dst src : List α) (h : src.length = dst.length) :
    copyInto dst 0 dst.length src = src := by
  unfold copyInto
  rw [List.take_zero, List.nil_append, Nat.sub_zero, ← h, List.take_length, Nat.min_self,
    Nat.zero_add, h, List.drop_length, List.append_nil]

/-- The three cases of a round of the piece manager. -/
theorem managerRound_cases (counted copied ps : List Bool) :
    (managerRound counted copied ps = (.close, ps) ∧
      (∀ b ∈ ps, b = true) ∧ ∀ b ∈ counted, b = true) ∨
    (managerRound counted copied ps = (.recopy, copyInto ps 0 ps.length copied) ∧
      (∀ b ∈ ps, b = true) ∧ ∃ b ∈ counted, b = false) ∨
    (managerRound counted copied ps = (.emit (firstFalse ps), ps.set (firstFalse ps) true) ∧
      firstFalse ps < ps.length ∧ ps[firstFalse ps]? = some false ∧
      ∀ j, j < firstFalse ps → ps[j]? = some true) := by
  unfold managerRound
  dsimp only
  by_cases h1 : firstFalse ps = ps.length
  · rw [if_pos h1]
    have hall := (firstFalse_eq_length ps).mp h1
    by_cases h2 : countTrue counted = counted.length
    · rw [if_pos h2]
      exact Or.inl ⟨rfl, hall, (countTrue_eq_length counted).mp h2⟩
    · rw [if_neg h2]
      refine Or.inr (Or.inl ⟨rfl, hall, ?_⟩)
      by_contra hc
      apply h2
      rw [countTrue_eq_length]
      intro b hb
      cases b
      · exact absurd ⟨false, hb, rfl⟩ hc
      · rfl
  · rw [if_neg h1]
    have hle := firstFalse_le ps
    exact Or.inr (Or.inr ⟨rfl, by omega, firstFalse_at ps h1, firstFalse_below ps⟩)

/-- A run of the loop of the piece manager that closes the piece channel has
a round whose counting loop read only true values from the authoritative set:
the rounds before it do not close, this round closes whatever would be read
after it. -/
theorem manageLoop_closed (reads : List (List Bool × List Bool)) :
    ∀ (base : List Bool) (sent : List Nat) (ps : List Bool),
      (manageLoop reads base sent ps).2 = true →
      ∃ pre counted copied post, reads = pre ++ (counted, copied) :: post ∧
        (∀ b ∈ counted, b = true) ∧
        (manageLoop pre base sent ps).2 = false ∧
        ∀ post1, (manageLoop (pre ++ (counted, copied) :: post1) base sent ps).2 = true := by
  induction reads with
  | nil =>
    intro base sent ps h
    rw [manageLoop] at h
    cases h
  | cons r rest ih =>
    obtain ⟨counted, copied⟩ := r
    intro base sent ps h
    rw [manageLoop] at h
    rcases managerRound_cases counted copied ps with ⟨e, -, h2⟩ | ⟨e, -, -⟩ | ⟨e, -, -, -⟩
    · refine ⟨[], counted, copied, rest, rfl, h2, ?_, ?_⟩
      · rw [manageLoop]
      · intro post1
        rw [List.nil_append, manageLoop, e]
    · rw [e] at h
      dsimp only at h
      obtain ⟨pre, c1, c2, post, hr, hc, hpre, hpost⟩ := ih _ _ _ h
      refine ⟨(counted, copied) :: pre, c1, c2, post, ?_, hc, ?_, ?_⟩
      · rw [hr, List.cons_append]
      · rw [manageLoop, e]
        exact hpre
      · intro post1
        rw [List.cons_append, manageLoop, e]
        exact hpost post1
    · rw [e] at h
      dsimp only at h
      obtain ⟨pre, c1, c2, post, hr, hc, hpre, hpost⟩ := ih _ _ _ h
      refine ⟨(counted, copied) :: pre, c1, c2, post, ?_, hc, ?_, ?_⟩
      · rw [hr, List.cons_append]
      · rw [manageLoop, e]
        exact hpre
      · intro post1
        rw [List.cons_append, manageLoop, e]
        exact hpost post1

/-- C22: a round of the piece manager closes the piece channel only when
every value it read from the authoritative set is true; when the speculative
set is all true and some authoritative entry is read as false, it does not
close but copies the authoritative set into the speculative set and goes on;
with zero pieces the first round closes. A run of `managePieces` that closes
the piece channel has a round whose counting loop read only true values from
the authoritative set, before which it has not closed and at which it closes;
a run whose counting loops all read a false entry does not close. With the
authoritative set `[true, false]` the piece manager sends 1, finds piece 1
missing, copies, sends 1 again and closes when piece 1 is there, not a round
earlier. -/
theorem managerRound_close (counted copied ps : List Bool) :
    (∀ ps1, managerRound counted copied ps = (.close, ps1) →
      (∀ b ∈ counted, b = true) ∧ (∀ b ∈ ps, b = true) ∧ ps1 = ps) ∧
    ((∀ b ∈ ps, b = true) → (∃ b ∈ counted, b = false) →
      managerRound counted copied ps = (.recopy, copyInto ps 0 ps.length copied) ∧
      (copied.length = ps.length → copyInto ps 0 ps.length copied = copied) ∧
      ∀ rest base sent, manageLoop ((counted, copied) :: rest) base sent ps
        = ((base, sent) :: (manageLoop rest (copyInto ps 0 ps.length copied) []
              (copyInto ps 0 ps.length copied)).1,
           (manageLoop rest (copyInto ps 0 ps.length copied) []
              (copyInto ps 0 ps.length copied)).2)) ∧
    ((∀ b ∈ ps, b = true) → (∀ b ∈ counted, b = true) →
      managerRound counted copied ps = (.close, ps)) ∧
    (∀ copied1 rest, managePieces [] (([], copied1) :: rest) = ([([], [])], true)) ∧
    (∀ clientPiecesSet reads, (managePieces clientPiecesSet reads).2 = true →
      ∃ pre counted1 copied1 post, reads = pre ++ (counted1, copied1) :: post ∧
        (∀ b ∈ counted1, b = true) ∧
        (managePieces clientPiecesSet pre).2 = false ∧
        ∀ post1,
          (managePieces clientPiecesSet (pre ++ (counted1, copied1) :: post1)).2 = true) ∧
    (∀ clientPiecesSet reads, (∀ r ∈ reads, ∃ b ∈ r.1, b = false) →
      (managePieces clientPiecesSet reads).2 = false) ∧
    managePieces [true, false]
        [([true, false], [true, false]), ([true, false], [true, false]),
         ([true, false], [true, false]), ([true, true], [true, true])]
      = ([([true, false], [1]), ([true, false], [1])], true) ∧
    managePieces [true, false]
        [([true, false], [true, false]), ([true, false], [true, false]),
         ([true, false], [true, false])]
      = ([([true, false], [1]), ([true, false], [1])], false) ∧
    managePieces [true, false] [] = ([([true, false], [])], false) := by
  refine ⟨?_, ?_, ?_, ?_, ?_, ?_, by decide, by decide, by decide⟩
  · intro ps1 h
    rcases managerRound_cases counted copied ps with ⟨e, h1, h2⟩ | ⟨e, -, -⟩ | ⟨e, -, -, -⟩
    · rw [e] at h
      exact ⟨h2, h1, (Prod.mk.inj h).2.symm⟩
    · rw [e] at h
      cases (Prod.mk.inj h).1
    · rw [e] at h
      cases (Prod.mk.inj h).1
  · intro hps hc
    have hr : managerRound counted copied ps = (.recopy, copyInto ps 0 ps.length copied) := by
      rcases managerRound_cases counted copied ps with ⟨-, -, h2⟩ | ⟨e, -, -⟩ | ⟨-, h3, h4, -⟩
      · obtain ⟨b, hb, hf⟩ := hc
        rw [h2 b hb] at hf
        cases hf
      · exact e
      · have := hps _ (List.getElem?_mem h4)
        cases this
    refine ⟨hr, fun hl => copyInto_full ps copied hl, ?_⟩
    intro rest base sent
    rw [manageLoop, hr]
  · intro hps hc
    rcases managerRound_cases counted copied ps with ⟨e, -, -⟩ | ⟨-, -, b, hb, hf⟩ | ⟨-, -, h4, -⟩
    · exact e
    · rw [hc b hb] at hf
      cases hf
    · have := hps _ (List.getElem?_mem h4)
      cases this
  · intro copied1 rest
    rfl
  · intro clientPiecesSet reads h
    exact manageLoop_closed reads _ _ _ h
  · intro clientPiecesSet reads hall
    cases hc : (managePieces clientPiecesSet reads).2 with
    | false => rfl
    | true =>
      obtain ⟨pre, c1, c2, post, hr, hall1, -, -⟩ := manageLoop_closed reads _ _ _ hc
      obtain ⟨b, hb, hf⟩ := hall (c1, c2) (by rw [hr]; simp)
      rw [hall1 b hb] at hf
      cases hf

theorem set_true_getElem? (ps : List Bool) (i j : Nat) (hi : i < ps.length)
    (h : ps[j]? = some true ∨ j = i) : (ps.set i true)[j]? = some true := by
  by_cases e : i = j
  · subst e
    exact List.getElem?_set_self hi
  · rw [List.getElem?_set_ne e]
    rcases h with h | h
    · exact h
    · exact absurd h.symm e

/-- The invariant of the loop of the piece manager: the indices sent since the
last (re)initialisation ascend, every entry up to a sent index is speculatively
true, and an entry that is speculatively false was false at the last
(re)initialisation. -/
theorem manageLoop_epochs (reads : List (List Bool × List Bool)) :
    ∀ (base : List Bool) (sent : List Nat) (ps : List Bool),
      sent.Pairwise (· < ·) →
      (∀ s ∈ sent, ∀ j : Nat, j ≤ s → ps[j]? = some true) →
      (∀ j : Nat, ps[j]? = some false → base[j]? = some false) →
      (∀ s ∈ sent, base[s]? = some false) →
      ∀ e ∈ (manageLoop reads base sent ps).1,
        e.2.Pairwise (· < ·) ∧ ∀ i ∈ e.2, e.1[i]? = some false := by
  induction reads with
  | nil =>
    intro base sent ps h1 _ _ h4 e he
    rw [manageLoop, List.mem_singleton] at he
    subst he
    exact ⟨h1, h4⟩
  | cons r rest ih =>
    obtain ⟨counted, copied⟩ := r
    intro base sent ps h1 h2 h3 h4 e he
    rw [manageLoop] at he
    rcases managerRound_cases counted copied ps with
      ⟨hr, -, -⟩ | ⟨hr, -, -⟩ | ⟨hr, hlt, hat, hbelow⟩
    · rw [hr] at he
      dsimp only at he
      rw [List.mem_singleton] at he
      subst he
      exact ⟨h1, h4⟩
    · rw [hr] at he
      dsimp only at he
      rcases List.mem_cons.mp he with he | he
      · subst he
        exact ⟨h1, h4⟩
      · exact ih _ [] _ List.Pairwise.nil (fun s hs => absurd hs (List.not_mem_nil s))
          (fun j hj => hj) (fun s hs => absurd hs (List.not_mem_nil s)) e he
    · rw [hr] at he
      dsimp only at he
      have hnew : ∀ s ∈ sent, s < firstFalse ps := by
        intro s hs
        by_contra hc
        have := h2 s hs (firstFalse ps) (by omega)
        rw [hat] at this
        cases this
      refine ih base (sent ++ [firstFalse ps]) (ps.set (firstFalse ps) true) ?_ ?_ ?_ ?_ e he
      · rw [List.pairwise_append]
        refine ⟨h1, List.pairwise_singleton _ _, ?_⟩
        intro a ha b hb
        rw [List.mem_singleton] at hb
        subst hb
        exact hnew a ha
      · intro s hs j hj
        rcases List.mem_append.mp hs with hs | hs
        · exact set_true_getElem? ps _ j hlt (Or.inl (h2 s hs j hj))
        · rw [List.mem_singleton] at hs
          subst hs
          by_cases e1 : j = firstFalse ps
          · exact set_true_getElem? ps _ j hlt (Or.inr e1)
          · exact set_true_getElem? ps _ j hlt (Or.inl (hbelow j (by omega)))
      · intro j hj
        by_cases e1 : firstFalse ps = j
        · subst e1
          rw [List.getElem?_set_self hlt] at hj
          cases hj
        · rw [List.getElem?_set_ne e1] at hj
          exact h3 j hj
      · intro s hs
        rcases List.mem_append.mp hs with hs | hs
        · exact h4 s hs
        · rw [List.mem_singleton] at hs
          subst hs
          exact h3 _ hat

/-- Every speculative set that the piece manager makes at a (re)initialisation
is the one it started with or the values that a `copy` read from the
authoritative set. -/
theorem manageLoop_bases (n : Nat) (reads : List (List Bool × List Bool)) :
    ∀ (base : List Bool) (sent : List Nat) (ps : List Bool), ps.length = n →
      (∀ r ∈ reads, r.2.length = n) →
      ∀ e ∈ (manageLoop reads base sent ps).1, e.1 = base ∨ ∃ r ∈ reads, e.1 = r.2 := by
  induction reads with
  | nil =>
    intro base sent ps _ _ e he
    rw [manageLoop, List.mem_singleton] at he
    subst he
    exact Or.inl rfl
  | cons r rest ih =>
    obtain ⟨counted, copied⟩ := r
    intro base sent ps hn hr e he
    have hrest : ∀ r ∈ rest, r.2.length = n := fun r h => hr r (List.mem_cons_of_mem _ h)
    have hcop : copied.length = ps.length := by
      rw [hn]
      exact hr (counted, copied) (List.mem_cons_self _ _)
    rw [manageLoop] at he
    rcases managerRound_cases counted copied ps with
      ⟨hc, -, -⟩ | ⟨hc, -, -⟩ | ⟨hc, -, -, -⟩
    · rw [hc] at he
      dsimp only at he
      rw [List.mem_singleton] at he
      subst he
      exact Or.inl rfl
    · rw [hc, copyInto_full ps copied hcop] at he
      dsimp only at he
      rcases List.mem_cons.mp he with he | he
      · subst he
        exact Or.inl rfl
      · rcases ih copied [] copied (by rw [hcop, hn]) hrest e he with h | ⟨r, hr1, hr2⟩
        · exact Or.inr ⟨(counted, copied), List.mem_cons_self _ _, h⟩
        · exact Or.inr ⟨r, List.mem_cons_of_mem _ hr1, hr2⟩
    · rw [hc] at he
      dsimp only at he
      rcases ih base _ _ (by rw [List.length_set, hn]) hrest e he with h | ⟨r, hr1, hr2⟩
      · exact Or.inl h
      · exact Or.inr ⟨r, List.mem_cons_of_mem _ hr1, hr2⟩

theorem managePieces_eq (clientPiecesSet : List Bool)
    (reads : List (List Bool × List Bool)) :
    managePieces clientPiecesSet reads = manageLoop reads clientPiecesSet [] clientPiecesSet := by
  unfold managePieces
  dsimp only
  have h := copyInto_full (List.replicate clientPiecesSet.length false) clientPiecesSet
    (by rw [List.length_replicate])
  rw [h]

/-- C26: an index that a round of the piece manager sends is the smallest
index whose speculative entry is false, and the round sets that entry true;
in every run, the indices sent between two consecutive (re)initialisations of
the speculative set ascend strictly, so that none is sent twice, and each of
them was false in the set made by the last (re)initialisation, which is a
copy of the authoritative set. With three pieces of which piece 0 is complete
at the start and piece 2 completes during the run, the manager sends 1 and 2,
copies, sends 1 again and closes once all are complete. -/
theorem managePieces_emits_first_false (clientPiecesSet : List Bool)
    (reads : List (List Bool × List Bool)) :
    (∀ counted copied ps i ps1, managerRound counted copied ps = (.emit i, ps1) →
      i < ps.length ∧ ps[i]? = some false ∧ (∀ j : Nat, j < i → ps[j]? = some true) ∧
      ps1 = ps.set i true ∧ ps1[i]? = some true) ∧
    (∀ e ∈ (managePieces clientPiecesSet reads).1,
      e.2.Pairwise (· < ·) ∧ e.2.Nodup ∧ ∀ i ∈ e.2, e.1[i]? = some false) ∧
    ((∀ r ∈ reads, r.2.length = clientPiecesSet.length) →
      ∀ e ∈ (managePieces clientPiecesSet reads).1,
        e.1 = clientPiecesSet ∨ ∃ r ∈ reads, e.1 = r.2) ∧
    managePieces [true, false, false]
        [([true, false, false], [true, false, false]),
         ([true, false, false], [true, false, false]),
         ([true, false, true], [true, false, true]),
         ([true, false, true], [true, false, true]),
         ([true, true, true], [true, true, true])]
      = ([([true, false, false], [1, 2]), ([true, false, true], [1])], true) := by
  refine ⟨?_, ?_, ?_, by decide⟩
  · intro counted copied ps i ps1 h
    rcases managerRound_cases counted copied ps with
      ⟨hr, -, -⟩ | ⟨hr, -, -⟩ | ⟨hr, hlt, hat, hbelow⟩
    · rw [hr] at h
      cases (Prod.mk.inj h).1
    · rw [hr] at h
      cases (Prod.mk.inj h).1
    · rw [hr] at h
      obtain ⟨e1, e2⟩ := Prod.mk.inj h
      injection e1 with e1
      subst e1
      subst e2
      exact ⟨hlt, hat, hbelow, rfl, List.getElem?_set_self hlt⟩
  · intro e he
    rw [managePieces_eq] at he
    have h := manageLoop_epochs reads _ [] _ List.Pairwise.nil
      (fun s hs => absurd hs (List.not_mem_nil s)) (fun j hj => hj)
      (fun s hs => absurd hs (List.not_mem_nil s)) e he
    exact ⟨h.1, h.1.imp (fun hab => Nat.ne_of_lt hab), h.2⟩
  · intro hr e he
    rw [managePieces_eq] at he
    exact manageLoop_bases clientPiecesSet.length reads _ [] _ rfl hr e he
end Bittorrent
